import Mathlib

/-!
# dcutils: the atom walker (`go/mov/walk.go`) and the GPS extractor (`go/sg/info.go`)

A shallow embedding of the two Go packages.  A byte source is a finite list of
bytes.  An `io.SectionReader` is modelled by the bytes that can be read through
it, the value its `Size()` method reports, and its cursor; the Go library
functions used by the code (`io.ReadFull`, `binary.Read`, `io.CopyN` into
`ioutil.Discard`, `io.NewSectionReader`, `Seek`) are modelled on that state.
The recursive loop `visitAtomList` is defined by structural recursion on a
fuel argument; `VisitAtoms` supplies one more unit of fuel than the source has
bytes, which is shown to be enough for every input.  The collector and
`GPSLogs` take a parameter `mem`, the largest entry count for which the
runtime can allocate an offset table; a `float32` field of a record is given
by the bit pattern of the value stored in it.  The conversion `toDD` of
`go/cmd/sggps/main.go` is read in exact rational arithmetic.
-/

namespace Dcutils

/-- A byte. -/
abbrev Byte := Fin 256

/-- Go strings are byte sequences; an atom tag is the string made of the four tag bytes. -/
abbrev Tag := List Byte

/-- Error values that can travel through the walker.  `other n` stands for any
further error value a visitor may return.  Two outcomes are not values the
code returns: `panic` stands for a run-time panic (index out of range)
unwinding through the walker, `outOfMemory` for the fatal error with which
the runtime ends the process when an allocation cannot be served; they travel
through the model like errors so that the outcome of a run can be read off. -/
inductive Err where
  | EOF
  | ErrUnexpectedEOF
  | ErrNotImplemented
  | ErrInvalidGPS
  | panic
  | outOfMemory
  | other (n : Nat)
  deriving DecidableEq, Repr

deriving instance DecidableEq for Except

/-- State of an `io.SectionReader`, seen from its base: `data` are the bytes
that reads can deliver (the section clipped by the limits of the readers it
sits on), `size` is what `Size()` reports (`limit - base`), `off` is the cursor
relative to the base. -/
structure SectionReader where
  data : List Byte
  size : Int
  off : Nat
  deriving DecidableEq, Repr

/-- A finite byte source (an opened file or an in-memory reader) as a
`ReadAtSeeker`: seeking to the end reports its length, reads stop at its end. -/
def fileReader (file : List Byte) : SectionReader :=
  { data := file, size := file.length, off := 0 }

/-- The largest `int64` value, `1<<63 - 1`. -/
def maxInt64 : Int := 9223372036854775807

/-- Library function `io.NewSectionReader(r, off, n)` over a reader `r` that is itself a section
(or a file): reads go through `r.ReadAt`, which is independent of the cursor of
`r` and clipped to what `r` can deliver.  The library sets the limit to
`off + n` when `off <= maxint64 - n` and to `maxint64` otherwise.  For `n < 0`
the difference `maxint64 - n` wraps around to a negative `int64`, the test
fails, and the section reaches up to `maxint64`: it delivers every byte that
`r` holds from `off` on, and `Size()` is `maxint64 - off`.  For `n >= 0` the
limit is `off + n` (offsets and lengths of the sources the code reads stay
below `2^63`). -/
def NewSectionReader (r : SectionReader) (off : Nat) (n : Int) : SectionReader :=
  if n < 0 then { data := r.data.drop off, size := maxInt64 - off, off := 0 }
  else { data := (r.data.drop off).take n.toNat, size := n, off := 0 }

/-- Library function `io.ReadFull(sr, buf)` with `len(buf) = n > 0`: the bytes read and the
error; `io.EOF` when nothing could be read, `io.ErrUnexpectedEOF` after a
partial read.  The cursor moves past the bytes read. -/
def readFull (sr : SectionReader) (n : Nat) : SectionReader × Except Err (List Byte) :=
  let got := (sr.data.drop sr.off).take n
  let sr1 := { sr with off := sr.off + got.length }
  if got.length = n then (sr1, .ok got)
  else if got.length = 0 then (sr1, .error .EOF)
  else (sr1, .error .ErrUnexpectedEOF)

/-- Big-endian value of a byte string. -/
def beUint (bs : List Byte) : Nat :=
  bs.foldl (fun acc b => acc * 256 + b.val) 0

/-- Little-endian value of a byte string. -/
def leUint : List Byte → Nat
  | [] => 0
  | b :: bs => b.val + 256 * leUint bs

/-- Library function `binary.Read(sr, binary.BigEndian, &x)` for a `uint32`. -/
def readUint32BE (sr : SectionReader) : SectionReader × Except Err Nat :=
  match readFull sr 4 with
  | (sr1, .ok bs) => (sr1, .ok (beUint bs))
  | (sr1, .error e) => (sr1, .error e)

/-- Library function `io.CopyN(ioutil.Discard, sr, n)`: reads up to `n` bytes and drops them.
With `n < 0` nothing is read and no error is reported (the limited reader is
at its end at once and `written == n` fails only towards the negative side);
otherwise `io.EOF` when the section ends before `n` bytes were read. -/
def copyNDiscard (sr : SectionReader) (n : Int) : SectionReader × Option Err :=
  let avail := sr.data.length - sr.off
  if n < 0 then (sr, none)
  else if n.toNat ≤ avail then ({ sr with off := sr.off + n.toNat }, none)
  else ({ sr with off := sr.off + avail }, some .EOF)

/-- Function `seekCur` of `walk.go`: the cursor relative to the base of the section. -/
def seekCur (sr : SectionReader) : Nat := sr.off

/-- Function `seekEnd` of `walk.go`: the size of the section (the cursor moves to the end). -/
def seekEnd (rs : SectionReader) : SectionReader × Int :=
  ({ rs with off := rs.size.toNat }, rs.size)

/-- Lines 81-95 of `nextAtom`: with the declared size `sz0` resolved, reads the
tag, skips `sz0 - 8` content bytes and builds the content view at the cursor
position found after the header. -/
def nextAtomRest (sr1 : SectionReader) (sz0 : Int) :
    SectionReader × Except Err (Tag × SectionReader) :=
  match readFull sr1 4 with
  | (sr2, .error e) => (sr2, .error e)
  | (sr2, .ok atyp) =>
    let sz := sz0 - 8
    let cur := seekCur sr2
    match copyNDiscard sr2 sz with
    | (sr3, some e) => (sr3, .error e)
    | (sr3, none) => (sr3, .ok (atyp, NewSectionReader sr3 cur sz))

/-- Function `nextAtom` of `walk.go`: decodes the header at the cursor of `sr`, skips the
content and returns the tag with a section over the content. -/
def nextAtom (sr : SectionReader) : SectionReader × Except Err (Tag × SectionReader) :=
  match readUint32BE sr with
  | (sr1, .error e) => (sr1, .error e)
  | (sr1, .ok asz) =>
    if asz = 0 then nextAtomRest sr1 sr1.size
    else if asz = 1 then (sr1, .error .ErrNotImplemented)
    else nextAtomRest sr1 (asz : Int)

def tagMoov : Tag := [0x6d, 0x6f, 0x6f, 0x76]
def tagTrak : Tag := [0x74, 0x72, 0x61, 0x6b]
def tagMdia : Tag := [0x6d, 0x64, 0x69, 0x61]
def tagMinf : Tag := [0x6d, 0x69, 0x6e, 0x66]
def tagStbl : Tag := [0x73, 0x74, 0x62, 0x6c]
def tagDinf : Tag := [0x64, 0x69, 0x6e, 0x66]
def tagSmhd : Tag := [0x73, 0x6d, 0x68, 0x64]
def tagVmhd : Tag := [0x76, 0x6d, 0x68, 0x64]
def tagStco : Tag := [0x73, 0x74, 0x63, 0x6f]
/-- The magic marker `"GPS "`. -/
def magicGPS : List Byte := [0x47, 0x50, 0x53, 0x20]

/-- The `switch ctype` of `visitAtomList`: the tags whose content is walked. -/
def isContainer (t : Tag) : Bool :=
  t = tagMoov || t = tagTrak || t = tagMdia || t = tagMinf || t = tagStbl || t = tagDinf

/-- A `mov.Visitor` with state `σ`: from its state, the path and the content
view (a fresh section, cursor at 0) it yields its new state, the cursor it
leaves the view at, and the error it returns. -/
abbrev Visitor (σ : Type) := σ → List Tag → SectionReader → σ × Nat × Option Err

/-- Function `visitAtomList` of `walk.go`.  `none` means the fuel ran out; otherwise the
final visitor state and the error returned. -/
def visitAtomList {σ : Type} (v : Visitor σ) :
    Nat → List Tag → σ → SectionReader → Option (σ × Option Err)
  | 0, _, _, _ => none
  | fuel + 1, root, s, sr =>
    match nextAtom sr with
    | (_, .error e) => if e = .EOF then some (s, none) else some (s, some e)
    | (sr1, .ok (ctype, csr)) =>
      match v s (root ++ [ctype]) csr with
      | (s1, _, some e) => some (s1, some e)
      | (s1, off1, none) =>
        if isContainer ctype then
          match visitAtomList v fuel (root ++ [ctype]) s1 { csr with off := off1 } with
          | none => none
          | some (s2, some e) => some (s2, some e)
          | some (s2, none) => visitAtomList v fuel root s2 sr1
        else visitAtomList v fuel root s1 sr1

/-- Function `VisitAtoms` of `walk.go` on a `ReadAtSeeker` `rs`. -/
def VisitAtoms {σ : Type} (v : Visitor σ) (rs : SectionReader) (s : σ) : Option (σ × Option Err) :=
  let len := (seekEnd rs).2
  visitAtomList v (rs.data.length + 1) [] s (NewSectionReader rs 0 len)

/-- One recorded visitor invocation: the path and view it was given and the
error it returned. -/
structure Call where
  path : List Tag
  view : SectionReader
  err : Option Err
  deriving DecidableEq, Repr

/-- A visitor wrapped so that it also records its invocations, in order. -/
def logged {σ : Type} (v : Visitor σ) : Visitor (σ × List Call) :=
  fun st path sr =>
    match v st.1 path sr with
    | (s1, off1, e) => ((s1, st.2 ++ [{ path := path, view := sr, err := e }]), off1, e)

/-- The visitor that does nothing. -/
def nullVisitor : Visitor Unit := fun _ _ sr => ((), sr.off, none)

/-- A visitor leaves the cursor of every container view where it found it:
it does not read from (or seek in) the views the walker descends into. -/
def KeepsContainerViews {σ : Type} (v : Visitor σ) : Prop :=
  ∀ s root t view, isContainer t = true → (v s (root ++ [t]) view).2.1 = view.off

/-! ## Well-formed atom forests and their byte encoding -/

/-- The four bytes of a 32-bit value, most significant first. -/
def be32 (n : Nat) : List Byte :=
  [⟨n / 16777216 % 256, Nat.mod_lt _ (by decide)⟩, ⟨n / 65536 % 256, Nat.mod_lt _ (by decide)⟩,
   ⟨n / 256 % 256, Nat.mod_lt _ (by decide)⟩, ⟨n % 256, Nat.mod_lt _ (by decide)⟩]

/-- A list of sibling atoms: empty, or a first atom followed by its later
siblings, the first atom being a `leaf` holding raw content bytes or a `node`
holding a child forest. -/
inductive Forest where
  | nil
  | leaf (tag : Tag) (content : List Byte) (rest : Forest)
  | node (tag : Tag) (children : Forest) (rest : Forest)
  deriving DecidableEq, Repr

/-- Byte encoding of a forest: each atom is its declared size (8 plus the
content length, big-endian), its tag, and its content. -/
def Forest.encode : Forest → List Byte
  | .nil => []
  | .leaf t c rest => be32 (8 + c.length) ++ t ++ c ++ rest.encode
  | .node t ch rest => be32 (8 + ch.encode.length) ++ t ++ ch.encode ++ rest.encode

/-- Well-formedness: tags have 4 bytes, declared sizes fit in 32 bits, exactly
the atoms with a container tag hold a child forest. -/
def Forest.wf : Forest → Bool
  | .nil => true
  | .leaf t c rest =>
    decide (t.length = 4) && !isContainer t && decide (8 + c.length < 4294967296) && rest.wf
  | .node t ch rest =>
    decide (t.length = 4) && isContainer t && decide (8 + ch.encode.length < 4294967296)
      && ch.wf && rest.wf

/-- Number of atoms of a forest. -/
def Forest.count : Forest → Nat
  | .nil => 0
  | .leaf _ _ rest => 1 + rest.count
  | .node _ ch rest => 1 + ch.count + rest.count

/-- The view holding exactly the bytes `c`, cursor at its start. -/
def viewOf (c : List Byte) : SectionReader :=
  { data := c, size := c.length, off := 0 }

/-- The atoms of a forest in pre-order, each with its path below `root` and
the view of its content. -/
def Forest.preorder (root : List Tag) : Forest → List (List Tag × SectionReader)
  | .nil => []
  | .leaf t c rest => (root ++ [t], viewOf c) :: rest.preorder root
  | .node t ch rest =>
    (root ++ [t], viewOf ch.encode) :: (ch.preorder (root ++ [t]) ++ rest.preorder root)

/-- Sibling concatenation of two forests. -/
def Forest.append : Forest → Forest → Forest
  | .nil, g => g
  | .leaf t c rest, g => .leaf t c (rest.append g)
  | .node t ch rest, g => .node t ch (rest.append g)

/-- Whether some atom of the forest carries the tag `x`. -/
def Forest.hasTag (x : Tag) : Forest → Bool
  | .nil => false
  | .leaf t _ rest => decide (t = x) || rest.hasTag x
  | .node t ch rest => decide (t = x) || ch.hasTag x || rest.hasTag x

/-- Invoking a visitor on a list of (path, view) pairs in order, stopping at
the first error it returns. -/
def runVisits {σ : Type} (v : Visitor σ) : σ → List (List Tag × SectionReader) → σ × Option Err
  | s, [] => (s, none)
  | s, c :: cs =>
    match v s c.1 c.2 with
    | (s1, _, some e) => (s1, some e)
    | (s1, _, none) => runVisits v s1 cs

/-- The log entries of calls that all returned no error. -/
def okCalls (cs : List (List Tag × SectionReader)) : List Call :=
  cs.map fun c => { path := c.1, view := c.2, err := none }

/-! ## Package `sg`: the audio-offset collector and the GPS decoder -/

/-- Type `GPSLog` of `info.go` without its blank fields; a `float32` field is given by
the 32-bit pattern of the value it holds. -/
structure GPSLog where
  Magic : List Byte
  Hour : Nat
  Min : Nat
  Sec : Nat
  Year : Nat
  Mon : Nat
  Day : Nat
  Unknown : Byte
  LatitudeSpec : Byte
  LongitudeSpec : Byte
  Latitude : Nat
  Longitude : Nat
  Speed : Nat
  Bearing : Nat
  deriving DecidableEq, Repr

/-- The zero value of `GPSLog`, as `make([]GPSLog, n)` fills it in. -/
def GPSLog.zero : GPSLog :=
  { Magic := [0, 0, 0, 0], Hour := 0, Min := 0, Sec := 0, Year := 0, Mon := 0, Day := 0,
    Unknown := 0, LatitudeSpec := 0, LongitudeSpec := 0,
    Latitude := 0, Longitude := 0, Speed := 0, Bearing := 0 }

/-- A signalling NaN pattern of a `float32`: the eight exponent bits (23 to 30)
set, the quiet bit 22 clear, the other mantissa bits not all zero. -/
def isSignallingNaN (bits : Nat) : Bool :=
  bits / 8388608 % 256 == 255 && bits / 4194304 % 2 == 0 && bits % 4194304 != 0

/-- The pattern of the `float32` that `binary.Read` stores in a struct field for
the pattern `bits` found in the input.  The decoder passes the value through
`float64` (`reflect.Value.SetFloat`) and back; the two conversions keep every
pattern but those of signalling NaNs, which come out with the quiet bit set. -/
def storeFloat32 (bits : Nat) : Nat :=
  if isSignallingNaN bits then bits + 4194304 else bits

/-- The little-endian struct decoder of `binary.Read` on the 84 bytes read for a
`GPSLog`: fields are taken in declaration order, blank fields are skipped. -/
def decodeGPSLog (b0 : List Byte) : GPSLog :=
  let magic := b0.take 4
  let b1 := b0.drop 4
  let b2 := b1.drop 36
  let hour := leUint (b2.take 4)
  let b3 := b2.drop 4
  let min := leUint (b3.take 4)
  let b4 := b3.drop 4
  let sec := leUint (b4.take 4)
  let b5 := b4.drop 4
  let year := leUint (b5.take 4)
  let b6 := b5.drop 4
  let mon := leUint (b6.take 4)
  let b7 := b6.drop 4
  let day := leUint (b7.take 4)
  let b8 := b7.drop 4
  let unknown := b8.headD 0
  let b9 := b8.drop 1
  let latSpec := b9.headD 0
  let b10 := b9.drop 1
  let lonSpec := b10.headD 0
  let b11 := b10.drop 1
  let b12 := b11.drop 1
  let lat := storeFloat32 (leUint (b12.take 4))
  let b13 := b12.drop 4
  let lon := storeFloat32 (leUint (b13.take 4))
  let b14 := b13.drop 4
  let speed := storeFloat32 (leUint (b14.take 4))
  let b15 := b14.drop 4
  let bearing := storeFloat32 (leUint (b15.take 4))
  { Magic := magic, Hour := hour, Min := min, Sec := sec, Year := year, Mon := mon, Day := day,
    Unknown := unknown, LatitudeSpec := latSpec, LongitudeSpec := lonSpec,
    Latitude := lat, Longitude := lon, Speed := speed, Bearing := bearing }

/-- Function `accumulatorVisitor` of `info.go`; the visitor state is the record slot it
writes to. -/
def accumulatorVisitor : Visitor GPSLog := fun gpsLog _ sr =>
  match readFull sr 84 with
  | (sr1, .error e) => (gpsLog, sr1.off, some e)
  | (sr1, .ok bs) =>
    let g := decodeGPSLog bs
    if g.Magic ≠ magicGPS then (g, sr1.off, some .ErrInvalidGPS)
    else (g, sr1.off, none)

/-- Type `sampleAccumulator` of `info.go`. -/
structure sampleAccumulator where
  inSound : Bool
  audioOffsets : List Nat
  deriving DecidableEq, Repr

/-- The entry loop of `getAudioChunks`: reads `n` big-endian `uint32`s. -/
def readOffsets : Nat → SectionReader → List Nat → SectionReader × Except Err (List Nat)
  | 0, sr, acc => (sr, .ok acc)
  | n + 1, sr, acc =>
    match readUint32BE sr with
    | (sr1, .error e) => (sr1, .error e)
    | (sr1, .ok x) => readOffsets n sr1 (acc ++ [x])

/-- Function `getAudioChunks` of `info.go`.  The table `make([]uint32, nent)` is
allocated for the declared entry count before any entry is read; `mem` is the
largest entry count for which the runtime can serve that allocation, a larger
one ends the process. -/
def getAudioChunks (mem : Nat) (sr : SectionReader) : SectionReader × Except Err (List Nat) :=
  match copyNDiscard sr 4 with
  | (sr1, some e) => (sr1, .error e)
  | (sr1, none) =>
    match readUint32BE sr1 with
    | (sr2, .error e) => (sr2, .error e)
    | (sr2, .ok nent) =>
      if mem < nent then (sr2, .error .outOfMemory)
      else readOffsets nent sr2 []

/-- Method `sampleAccumulator.Visit` of `info.go`, on a runtime that can allocate tables of up
to `mem` entries.  Indexing an empty path panics. -/
def sampleAccumulator.Visit (mem : Nat) : Visitor sampleAccumulator := fun sa path sr =>
  match path.getLast? with
  | none => (sa, sr.off, some .panic)
  | some cur =>
    if path.length = 5 ∧ cur = tagSmhd then ({ sa with inSound := true }, sr.off, none)
    else if path.length < 5 ∨ cur = tagVmhd then ({ sa with inSound := false }, sr.off, none)
    else if sa.inSound = true ∧ path.length = 6 ∧ cur = tagStco then
      match getAudioChunks mem sr with
      | (sr1, .ok offsets) => ({ sa with audioOffsets := offsets }, sr1.off, none)
      | (sr1, .error e) => ({ sa with audioOffsets := [] }, sr1.off, some e)
    else (sa, sr.off, none)

/-- The zero value `&sampleAccumulator{}`. -/
def sampleAccumulator.fresh : sampleAccumulator := { inSound := false, audioOffsets := [] }

/-- The start `goff` of the window for an offset: `offset + 0x10000` is computed
in `uint32`, so modulo 2^32, before the conversion to `int64`.  (The sum is
written constant first, which keeps it in normal form for a symbolic offset.) -/
def gpsWindowStart (offset : Nat) : Nat := (0x10000 + offset) % 4294967296

/-- The reader `io.NewSectionReader(sgi.ras, goff, 0x8000)` handed to the walker. -/
def gpsWindow (file : List Byte) (offset : Nat) : SectionReader :=
  NewSectionReader (fileReader file) (gpsWindowStart offset) 0x8000

/-- The `for i, offset := range sa.audioOffsets` loop of `GPSLogs` with its
two `return`s; `acc` holds the slots of `gpsLogs` filled so far.  The result is the pair
the method returns (a nil list is the empty list); `none` only if a walk ran
out of fuel. -/
def gpsLoop (file : List Byte) : List Nat → List GPSLog → Option (List GPSLog × Option Err)
  | [], acc => some (acc, none)
  | offset :: rest, acc =>
    match VisitAtoms accumulatorVisitor (gpsWindow file offset) GPSLog.zero with
    | none => none
    | some (_, some e) => some ([], some e)
    | some (g, none) => gpsLoop file rest (acc ++ [g])

/-- Method `sgInfo.GPSLogs` of `info.go` on the byte source `file`, on a runtime that can
allocate offset tables of up to `mem` entries.  The slice `gpsLogs` of line 62
has one slot for each entry of the table that was read from the file; `gpsLoop`
builds it slot by slot.  Its allocation is taken to succeed: the table of the
same length has been allocated and read from the file in full when the line
is reached. -/
def GPSLogs (mem : Nat) (file : List Byte) : Option (List GPSLog × Option Err) :=
  match VisitAtoms (sampleAccumulator.Visit mem) (fileReader file) sampleAccumulator.fresh with
  | none => none
  | some (_, some e) => some ([], some e)
  | some (sa, none) => gpsLoop file sa.audioOffsets []

/-! ## Definitions used to state the properties of the walker -/

def tagFree : Tag := [0x66, 0x72, 0x65, 0x65]
def tagMdat : Tag := [0x6d, 0x64, 0x61, 0x74]

/-- A small well-formed forest: a leaf, a `moov` container holding a leaf and
an empty `trak`, and a final leaf. -/
def exampleForest : Forest :=
  .leaf tagFree [1, 2, 3]
    (.node tagMoov (.leaf tagFree [] (.node tagTrak .nil .nil))
      (.leaf tagMdat [9] .nil))

/-- Relation `Reaches v root s sr root2 s2 sr2`: a run of `visitAtomList` started with
path `root`, visitor state `s` and section `sr` arrives, after zero or more
atoms decoded and visited without error, at the top of the loop of the
(possibly nested) invocation with path `root2`, visitor state `s2` and section
`sr2`.  The steps are those of the code: past a non-container atom (`next`),
down into a container atom (`into`), or past a container atom whose nested
walk returned no error (`over`). -/
inductive Reaches {σ : Type} (v : Visitor σ) :
    List Tag → σ → SectionReader → List Tag → σ → SectionReader → Prop where
  | here (root : List Tag) (s : σ) (sr : SectionReader) : Reaches v root s sr root s sr
  | next {root : List Tag} {s s1 : σ} {sr sr1 csr : SectionReader} {t : Tag} {o : Nat}
      {root2 : List Tag} {s2 : σ} {sr2 : SectionReader} :
      nextAtom sr = (sr1, .ok (t, csr)) → v s (root ++ [t]) csr = (s1, o, none) →
      isContainer t = false → Reaches v root s1 sr1 root2 s2 sr2 →
      Reaches v root s sr root2 s2 sr2
  | into {root : List Tag} {s s1 : σ} {sr sr1 csr : SectionReader} {t : Tag} {o : Nat}
      {root2 : List Tag} {s2 : σ} {sr2 : SectionReader} :
      nextAtom sr = (sr1, .ok (t, csr)) → v s (root ++ [t]) csr = (s1, o, none) →
      isContainer t = true → Reaches v (root ++ [t]) s1 { csr with off := o } root2 s2 sr2 →
      Reaches v root s sr root2 s2 sr2
  | over {root : List Tag} {s s1 s3 : σ} {sr sr1 csr : SectionReader} {t : Tag} {o fuel : Nat}
      {root2 : List Tag} {s2 : σ} {sr2 : SectionReader} :
      nextAtom sr = (sr1, .ok (t, csr)) → v s (root ++ [t]) csr = (s1, o, none) →
      isContainer t = true →
      visitAtomList v fuel (root ++ [t]) s1 { csr with off := o } = some (s3, none) →
      Reaches v root s3 sr1 root2 s2 sr2 →
      Reaches v root s sr root2 s2 sr2

/-- A file with a leaf, then a `moov` atom holding a leaf and a header with size
field 1, then another leaf. -/
def sizeOneFile : List Byte :=
  be32 11 ++ tagFree ++ [1, 2, 3] ++
    (be32 32 ++ tagMoov ++ (be32 8 ++ tagFree ++ (be32 1 ++ tagFree ++ [0, 0, 0, 0, 0, 0, 0, 0]))) ++
    (be32 8 ++ tagFree)

/-- The calls `added` recorded by a walk that returned `err`: either none of them
returned an error, or the last one returned the error `e`, no earlier one
returned an error, and `err` is `e`. -/
def StopsAtError (added : List Call) (err : Option Err) : Prop :=
  (∀ c ∈ added, c.err = none) ∨
    ∃ pre c e, added = pre ++ [c] ∧ (∀ d ∈ pre, d.err = none) ∧ c.err = some e ∧ err = some e

/-! ## Definitions used to state the properties of the collector and the decoder -/

/-- The collector state after one more visit. -/
def visitState (mem : Nat) (sa : sampleAccumulator) (c : List Tag × SectionReader) :
    sampleAccumulator :=
  (sampleAccumulator.Visit mem sa c.1 c.2).1

/-- The 32-bit little-endian integer at offset `i` of `b`. -/
def le32At (b : List Byte) (i : Nat) : Nat :=
  (b.getD i 0).val + 256 * (b.getD (i + 1) 0).val + 65536 * (b.getD (i + 2) 0).val
    + 16777216 * (b.getD (i + 3) 0).val

/-- The record whose fields are taken from the fixed offsets of `b`, the four
`float32` fields as the patterns of the values stored for them. -/
def recordAt (b : List Byte) : GPSLog :=
  { Magic := [b.getD 0 0, b.getD 1 0, b.getD 2 0, b.getD 3 0],
    Hour := le32At b 40, Min := le32At b 44, Sec := le32At b 48,
    Year := le32At b 52, Mon := le32At b 56, Day := le32At b 60,
    Unknown := b.getD 64 0, LatitudeSpec := b.getD 65 0, LongitudeSpec := b.getD 66 0,
    Latitude := storeFloat32 (le32At b 68), Longitude := storeFloat32 (le32At b 72),
    Speed := storeFloat32 (le32At b 76), Bearing := storeFloat32 (le32At b 80) }

/-- An 84-byte content starting with `"GPS "` whose latitude bytes
`01 00 80 7f` are the signalling NaN pattern `0x7f800001`. -/
def nanRecordBytes : List Byte :=
  magicGPS ++ List.replicate 36 0 ++
    [10, 0, 0, 0, 5, 0, 0, 0, 30, 0, 0, 0, 21, 0, 0, 0, 6, 0, 0, 0, 1, 0, 0, 0, 65, 78, 87, 0,
     1, 0, 128, 127, 5, 6, 7, 8, 9, 9, 9, 9, 1, 1, 1, 1]

/-- An 86-byte content: a GPS record (10:05:30 on 2021-06-01) and two more bytes. -/
def gpsRecordBytes : List Byte :=
  magicGPS ++ List.replicate 36 7 ++
    [10, 0, 0, 0, 5, 0, 0, 0, 30, 0, 0, 0, 21, 0, 0, 0, 6, 0, 0, 0, 1, 0, 0, 0, 65, 78, 87, 0,
     1, 2, 3, 4, 5, 6, 7, 8, 9, 9, 9, 9, 1, 1, 1, 1] ++ [3, 3]

/-- The forest `pre`, then a container atom `t` holding `inner`, then `post`. -/
def wrap (pre : Forest) (t : Tag) (inner post : Forest) : Forest :=
  pre.append (.node t inner post)

/-- Content of a chunk-offset atom: four version/flags bytes, the entry count
and the entries, each as a big-endian 32-bit value. -/
def stcoContent (vf : List Byte) (L : List Nat) : List Byte :=
  vf ++ be32 L.length ++ (L.map be32).flatten

/-- A file with one sound-track branch: `moov/trak/mdia/minf` holds an `smhd`
atom and, after it, an `stbl` atom that holds an `stco` atom.  `pre i` and
`post i` are the further atoms before and after the branch atom at nesting
level `i` (0: beside `moov`, 1: beside `trak`, 2: beside `mdia`, 3: beside
`minf`, 4: beside `smhd` and `stbl` inside `minf`, 5: beside `stco` inside
`stbl`), `mid` the atoms between `smhd` and `stbl`. -/
def soundBranchFile (pre post : Fin 6 → Forest) (mid : Forest)
    (smhdContent stco : List Byte) : Forest :=
  wrap (pre 0) tagMoov
    (wrap (pre 1) tagTrak
      (wrap (pre 2) tagMdia
        (wrap (pre 3) tagMinf
          ((pre 4).append
            (.leaf tagSmhd smhdContent
              (mid.append
                (.node tagStbl ((pre 5).append (.leaf tagStco stco (post 5))) (post 4)))))
          (post 3))
        (post 2))
      (post 1))
    (post 0)

/-- Calls whose path is non-empty and does not end in `stco`. -/
def NoStco (cs : List (List Tag × SectionReader)) : Prop :=
  ∀ c ∈ cs, ∃ p t, c.1 = p ++ [t] ∧ t ≠ tagStco

/-- Calls at least five levels deep whose tag is neither `stco` nor `vmhd`. -/
def DeepPlain (cs : List (List Tag × SectionReader)) : Prop :=
  ∀ c ∈ cs, ∃ p t, c.1 = p ++ [t] ∧ t ≠ tagStco ∧ t ≠ tagVmhd ∧ 4 ≤ p.length

/-- Running the collector over the calls `cs` from any state ends without
error with `audioOffsets` equal to `L`. -/
def Collects (mem : Nat) (L : List Nat) (cs : List (List Tag × SectionReader)) : Prop :=
  ∀ sa : sampleAccumulator, ∃ sa2,
    runVisits (sampleAccumulator.Visit mem) sa cs = (sa2, none) ∧ sa2.audioOffsets = L

/-- Calls whose path is non-empty and does not end in `smhd`. -/
def NoSmhd (cs : List (List Tag × SectionReader)) : Prop :=
  ∀ c ∈ cs, ∃ p t, c.1 = p ++ [t] ∧ t ≠ tagSmhd

/-- The first call, if there is one, has a path of fewer than five elements. -/
def ShallowHead (cs : List (List Tag × SectionReader)) : Prop :=
  ∀ c, cs.head? = some c → c.1.length < 5

/-- Running the collector over the calls `cs` from any state ends without
error and leaves `audioOffsets` as it was. -/
def Inert (mem : Nat) (cs : List (List Tag × SectionReader)) : Prop :=
  ∀ sa : sampleAccumulator, ∃ sa2,
    runVisits (sampleAccumulator.Visit mem) sa cs = (sa2, none) ∧
      sa2.audioOffsets = sa.audioOffsets

/-- The further atoms around a sound-track branch (see `soundBranchFile`) leave
the branch the only one of its kind: no atom before the `smhd` atom (`pre 0`
to `pre 4`) or after the `minf` atom (`post 0` to `post 3`) is tagged `smhd`,
no atom between the `smhd` atom and the `stco` atom (`mid` and `pre 5`) is
tagged `vmhd` or `stco`, and no atom after the `stco` atom inside the `minf`
atom (`post 5` and `post 4`) is tagged `stco`.  Atoms of any other kind, a
video track with its own `stco` table among them, may stand beside the branch. -/
def BranchPlain (pre post : Fin 6 → Forest) (mid : Forest) : Prop :=
  (∀ i : Fin 6, i.val ≤ 4 → (pre i).hasTag tagSmhd = false) ∧
    (∀ i : Fin 6, i.val ≤ 3 → (post i).hasTag tagSmhd = false) ∧
    mid.hasTag tagVmhd = false ∧ mid.hasTag tagStco = false ∧
    (pre 5).hasTag tagVmhd = false ∧ (pre 5).hasTag tagStco = false ∧
    (post 5).hasTag tagStco = false ∧ (post 4).hasTag tagStco = false

instance (pre post : Fin 6 → Forest) (mid : Forest) : Decidable (BranchPlain pre post mid) :=
  inferInstanceAs (Decidable (_ ∧ _ ∧ _ ∧ _ ∧ _ ∧ _ ∧ _ ∧ _))

/-- A video-track branch `trak/mdia/minf` holding a `vmhd` atom and an `stbl`
atom with an `stco` table. -/
def videoTrack (table : List Nat) : Forest :=
  .node tagTrak (.node tagMdia (.node tagMinf
    (.leaf tagVmhd [] (.node tagStbl (.leaf tagStco (stcoContent [0, 0, 0, 0] table) .nil) .nil))
    .nil) .nil) .nil

/-- A well-formed file whose branch `moov/trak/mdia/minf` holds an `smhd` atom, a
`vmhd` atom, and then an `stbl` atom holding an `stco` atom with the table
`[100, 250, 9000]`. -/
def vmhdBetweenFile : Forest :=
  soundBranchFile (fun _ => .nil) (fun _ => .nil) (.leaf tagVmhd [] .nil) []
    (stcoContent [0, 0, 0, 0] [100, 250, 9000])

/-- A well-formed file whose branch `moov/trak/mdia/minf` holds an `smhd` atom, an
`stbl` atom holding an `stco` atom with the table `[100, 250, 9000]`, and
after it a second `stbl` atom holding an `stco` atom with the table `[7]`. -/
def secondTableFile : Forest :=
  soundBranchFile (fun _ => .nil)
    (fun i => if i = 4 then
      .node tagStbl (.leaf tagStco (stcoContent [0, 0, 0, 0] [7]) .nil) .nil else .nil)
    .nil [] (stcoContent [0, 0, 0, 0] [100, 250, 9000])

/-- Further atoms before the branch of the example file: a leaf beside `moov`
and a video track beside the sound track. -/
def examplePre : Fin 6 → Forest :=
  fun i => if i = 0 then .leaf tagFree [1, 2, 3] .nil
    else if i = 1 then videoTrack [5, 6] else .nil

/-- Further atoms after the branch of the example file: a leaf beside `moov`
and a second video track beside the sound track. -/
def examplePost : Fin 6 → Forest :=
  fun i => if i = 0 then .leaf tagMdat [9] .nil
    else if i = 1 then videoTrack [8] else .nil

/-- No further atoms. -/
def noAtoms : Fin 6 → Forest := fun _ => .nil

/-- A file of 162 bytes: a 68-byte `moov` branch whose chunk-offset table is
`[0xFFFF0044]`, followed at offset 68 by a leaf holding a GPS record. -/
def wrapFile : List Byte :=
  (soundBranchFile noAtoms (fun i => if i = 0 then .leaf tagFree gpsRecordBytes .nil else .nil)
    .nil [] (stcoContent [0, 0, 0, 0] [4294901828])).encode

/-- The 68-byte `moov` branch whose chunk-offset table is `[0xFFFF0000]`. -/
def wrapBranch : Forest :=
  soundBranchFile noAtoms noAtoms .nil [] (stcoContent [0, 0, 0, 0] [4294901760])

/-- The file made of `wrapBranch`, a `free` atom holding `pad`, and a leaf
holding a GPS record. -/
def bigForest (pad : List Byte) : Forest :=
  wrapBranch.append (.leaf tagFree pad (.leaf tagFree gpsRecordBytes .nil))

/-- Zero bytes: 2^32 - 76 of them. -/
def bigPad : List Byte := List.replicate 4294967220 0

/-- A file of 2^32 + 94 bytes: the 68-byte `moov` branch with table
`[0xFFFF0000]`, a `free` atom of 2^32 - 68 bytes, and at offset 2^32 a leaf
holding a GPS record. -/
def bigFile : List Byte := (bigForest bigPad).encode

/-- The bytes `w` are exactly one non-container atom whose content holds at
least 84 bytes and starts with `"GPS "`. -/
def SingleGPSAtom (w : List Byte) : Prop :=
  ∃ t c, t.length = 4 ∧ isContainer t = false ∧ 84 ≤ c.length ∧ c.take 4 = magicGPS ∧
    w = be32 (8 + c.length) ++ t ++ c

/-! ## Definitions used to state claims C11 to C20 -/

/-- The size `sz` that `nextAtom` resolves for the header at the cursor of
`sr`, before the 8 header bytes are subtracted: the size of the section for a
size field 0, the size field itself otherwise. -/
def declaredSize (sr : SectionReader) : Int :=
  if beUint ((sr.data.drop sr.off).take 4) = 0 then sr.size
  else (beUint ((sr.data.drop sr.off).take 4) : Int)

/-- Relation `Inside top encl sr`: the section `sr` lies in the section `top` below container
atoms with the tags `encl`, outermost first.  It is defined by the atoms
alone, without a visitor or a path: `top` lies below no atom; a section whose
cursor has moved past the atom decoded at it lies where it lay (`next`); the
content view of a container atom decoded at the cursor of a section below
`encl` lies below `encl` and that atom (`into`), its cursor standing wherever
a visitor left it. -/
inductive Inside (top : SectionReader) : List Tag → SectionReader → Prop where
  | top : Inside top [] top
  | next {encl : List Tag} {sr sr1 csr : SectionReader} {t : Tag} :
      Inside top encl sr → nextAtom sr = (sr1, .ok (t, csr)) → Inside top encl sr1
  | into {encl : List Tag} {sr sr1 csr : SectionReader} {t : Tag} (o : Nat) :
      Inside top encl sr → nextAtom sr = (sr1, .ok (t, csr)) → isContainer t = true →
      Inside top (encl ++ [t]) { csr with off := o }

/-- A call made by the walk of the section `sr` that was started with path
`root` and visitor state `st`: the walk arrives at a section `srp` that lies
in `sr` below container atoms with the tags `mid`, decodes there an atom with
tag `t`, and calls the visitor with the path `root ++ mid ++ [t]` and the
content view of that atom. -/
def CallBelow {σ : Type} (v : Visitor σ) (root : List Tag) (st : σ × List Call)
    (sr : SectionReader) (c : Call) : Prop :=
  ∃ (mid : List Tag) (t : Tag) (st2 : σ × List Call) (srp sr1 : SectionReader),
    c.path = root ++ mid ++ [t] ∧ Reaches (logged v) root st sr (root ++ mid) st2 srp ∧
      Inside sr mid srp ∧ nextAtom srp = (sr1, .ok (t, c.view))

/-- A file of 16 bytes: the header of a `moov` atom with size field 4, followed
by an empty `free` atom. -/
def overlapFile : List Byte := be32 4 ++ tagMoov ++ (be32 8 ++ tagFree)

/-- The errors that originate in a read: `io.EOF` or `io.ErrUnexpectedEOF`. -/
def IsReadErr (e : Err) : Prop := e = .EOF ∨ e = .ErrUnexpectedEOF

/-- The atoms that successive header decodes find in a section, starting at
its cursor: tag and content view of each, up to the first decode that fails. -/
def siblingAtoms : Nat → SectionReader → List (Tag × SectionReader)
  | 0, _ => []
  | fuel + 1, sr =>
    match nextAtom sr with
    | (sr1, .ok (t, csr)) => (t, csr) :: siblingAtoms fuel sr1
    | (_, .error _) => []

/-- The calls of a log made for the atoms directly below `root` (the siblings
of the section walked with path `root`): their paths and views, in order. -/
def topCalls (root : List Tag) (log : List Call) : List (List Tag × SectionReader) :=
  (log.filter (fun c => decide (c.path.length = root.length + 1))).map
    (fun c => (c.path, c.view))

/-- A visitor that reads up to `n` bytes from every view and does nothing else. -/
def readVisitor (n : Nat) : Visitor Unit :=
  fun _ _ sr => ((), sr.off + min n (sr.data.length - sr.off), none)

/-- A file of 32 bytes: a `moov` atom whose 16 content bytes are one `free`
atom holding the eight bytes `00 00 00 01 'free'`, followed by an empty `free`
atom. -/
def descentFile : List Byte :=
  be32 24 ++ tagMoov ++ (be32 16 ++ tagFree ++ (be32 1 ++ tagFree)) ++ (be32 8 ++ tagFree)

/-- A truncated file: `exampleForest` followed by the header of an `mdat` atom
that declares 100 bytes, of which only the first three content bytes exist. -/
def truncatedFile : List Byte :=
  exampleForest.encode ++ (be32 100 ++ tagMdat ++ [1, 2, 3])

/-- The offsets whose windows the loop of `GPSLogs` hands to the walker, in
order: the loop returns after the first window whose walk returns an error. -/
def gpsWindowsRead (file : List Byte) : List Nat → List Nat
  | [] => []
  | offset :: rest =>
    match VisitAtoms accumulatorVisitor (gpsWindow file offset) GPSLog.zero with
    | some (_, none) => offset :: gpsWindowsRead file rest
    | _ => [offset]

/-- A file of 68 bytes: the `moov` branch whose chunk-offset table is `[3]`. -/
def shortFile : List Byte :=
  (soundBranchFile noAtoms noAtoms .nil [] (stcoContent [0, 0, 0, 0] [3])).encode

/-- An 84-byte content that does not start with `"GPS "`. -/
def badRecordBytes : List Byte := List.replicate 84 7

/-- A file of 262 bytes: a 76-byte `moov` branch whose chunk-offset table is
`[0xFFFF00A8, 0xFFFF004C, 0]`, at offset 76 a leaf whose content does not start
with `"GPS "`, and at offset 168 a leaf holding a GPS record.  The window read
for the first offset starts at offset 168, the one for the second at 76. -/
def badMagicFile : List Byte :=
  (soundBranchFile noAtoms
    (fun i => if i = 0 then .leaf tagFree badRecordBytes (.leaf tagFree gpsRecordBytes .nil)
      else .nil)
    .nil [] (stcoContent [0, 0, 0, 0] [4294901928, 4294901836, 0])).encode

/-- The collector's walk of `file` reaches a qualifying `stco` atom (in-sound
flag set, path of six elements) whose content view is `csr`. -/
def ReachesStco (mem : Nat) (file : List Byte) (csr : SectionReader) : Prop :=
  ∃ (root : List Tag) (sa : sampleAccumulator) (sr sr1 : SectionReader),
    Reaches (sampleAccumulator.Visit mem) [] sampleAccumulator.fresh
      (NewSectionReader (fileReader file) 0 (seekEnd (fileReader file)).2) root sa sr ∧
    nextAtom sr = (sr1, .ok (tagStco, csr)) ∧ sa.inSound = true ∧ root.length = 5

/-- The table was collected from `file`, the windows of the offsets before some
offset `o` walk without error, and the walk of the window of `o` reaches an
atom whose content view is `csr`: the decoding visitor is invoked on `csr`. -/
def ReachesWindowAtom (mem : Nat) (file : List Byte) (csr : SectionReader) : Prop :=
  ∃ (sa : sampleAccumulator) (pre rest : List Nat) (o : Nat) (root : List Tag)
    (g : GPSLog) (sr sr1 : SectionReader) (t : Tag),
    VisitAtoms (sampleAccumulator.Visit mem) (fileReader file) sampleAccumulator.fresh =
      some (sa, none) ∧
    sa.audioOffsets = pre ++ o :: rest ∧
    (∀ p ∈ pre, ∃ g, VisitAtoms accumulatorVisitor (gpsWindow file p) GPSLog.zero
      = some (g, none)) ∧
    Reaches accumulatorVisitor [] GPSLog.zero
      (NewSectionReader (gpsWindow file o) 0 (seekEnd (gpsWindow file o)).2) root g sr ∧
    nextAtom sr = (sr1, .ok (t, csr))

/-- The entry count that the content of an `stco` atom declares. -/
def declaredCount (csr : SectionReader) : Nat := beUint ((csr.data.drop 4).take 4)

/-- A file of 64 bytes: a `moov` branch whose `stco` atom declares `2^32 - 1`
entries and holds none. -/
def hugeCountFile : List Byte :=
  (soundBranchFile noAtoms noAtoms .nil [] ([0, 0, 0, 0] ++ be32 4294967295)).encode

/-- A file of 72 bytes: a `moov` branch whose `stco` atom declares two entries
and holds one. -/
def shortTableFile : List Byte :=
  (soundBranchFile noAtoms noAtoms .nil [] ([0, 0, 0, 0] ++ be32 2 ++ be32 7)).encode

/-- One sound-track branch: the chunk-offset table `table`, the content of the
`smhd` atom, the four version/flags bytes of the `stco` atom, and the further
atoms around the branch atoms (`pre i` before and `post i` after, at level 1
beside `trak`, 2 beside `mdia`, 3 beside `minf`, 4 beside `smhd` and `stbl`,
5 beside `stco`; `mid` between `smhd` and `stbl`; level 0 is not used). -/
structure SoundTrack where
  pre : Fin 6 → Forest
  post : Fin 6 → Forest
  mid : Forest
  smhd : List Byte
  vf : List Byte
  table : List Nat

/-- The atoms of a sound-track branch inside `moov`: `trak/mdia/minf` holding
`smhd` and then `stbl` with the `stco` atom. -/
def SoundTrack.forest (k : SoundTrack) : Forest :=
  wrap (k.pre 1) tagTrak
    (wrap (k.pre 2) tagMdia
      (wrap (k.pre 3) tagMinf
        ((k.pre 4).append
          (.leaf tagSmhd k.smhd
            (k.mid.append
              (.node tagStbl
                ((k.pre 5).append (.leaf tagStco (stcoContent k.vf k.table) (k.post 5)))
                (k.post 4)))))
        (k.post 3))
      (k.post 2))
    (k.post 1)

/-- The branch has one qualifying table: its further atoms satisfy `BranchPlain`,
the version/flags field has four bytes and the table entries are 32-bit
values. -/
def SoundTrack.plain (k : SoundTrack) : Prop :=
  BranchPlain k.pre k.post k.mid ∧ k.vf.length = 4 ∧ ∀ x ∈ k.table, x < 4294967296

instance (k : SoundTrack) : Decidable k.plain :=
  inferInstanceAs (Decidable (_ ∧ _ ∧ _))

/-- The branches of several sound tracks, one after the other. -/
def tracksForest : List SoundTrack → Forest
  | [] => .nil
  | k :: ks => k.forest.append (tracksForest ks)

/-- A file whose `moov` atom holds the given sound-track branches, with further
atoms `before` and `after` the `moov` atom. -/
def multiTrackFile (before after : Forest) (ks : List SoundTrack) : Forest :=
  wrap before tagMoov (tracksForest ks) after

/-- A sound track without further atoms. -/
def bareTrack (table : List Nat) : SoundTrack :=
  { pre := noAtoms, post := noAtoms, mid := .nil, smhd := [], vf := [0, 0, 0, 0], table := table }

/-- A sound track with a video track before it and a video track after it,
without further atoms. -/
def soundAndVideo (videoBefore table videoAfter : List Nat) : SoundTrack :=
  { pre := fun i => if i = 1 then videoTrack videoBefore else .nil,
    post := fun i => if i = 1 then videoTrack videoAfter else .nil,
    mid := .nil, smhd := [], vf := [0, 0, 0, 0], table := table }

/-- The forest made of the given non-nested atoms (tag and content), in order. -/
def leaves : List (Tag × List Byte) → Forest
  | [] => .nil
  | a :: r => .leaf a.1 a.2 (leaves r)

/-- A non-container atom that holds at least 84 content bytes starting with
`"GPS "`. -/
def ValidGPSAtom (a : Tag × List Byte) : Prop :=
  a.1.length = 4 ∧ isContainer a.1 = false ∧ 84 ≤ a.2.length ∧ a.2.take 4 = magicGPS

/-- The record decoded from the last of the given atoms (`g` if there is none). -/
def lastRecord (g : GPSLog) (atoms : List (Tag × List Byte)) : GPSLog :=
  (atoms.getLast?.map (fun a => recordAt a.2)).getD g

/-- A second GPS record (11:06:31 on 2021-06-01), 84 bytes. -/
def gpsRecordBytes2 : List Byte :=
  magicGPS ++ List.replicate 36 0 ++
    [11, 0, 0, 0, 6, 0, 0, 0, 31, 0, 0, 0, 21, 0, 0, 0, 6, 0, 0, 0, 1, 0, 0, 0, 65, 78, 87, 0,
     1, 2, 3, 4, 5, 6, 7, 8, 9, 9, 9, 9, 1, 1, 1, 1]

/-- A file of 254 bytes: a 68-byte `moov` branch whose chunk-offset table is
`[0xFFFF0044]`, followed at offset 68 by two leaves holding GPS records.  The
window read for the offset starts at offset 68 and holds both leaves. -/
def twoRecordFile : List Byte :=
  (soundBranchFile noAtoms
    (fun i => if i = 0 then leaves [(tagFree, gpsRecordBytes), (tagFree, gpsRecordBytes2)]
      else .nil)
    .nil [] (stcoContent [0, 0, 0, 0] [4294901828])).encode

/-- The path of `math.Modf` for an argument that is not negative, in exact
arithmetic: integer part (the argument with its fraction bits cleared) and
fractional part. -/
def modfNonneg (f : ℚ) : ℚ × ℚ :=
  if f < 1 then
    if f = 0 then (f, f) else (0, f)
  else ((⌊f⌋ : ℚ), f - (⌊f⌋ : ℚ))

/-- Library function `math.Modf` in exact arithmetic: integer and fractional part of
`f`, both with the sign of `f`; for a negative argument the parts of `-f`,
negated. -/
def Modf (f : ℚ) : ℚ × ℚ :=
  if f < 0 then (-(modfNonneg (-f)).1, -(modfNonneg (-f)).2) else modfNonneg f

/-- Function `toDD` of `main.go`, read in exact arithmetic: the `float32` and `float64`
values are taken as the rationals they stand for and no operation rounds.
`'S'` is the byte 83, `'W'` the byte 87. -/
def toDD (spec : Byte) (v : ℚ) : ℚ :=
  let p := Modf (v / 100)
  let result := p.1 + p.2 / (6 / 10)
  if spec = 83 ∨ spec = 87 then -result else result

/-- The formula of the specification: `floor(x) + frac(x) / 0.6` for
`x = v / 100`, with `frac(x) = x - floor(x)`. -/
def floorFormula (v : ℚ) : ℚ :=
  (⌊v / 100⌋ : ℚ) + (v / 100 - (⌊v / 100⌋ : ℚ)) / (6 / 10)

/-! ## Basic facts about the readers and the walker -/

theorem beUint_be32 (n : Nat) (h : n < 4294967296) : beUint (be32 n) = n := by
  simp only [beUint, be32, List.foldl]
  omega

@[simp] theorem be32_length (n : Nat) : (be32 n).length = 4 := rfl

theorem readFull_of_drop (sr : SectionReader) (n : Nat) (bs rest : List Byte)
    (h : sr.data.drop sr.off = bs ++ rest) (hn : bs.length = n) :
    readFull sr n = ({ sr with off := sr.off + n }, .ok bs) := by
  have : (sr.data.drop sr.off).take n = bs := by
    rw [h, ← hn]; simp
  simp [readFull, this, hn]

theorem drop_add_of_drop {α : Type} (l : List α) (a : Nat) (bs rest : List α)
    (h : l.drop a = bs ++ rest) : l.drop (a + bs.length) = rest := by
  rw [← List.drop_drop, h]; simp

theorem nextAtom_encoded (sr : SectionReader) (t : Tag) (c rest : List Byte)
    (ht : t.length = 4) (hc : 8 + c.length < 4294967296)
    (h : sr.data.drop sr.off = be32 (8 + c.length) ++ t ++ c ++ rest) :
    nextAtom sr = ({ sr with off := sr.off + 8 + c.length }, .ok (t, viewOf c)) := by
  have h1 : sr.data.drop sr.off = be32 (8 + c.length) ++ (t ++ c ++ rest) := by
    simpa [List.append_assoc] using h
  have r1 := readFull_of_drop sr 4 _ _ h1 (be32_length _)
  have h2 : sr.data.drop (sr.off + 4) = t ++ (c ++ rest) := by
    have := drop_add_of_drop _ _ _ _ h1
    simpa [List.append_assoc] using this
  have r2 := readFull_of_drop { sr with off := sr.off + 4 } 4 t (c ++ rest) h2 ht
  have h3 : sr.data.drop (sr.off + 4 + 4) = c ++ rest := by
    have := drop_add_of_drop _ _ _ _ h2
    rwa [ht] at this
  have hlen : sr.data.length - (sr.off + 4 + 4) = c.length + rest.length := by
    have := congrArg List.length h3
    simpa using this
  have htake : List.take c.length (List.drop (sr.off + 4 + 4) sr.data) = c := by
    rw [h3]; simp
  have hne0 : 8 + c.length ≠ 0 := by omega
  have hne1 : 8 + c.length ≠ 1 := by omega
  simp only [nextAtom, readUint32BE, r1, beUint_be32 _ hc, hne0, hne1, if_false, nextAtomRest, r2,
    copyNDiscard, seekCur, NewSectionReader, viewOf]
  have e1 : ((8 + c.length : Nat) : Int) - 8 = (c.length : Int) := by omega
  simp only [e1]
  have hneg : ¬ ((c.length : Int) < 0) := by omega
  simp [hlen, htake, hneg, Nat.add_assoc]

theorem nextAtom_of_nil (sr : SectionReader) (h : sr.data.drop sr.off = []) :
    (nextAtom sr).2 = .error .EOF := by
  simp [nextAtom, readUint32BE, readFull, h]

theorem visitAtomList_of_nil {σ : Type} (v : Visitor σ) (fuel : Nat) (root : List Tag) (s : σ)
    (sr : SectionReader) (h : sr.data.drop sr.off = []) :
    visitAtomList v (fuel + 1) root s sr = some (s, none) := by
  have := nextAtom_of_nil sr h
  rw [visitAtomList]
  generalize nextAtom sr = r at this
  obtain ⟨a, b⟩ := r
  simp only at this
  subst this
  simp

theorem runVisits_append {σ : Type} (v : Visitor σ) (s : σ)
    (a b : List (List Tag × SectionReader)) :
    runVisits v s (a ++ b) =
      match runVisits v s a with
      | (s1, some e) => (s1, some e)
      | (s1, none) => runVisits v s1 b := by
  induction a generalizing s with
  | nil => simp [runVisits]
  | cons c cs ih =>
    simp only [List.cons_append, runVisits]
    rcases hv : v s c.1 c.2 with ⟨s1, o, _ | e⟩
    · simp [ih]
    · simp

theorem visitAtomList_encode {σ : Type} (v : Visitor σ) (hv : KeepsContainerViews v)
    (f : Forest) : ∀ (root : List Tag) (s : σ) (sr : SectionReader) (fuel : Nat),
    f.wf = true → sr.data.drop sr.off = f.encode → f.encode.length + 1 ≤ fuel →
    visitAtomList v fuel root s sr = some (runVisits v s (f.preorder root)) := by
  induction f with
  | nil =>
    intro root s sr fuel _ h hf
    obtain ⟨k, rfl⟩ : ∃ k, fuel = k + 1 := ⟨fuel - 1, by omega⟩
    simpa [Forest.preorder, runVisits] using visitAtomList_of_nil v k root s sr h
  | leaf t c rest ih =>
    intro root s sr fuel hwf h hf
    simp only [Forest.wf, Bool.and_eq_true, decide_eq_true_eq, Bool.not_eq_true'] at hwf
    obtain ⟨⟨⟨ht, hnc⟩, hc⟩, hrest⟩ := hwf
    simp only [Forest.encode, List.length_append, be32_length] at hf
    obtain ⟨k, rfl⟩ : ∃ k, fuel = k + 1 := ⟨fuel - 1, by omega⟩
    have hna := nextAtom_encoded sr t c rest.encode ht hc h
    have hd : sr.data.drop (sr.off + 8 + c.length) = rest.encode := by
      have := drop_add_of_drop _ _ _ _ h
      simp only [List.length_append, be32_length, ht] at this
      rw [← this]; congr 1; omega
    rw [visitAtomList, hna]
    simp only [Forest.preorder, runVisits, viewOf]
    rcases hvis : v s (root ++ [t]) { data := c, size := c.length, off := 0 } with ⟨s1, o, _ | e⟩
    · simp only [hnc]
      exact ih root s1 _ k hrest hd (by omega)
    · simp
  | node t ch rest ihc ihr =>
    intro root s sr fuel hwf h hf
    simp only [Forest.wf, Bool.and_eq_true, decide_eq_true_eq] at hwf
    obtain ⟨⟨⟨⟨ht, hcont⟩, hc⟩, hch⟩, hrest⟩ := hwf
    simp only [Forest.encode, List.length_append, be32_length] at hf
    obtain ⟨k, rfl⟩ : ∃ k, fuel = k + 1 := ⟨fuel - 1, by omega⟩
    have hna := nextAtom_encoded sr t ch.encode rest.encode ht hc h
    have hd : sr.data.drop (sr.off + 8 + ch.encode.length) = rest.encode := by
      have := drop_add_of_drop _ _ _ _ h
      simp only [List.length_append, be32_length, ht] at this
      rw [← this]; congr 1; omega
    rw [visitAtomList, hna]
    simp only [Forest.preorder, runVisits, viewOf]
    have hoff := hv s root t { data := ch.encode, size := ch.encode.length, off := 0 } hcont
    rcases hvis : v s (root ++ [t]) { data := ch.encode, size := ch.encode.length, off := 0 }
      with ⟨s1, o, _ | e⟩
    · rw [hvis] at hoff
      simp only at hoff
      subst hoff
      simp only [hcont, if_true]
      rw [ihc (root ++ [t]) s1 _ k hch (by simp) (by omega), runVisits_append]
      rcases hrun : runVisits v s1 (ch.preorder (root ++ [t])) with ⟨s2, _ | e⟩
      · simp only
        exact ihr root s2 _ k hrest hd (by omega)
      · simp
    · simp

theorem readFull_ok_inv {sr sr1 : SectionReader} {n : Nat} {bs : List Byte}
    (h : readFull sr n = (sr1, .ok bs)) :
    sr1 = { sr with off := sr.off + n } ∧ bs = (sr.data.drop sr.off).take n ∧
      n ≤ sr.data.length - sr.off := by
  unfold readFull at h
  simp only at h
  split at h
  · rename_i hl
    simp only [Prod.mk.injEq, Except.ok.injEq] at h
    obtain ⟨h1, h2⟩ := h
    rw [hl] at h1
    refine ⟨h1.symm, h2.symm, ?_⟩
    simp only [List.length_take, List.length_drop] at hl
    omega
  · split at h <;> simp at h

theorem NewSectionReader_of_nonneg (r : SectionReader) (o : Nat) (n : Int) (h : 0 ≤ n) :
    NewSectionReader r o n = { data := (r.data.drop o).take n.toNat, size := n, off := 0 } := by
  have : ¬ n < 0 := by omega
  simp [NewSectionReader, this]

theorem NewSectionReader_of_neg (r : SectionReader) (o : Nat) (n : Int) (h : n < 0) :
    NewSectionReader r o n = { data := r.data.drop o, size := maxInt64 - (o : Int), off := 0 } := by
  simp [NewSectionReader, h]

@[simp] theorem NewSectionReader_off (r : SectionReader) (o : Nat) (n : Int) :
    (NewSectionReader r o n).off = 0 := by
  unfold NewSectionReader; split <;> rfl

theorem NewSectionReader_length_le (r : SectionReader) (o : Nat) (n : Int) :
    (NewSectionReader r o n).data.length ≤ r.data.length - o := by
  unfold NewSectionReader
  split
  · simp
  · simp only [List.length_take, List.length_drop]; omega

theorem topSection_fuel (rs : SectionReader) (n : Int) :
    (NewSectionReader rs 0 n).data.length - (NewSectionReader rs 0 n).off + 1 ≤
      rs.data.length + 1 := by
  have := NewSectionReader_length_le rs 0 n
  simp only [NewSectionReader_off]
  omega

theorem topSection_of_nonneg (rs : SectionReader) (h : 0 ≤ rs.size) :
    NewSectionReader rs 0 (seekEnd rs).2 =
      { data := rs.data.take rs.size.toNat, size := rs.size, off := 0 } := by
  rw [NewSectionReader_of_nonneg _ _ _ (by simpa [seekEnd] using h)]
  simp [seekEnd]

theorem topSection_fileReader (d : List Byte) :
    NewSectionReader (fileReader d) 0 (seekEnd (fileReader d)).2 =
      { data := d, size := d.length, off := 0 } := by
  rw [NewSectionReader_of_nonneg _ _ _ (by simp [seekEnd, fileReader])]
  simp [seekEnd, fileReader]

theorem nextAtomRest_ok_inv {sr sr1 csr : SectionReader} {sz0 : Int} {t : Tag}
    (h : nextAtomRest sr sz0 = (sr1, .ok (t, csr))) :
    sr1.data = sr.data ∧ sr1.size = sr.size ∧
      (sr.off + 4 ≤ sr1.off ∧ sr.off + 4 + csr.data.length ≤ sr.data.length ∧
        (sr1.off = sr.off + 4 + csr.data.length ∨ sr1.off = sr.off + 4)) ∧
      sr1.off ≤ sr.data.length ∧ csr.off = 0 ∧ t = (sr.data.drop sr.off).take 4 ∧
      ((sz0 - 8 < 0 ∧ sr1.off = sr.off + 4 ∧ csr.size = maxInt64 - ((sr.off + 4 : Nat) : Int) ∧
          csr.data = sr.data.drop (sr.off + 4)) ∨
        (0 ≤ sz0 - 8 ∧ sr1.off = sr.off + 4 + csr.data.length ∧ csr.size = sz0 - 8 ∧
          csr.data = (sr.data.drop (sr.off + 4)).take (sz0 - 8).toNat ∧
          (sz0 - 8).toNat ≤ sr.data.length - (sr.off + 4))) := by
  unfold nextAtomRest at h
  rcases hr : readFull sr 4 with ⟨sr2, e | atyp⟩
  · simp [hr] at h
  · obtain ⟨rfl, rfl, hle⟩ := readFull_ok_inv hr
    simp only [hr, copyNDiscard, seekCur] at h
    by_cases hneg : sz0 - 8 < 0
    · simp only [hneg, if_true, Prod.mk.injEq, Except.ok.injEq] at h
      obtain ⟨h1, h2, h3⟩ := h
      rw [NewSectionReader_of_neg _ _ _ hneg] at h3
      subst h1 h2 h3
      refine ⟨rfl, rfl, ⟨Nat.le_refl _, ?_, Or.inr rfl⟩, ?_, rfl, rfl, Or.inl ⟨hneg, rfl, rfl, rfl⟩⟩
      · simp only [List.length_drop]; omega
      · simp only; omega
    · simp only [hneg, if_false] at h
      by_cases hfit : (sz0 - 8).toNat ≤ sr.data.length - (sr.off + 4)
      · simp only [hfit, if_true, Prod.mk.injEq, Except.ok.injEq] at h
        obtain ⟨h1, h2, h3⟩ := h
        rw [NewSectionReader_of_nonneg _ _ _ (by omega)] at h3
        subst h1 h2 h3
        have hl : (List.take (sz0 - 8).toNat (List.drop (sr.off + 4) sr.data)).length
            = (sz0 - 8).toNat := by
          simp only [List.length_take, List.length_drop]; omega
        refine ⟨rfl, rfl, ⟨?_, ?_, Or.inl ?_⟩, ?_, rfl, rfl,
          Or.inr ⟨by omega, ?_, rfl, rfl, hfit⟩⟩
        · simp only; omega
        · simp only [hl]; omega
        · simp only [hl]
        · simp only; omega
        · simp only [hl]
      · simp [hfit] at h

/-- What a successful header decode leaves behind: the section keeps its bytes,
its cursor has moved by at least the 8 header bytes and stays inside the
section, the content view starts at cursor 0 and holds at most the bytes that
followed the header; the cursor stands right after the content, or right after
the header when the declared size gave a negative content length. -/
theorem nextAtom_ok_inv {sr sr1 csr : SectionReader} {t : Tag}
    (h : nextAtom sr = (sr1, .ok (t, csr))) :
    sr1.data = sr.data ∧ sr1.size = sr.size ∧
      (sr.off + 8 ≤ sr1.off ∧ sr.off + 8 + csr.data.length ≤ sr.data.length ∧
        (sr1.off = sr.off + 8 + csr.data.length ∨ sr1.off = sr.off + 8)) ∧
      sr1.off ≤ sr.data.length ∧ csr.off = 0 := by
  unfold nextAtom readUint32BE at h
  rcases hr : readFull sr 4 with ⟨sr2, e | bs⟩
  · simp [hr] at h
  · obtain ⟨rfl, rfl, hle⟩ := readFull_ok_inv hr
    simp only [hr] at h
    split at h
    · obtain ⟨h1, h2, h3, h4, h5, -⟩ := nextAtomRest_ok_inv h
      exact ⟨h1, h2, by simp only at h3; omega, h4, h5⟩
    · split at h
      · simp at h
      · obtain ⟨h1, h2, h3, h4, h5, -⟩ := nextAtomRest_ok_inv h
        exact ⟨h1, h2, by simp only at h3; omega, h4, h5⟩

/-- The two shapes of a successful header decode.  With a resolved size below
8 the content length is negative: nothing is skipped and the view reaches to
the end of the section.  Otherwise the view holds exactly the declared
content, which is skipped. -/
theorem nextAtom_ok_view {sr sr1 csr : SectionReader} {t : Tag}
    (h : nextAtom sr = (sr1, .ok (t, csr))) :
    (declaredSize sr < 8 ∧ sr1.off = sr.off + 8 ∧
        csr.size = maxInt64 - ((sr.off + 8 : Nat) : Int) ∧
        csr.data = sr.data.drop (sr.off + 8)) ∨
      (8 ≤ declaredSize sr ∧ sr1.off = sr.off + 8 + csr.data.length ∧
        csr.size = declaredSize sr - 8 ∧ csr.size = (csr.data.length : Int) ∧
        csr.data = (sr.data.drop (sr.off + 8)).take (declaredSize sr - 8).toNat) := by
  unfold nextAtom readUint32BE at h
  rcases hr : readFull sr 4 with ⟨sr2, e | bs⟩
  · simp [hr] at h
  · obtain ⟨rfl, rfl, hle⟩ := readFull_ok_inv hr
    simp only [hr] at h
    have key : ∀ sz0 : Int, nextAtomRest { sr with off := sr.off + 4 } sz0 = (sr1, .ok (t, csr)) →
        (sz0 < 8 ∧ sr1.off = sr.off + 8 ∧
          csr.size = maxInt64 - ((sr.off + 8 : Nat) : Int) ∧
          csr.data = sr.data.drop (sr.off + 8)) ∨
        (8 ≤ sz0 ∧ sr1.off = sr.off + 8 + csr.data.length ∧
          csr.size = sz0 - 8 ∧ csr.size = (csr.data.length : Int) ∧
          csr.data = (sr.data.drop (sr.off + 8)).take (sz0 - 8).toNat) := by
      intro sz0 hz
      obtain ⟨-, -, -, -, -, -, hcase⟩ := nextAtomRest_ok_inv hz
      simp only [Nat.add_assoc, Nat.reduceAdd] at hcase
      rcases hcase with ⟨h1, h2, h3, h4⟩ | ⟨h1, h2, h3, h4, h5⟩
      · exact Or.inl ⟨by omega, h2, h3, h4⟩
      · refine Or.inr ⟨by omega, by omega, h3, ?_, h4⟩
        have hl := congrArg List.length h4
        simp only [List.length_take, List.length_drop] at hl
        rw [h3]
        omega
    unfold declaredSize
    split at h
    · rename_i h0
      simp only [h0, if_true]
      exact key _ h
    · rename_i h0
      split at h
      · simp at h
      · simp only [h0, if_false]
        exact key _ h

/-- Enough fuel: one more unit than the bytes left in the section. -/
theorem visitAtomList_total {σ : Type} (v : Visitor σ) (fuel : Nat) :
    ∀ (root : List Tag) (s : σ) (sr : SectionReader),
    sr.data.length - sr.off + 1 ≤ fuel → ∃ r, visitAtomList v fuel root s sr = some r := by
  induction fuel with
  | zero => intro root s sr h; omega
  | succ k ih =>
    intro root s sr h
    rw [visitAtomList]
    rcases hn : nextAtom sr with ⟨sr1, e | ⟨ctype, csr⟩⟩
    · simp only
      split <;> exact ⟨_, rfl⟩
    · obtain ⟨h1, -, h3, h4, h5⟩ := nextAtom_ok_inv hn
      simp only
      rcases hvis : v s (root ++ [ctype]) csr with ⟨s1, o, _ | e⟩
      · simp only
        have hk1 : sr1.data.length - sr1.off + 1 ≤ k := by rw [h1]; omega
        split
        · have hk2 : ({ csr with off := o } : SectionReader).data.length
              - ({ csr with off := o } : SectionReader).off + 1 ≤ k := by
            simp only; omega
          obtain ⟨⟨s2, e2⟩, hr⟩ := ih (root ++ [ctype]) s1 { csr with off := o } hk2
          rw [hr]
          cases e2 with
          | none => exact ih root s2 sr1 hk1
          | some e => exact ⟨_, rfl⟩
        · exact ih root s1 sr1 hk1
      · exact ⟨_, rfl⟩

theorem visitAtomList_mono {σ : Type} (v : Visitor σ) (fuel : Nat) :
    ∀ (root : List Tag) (s : σ) (sr : SectionReader) (r : σ × Option Err) (fuel2 : Nat),
    visitAtomList v fuel root s sr = some r → fuel ≤ fuel2 →
    visitAtomList v fuel2 root s sr = some r := by
  induction fuel with
  | zero => intro root s sr r fuel2 h; simp [visitAtomList] at h
  | succ k ih =>
    intro root s sr r fuel2 h hle
    obtain ⟨k2, rfl⟩ : ∃ k2, fuel2 = k2 + 1 := ⟨fuel2 - 1, by omega⟩
    have hk : k ≤ k2 := by omega
    rw [visitAtomList] at h ⊢
    rcases hn : nextAtom sr with ⟨sr1, e | ⟨ctype, csr⟩⟩
    · simpa [hn] using h
    · simp only [hn] at h ⊢
      rcases hvis : v s (root ++ [ctype]) csr with ⟨s1, o, _ | e⟩
      · simp only [hvis] at h ⊢
        split
        · rename_i hc
          simp only [hc, if_true] at h
          rcases hr : visitAtomList v k (root ++ [ctype]) s1 { csr with off := o }
            with _ | ⟨s2, _ | e2⟩
          · simp [hr] at h
          · rw [ih _ _ _ _ k2 hr hk]
            simp only [hr] at h
            exact ih _ _ _ _ k2 h hk
          · rw [ih _ _ _ _ k2 hr hk]
            simpa [hr] using h
        · rename_i hc
          simp only [hc] at h
          exact ih _ _ _ _ k2 h hk
      · simpa [hvis] using h

theorem VisitAtoms_total {σ : Type} (v : Visitor σ) (rs : SectionReader) (s : σ) :
    ∃ r, VisitAtoms v rs s = some r := by
  unfold VisitAtoms
  apply visitAtomList_total
  exact topSection_fuel rs _

theorem VisitAtoms_encode {σ : Type} (v : Visitor σ) (hv : KeepsContainerViews v)
    (f : Forest) (s : σ) (hwf : f.wf = true) :
    VisitAtoms v (fileReader f.encode) s = some (runVisits v s (f.preorder [])) := by
  unfold VisitAtoms
  simp only [topSection_fileReader]
  apply visitAtomList_encode v hv f [] s _ _ hwf
  · simp
  · simp [fileReader]

/-! ## The walker: claims C1 to C5 -/

theorem logged_keeps {σ : Type} (v : Visitor σ) (hv : KeepsContainerViews v) :
    KeepsContainerViews (logged v) := by
  intro st root t view hc
  have := hv st.1 root t view hc
  simpa [logged] using this

theorem runVisits_logged_ok {σ : Type} (v : Visitor σ)
    (hok : ∀ s p view, (v s p view).2.2 = none) (cs : List (List Tag × SectionReader)) :
    ∀ (s : σ) (log : List Call),
    runVisits (logged v) (s, log) cs = (((runVisits v s cs).1, log ++ okCalls cs), none) := by
  induction cs with
  | nil => intro s log; simp [runVisits, okCalls]
  | cons c cs ih =>
    intro s log
    have h := hok s c.1 c.2
    rcases hvis : v s c.1 c.2 with ⟨s1, o, e⟩
    rw [hvis] at h
    simp only at h
    subst h
    simp only [runVisits, logged, hvis, ih, okCalls, List.map_cons, List.append_assoc,
      List.singleton_append]

theorem preorder_length (f : Forest) : ∀ root, (f.preorder root).length = f.count := by
  induction f with
  | nil => intro root; rfl
  | leaf t c rest ih => intro root; simp [Forest.preorder, Forest.count, ih]; omega
  | node t ch rest ihc ihr =>
    intro root; simp [Forest.preorder, Forest.count, ihc, ihr]; omega

/-- C1: on the byte encoding of a well-formed atom forest, with a visitor that never
fails and leaves container views unread, `VisitAtoms` returns no error and its
visitor invocations are exactly the atoms in pre-order, one call per atom,
each with the path of ancestor tags plus the own tag and the view of exactly
the content bytes; the visitor state is the one obtained by these calls. -/
theorem C1_VisitAtoms_preorder {σ : Type} (v : Visitor σ) (f : Forest) (s : σ)
    (hwf : f.wf = true) (hok : ∀ s p view, (v s p view).2.2 = none)
    (hkeep : KeepsContainerViews v) :
    VisitAtoms (logged v) (fileReader f.encode) (s, []) =
        some (((runVisits v s (f.preorder [])).1, okCalls (f.preorder [])), none) ∧
      (okCalls (f.preorder [])).length = f.count := by
  constructor
  · rw [VisitAtoms_encode (logged v) (logged_keeps v hkeep) f (s, []) hwf,
      runVisits_logged_ok v hok]
    simp
  · simp [okCalls, preorder_length]

theorem C1_VisitAtoms_preorder_witness :
    exampleForest.wf = true ∧
      VisitAtoms (logged nullVisitor) (fileReader exampleForest.encode) ((), []) =
        some (((), [⟨[tagFree], viewOf [1, 2, 3], none⟩,
          ⟨[tagMoov], viewOf (be32 8 ++ tagFree ++ (be32 8 ++ tagTrak)), none⟩,
          ⟨[tagMoov, tagFree], viewOf [], none⟩,
          ⟨[tagMoov, tagTrak], viewOf [], none⟩,
          ⟨[tagMdat], viewOf [9], none⟩]), none) :=
  ⟨by decide,
   (C1_VisitAtoms_preorder nullVisitor exampleForest () (by decide) (fun _ _ _ => rfl)
      (fun _ _ _ _ _ => rfl)).1⟩

theorem readFull_short (sr : SectionReader) (n : Nat) (h : sr.data.length - sr.off < n) :
    (readFull sr n).2 =
      .error (if sr.data.length - sr.off = 0 then Err.EOF else Err.ErrUnexpectedEOF) := by
  unfold readFull
  have hl : ((sr.data.drop sr.off).take n).length = sr.data.length - sr.off := by
    simp only [List.length_take, List.length_drop]; omega
  simp only [hl]
  have : ¬ (sr.data.length - sr.off = n) := by omega
  simp only [this, if_false]
  split <;> rfl

theorem readFull_enough (sr : SectionReader) (n : Nat) (h : n ≤ sr.data.length - sr.off) :
    readFull sr n = ({ sr with off := sr.off + n }, .ok ((sr.data.drop sr.off).take n)) := by
  unfold readFull
  have hl : ((sr.data.drop sr.off).take n).length = n := by
    simp only [List.length_take, List.length_drop]; omega
  simp [hl]

/-- What `nextAtom` returns when fewer than 8 bytes are left. -/
theorem nextAtom_short (sr : SectionReader) (h : sr.data.length - sr.off < 8) :
    (nextAtom sr).2 =
      .error (if sr.data.length - sr.off = 0 then Err.EOF
        else if sr.data.length - sr.off < 4 then Err.ErrUnexpectedEOF
        else if beUint ((sr.data.drop sr.off).take 4) = 1 then Err.ErrNotImplemented
        else if sr.data.length - sr.off = 4 then Err.EOF
        else Err.ErrUnexpectedEOF) := by
  by_cases h4 : sr.data.length - sr.off < 4
  · have := readFull_short sr 4 h4
    unfold nextAtom readUint32BE
    rcases hr : readFull sr 4 with ⟨sr1, e | bs⟩
    · rw [hr] at this
      simp only [Except.error.injEq] at this
      subst this
      simp only [h4, if_true]
    · rw [hr] at this; simp at this
  · have h4' : 4 ≤ sr.data.length - sr.off := by omega
    have hr := readFull_enough sr 4 h4'
    have hne : ¬ (sr.data.length - sr.off = 0) := by omega
    have hs := readFull_short { sr with off := sr.off + 4 } 4 (by simp only; omega)
    simp only at hs
    unfold nextAtom readUint32BE
    simp only [hr, hne, h4, if_false]
    have key : ∀ sz0, (nextAtomRest { sr with off := sr.off + 4 } sz0).2 =
        .error (if sr.data.length - sr.off = 4 then Err.EOF else Err.ErrUnexpectedEOF) := by
      intro sz0
      unfold nextAtomRest
      rcases hr2 : readFull { sr with off := sr.off + 4 } 4 with ⟨sr2, e | bs⟩
      · rw [hr2] at hs
        simp only [Except.error.injEq] at hs
        subst hs
        simp only
        congr 1
        by_cases h5 : sr.data.length - sr.off = 4
        · have : sr.data.length - (sr.off + 4) = 0 := by omega
          simp [this, h5]
        · have : ¬ (sr.data.length - (sr.off + 4) = 0) := by omega
          simp [this, h5]
      · rw [hr2] at hs; simp at hs
    by_cases h1 : beUint ((sr.data.drop sr.off).take 4) = 1
    · simp [h1]
    · simp only [h1, if_false]
      split
      · exact key _
      · exact key _

/-- A size-0 atom that starts a fully readable section is decoded with a
content view of all bytes after its header. -/
theorem nextAtom_size_zero_at_start (sr : SectionReader) (h0 : sr.off = 0)
    (hsize : sr.size = sr.data.length) (h8 : 8 ≤ sr.data.length)
    (hz : beUint (sr.data.take 4) = 0) :
    nextAtom sr = ({ sr with off := sr.data.length },
      .ok ((sr.data.drop 4).take 4, viewOf (sr.data.drop 8))) := by
  obtain ⟨data, size, off⟩ := sr
  simp only at h0 hsize h8 hz
  subst h0 hsize
  have r1 := readFull_enough ⟨data, data.length, 0⟩ 4 (by simp only; omega)
  have r2 := readFull_enough ⟨data, data.length, 4⟩ 4 (by simp only; omega)
  simp only [List.drop_zero, Nat.zero_add] at r1
  simp only at r2
  unfold nextAtom readUint32BE
  simp only [r1, hz, if_true]
  unfold nextAtomRest
  simp only [r2, copyNDiscard, seekCur, NewSectionReader, viewOf]
  have e1 : ¬ ((data.length : Int) - 8 < 0) := by omega
  have e2 : ((data.length : Int) - 8).toNat = data.length - 8 := by omega
  have e3 : data.length - 8 ≤ data.length - (4 + 4) := by omega
  have e4 : 4 + 4 + (data.length - 8) = data.length := by omega
  have e5 : List.take (data.length - 8) (List.drop (4 + 4) data) = data.drop 8 := by
    apply List.take_of_length_le
    simp only [List.length_drop]; omega
  have e6 : ((data.length : Int) - 8) = ((data.length - 8 : Nat) : Int) := by omega
  have e7 : ¬ (((data.length - 8 : Nat) : Int) < 0) := by omega
  simp only [e6, e7, Int.toNat_ofNat, e3, e4, e5, if_true, if_false, List.length_drop]

/-- A size-0 atom that starts after the beginning of its section is never
decoded: skipping `Size() - 8` bytes runs past the end of the section and
`nextAtom` returns `io.EOF`. -/
theorem nextAtom_size_zero_later (sr : SectionReader) (hpos : 0 < sr.off)
    (hsize : (sr.data.length : Int) ≤ sr.size) (h8 : sr.off + 8 ≤ sr.data.length)
    (hz : beUint ((sr.data.drop sr.off).take 4) = 0) :
    (nextAtom sr).2 = .error .EOF := by
  have r1 := readFull_enough sr 4 (by omega)
  have r2 := readFull_enough { sr with off := sr.off + 4 } 4 (by simp only; omega)
  unfold nextAtom readUint32BE
  simp only [r1, hz, if_true]
  unfold nextAtomRest
  simp only [r2, copyNDiscard, seekCur, NewSectionReader]
  have e1 : ¬ (sr.size - 8 < 0) := by omega
  have e3 : ¬ ((sr.size - 8).toNat ≤ sr.data.length - (sr.off + 4 + 4)) := by omega
  simp only [e1, e3, if_false]

/-- C2: a size-0 atom that does not start its section is not visited.  The file holds an
empty `free` atom followed by an `mdat` atom with size field 0 and three
content bytes; the walker visits only the `free` atom and reports no error. -/
theorem C2_size_zero_atom_after_sibling :
    VisitAtoms (logged nullVisitor)
        (fileReader (be32 8 ++ tagFree ++ (be32 0 ++ tagMdat ++ [1, 2, 3]))) ((), []) =
      some (((), [⟨[tagFree], viewOf [], none⟩]), none) := by
  decide

/-- C3, as stated, fails: with three bytes left in the section `visitAtomList`
returns `io.ErrUnexpectedEOF`. -/
theorem C3_short_tail_counterexample :
    visitAtomList (logged nullVisitor) 1 [] ((), []) (viewOf [0, 0, 0]) =
      some (((), []), some .ErrUnexpectedEOF) := by
  decide

/-- C3, amended: when fewer than 8 bytes remain at the point where the next header
would be decoded, `visitAtomList` returns without invoking the visitor (state
and call log are unchanged); it returns no error when no byte remains or when
exactly 4 bytes remain that do not encode the size 1, `ErrNotImplemented` when
4 to 7 bytes remain and the first four encode 1, and `io.ErrUnexpectedEOF` in
the other cases (1 to 3 bytes, or 5 to 7 bytes not starting with size 1). -/
theorem C3_short_tail {σ : Type} (v : Visitor σ) (fuel : Nat) (root : List Tag) (s : σ)
    (log : List Call) (sr : SectionReader) (h : sr.data.length - sr.off < 8) :
    visitAtomList (logged v) (fuel + 1) root (s, log) sr =
      some ((s, log),
        if sr.data.length - sr.off = 0 then none
        else if sr.data.length - sr.off < 4 then some .ErrUnexpectedEOF
        else if beUint ((sr.data.drop sr.off).take 4) = 1 then some .ErrNotImplemented
        else if sr.data.length - sr.off = 4 then none
        else some .ErrUnexpectedEOF) := by
  have hn := nextAtom_short sr h
  rw [visitAtomList]
  rcases hr : nextAtom sr with ⟨sr1, e | ⟨t, csr⟩⟩
  · rw [hr] at hn
    simp only [Except.error.injEq] at hn
    subst hn
    simp only
    split_ifs <;> simp_all
  · rw [hr] at hn; simp at hn

theorem C3_short_tail_witness :
    (viewOf [0, 0, 0, 9]).data.length - (viewOf [0, 0, 0, 9]).off < 8 ∧
      visitAtomList (logged nullVisitor) (0 + 1) [] ((), []) (viewOf [0, 0, 0, 9]) =
        some (((), []), none) :=
  ⟨by decide, C3_short_tail nullVisitor 0 [] () [] (viewOf [0, 0, 0, 9]) (by decide)⟩

theorem visitAtomList_eq_of_total {σ : Type} (v : Visitor σ) (fuel fuel2 : Nat)
    (root : List Tag) (s : σ) (sr : SectionReader) (r : σ × Option Err)
    (h : visitAtomList v fuel root s sr = some r)
    (hf : sr.data.length - sr.off + 1 ≤ fuel2) :
    visitAtomList v fuel2 root s sr = some r := by
  obtain ⟨r2, h2⟩ := visitAtomList_total v fuel2 root s sr hf
  have a := visitAtomList_mono v fuel root s sr r (max fuel fuel2) h (le_max_left _ _)
  have b := visitAtomList_mono v fuel2 root s sr r2 (max fuel fuel2) h2 (le_max_right _ _)
  rw [a] at b
  rw [h2]; exact b.symm

theorem visitAtomList_of_reaches {σ : Type} (v : Visitor σ) {root : List Tag} {s : σ}
    {sr : SectionReader} {root2 : List Tag} {s2 : σ} {sr2 : SectionReader}
    (hr : Reaches v root s sr root2 s2 sr2) (e : Err) (he : (nextAtom sr2).2 = .error e)
    (hne : e ≠ .EOF) :
    ∀ fuel, sr.data.length - sr.off + 1 ≤ fuel →
      visitAtomList v fuel root s sr = some (s2, some e) := by
  induction hr with
  | here root s sr =>
    intro fuel hf
    obtain ⟨k, rfl⟩ : ∃ k, fuel = k + 1 := ⟨fuel - 1, by omega⟩
    rw [visitAtomList]
    rcases hn : nextAtom sr with ⟨sr1, e1 | ⟨t, csr⟩⟩
    · rw [hn] at he
      simp only [Except.error.injEq] at he
      subst he
      simp [hne]
    · rw [hn] at he; simp at he
  | next hn hvis hc _ ih =>
    intro fuel hf
    obtain ⟨k, rfl⟩ : ∃ k, fuel = k + 1 := ⟨fuel - 1, by omega⟩
    obtain ⟨h1, -, h3, h4, h5⟩ := nextAtom_ok_inv hn
    rw [visitAtomList]
    simp only [hn, hvis, hc]
    exact ih he k (by rw [h1]; omega)
  | into hn hvis hc _ ih =>
    intro fuel hf
    obtain ⟨k, rfl⟩ : ∃ k, fuel = k + 1 := ⟨fuel - 1, by omega⟩
    obtain ⟨h1, -, h3, h4, h5⟩ := nextAtom_ok_inv hn
    rw [visitAtomList]
    simp only [hn, hvis, hc, if_true]
    rw [ih he k (by simp only; omega)]
  | over hn hvis hc hsub _ ih =>
    intro fuel hf
    obtain ⟨k, rfl⟩ : ∃ k, fuel = k + 1 := ⟨fuel - 1, by omega⟩
    obtain ⟨h1, -, h3, h4, h5⟩ := nextAtom_ok_inv hn
    rw [visitAtomList]
    simp only [hn, hvis, hc, if_true]
    rw [visitAtomList_eq_of_total v _ k _ _ _ _ hsub (by simp only; omega)]
    exact ih he k (by rw [h1]; omega)

theorem nextAtom_size_one (sr : SectionReader) (h : (readUint32BE sr).2 = .ok 1) :
    (nextAtom sr).2 = .error .ErrNotImplemented := by
  unfold nextAtom
  rcases hr : readUint32BE sr with ⟨sr1, e | n⟩
  · rw [hr] at h; simp at h
  · rw [hr] at h
    simp only [Except.ok.injEq] at h
    subst h
    simp

/-- C4: whenever the traversal of an input reaches an atom header whose size field is
1, `VisitAtoms` returns `ErrNotImplemented`, and the visitor invocations are
exactly those made before that header was reached (the call log at the end is
the call log at that point): none for that atom, none for any later atom. -/
theorem C4_size_one_aborts {σ : Type} (v : Visitor σ) (rs : SectionReader) (s0 : σ)
    (root2 : List Tag) (s2 : σ) (log2 : List Call) (sr2 : SectionReader)
    (hreach : Reaches (logged v) [] (s0, []) (NewSectionReader rs 0 (seekEnd rs).2)
      root2 (s2, log2) sr2)
    (hone : (readUint32BE sr2).2 = .ok 1) :
    VisitAtoms (logged v) rs (s0, []) = some ((s2, log2), some .ErrNotImplemented) := by
  unfold VisitAtoms
  apply visitAtomList_of_reaches (logged v) hreach _ (nextAtom_size_one sr2 hone) (by decide)
  exact topSection_fuel rs _

theorem C4_size_one_aborts_witness :
    VisitAtoms (logged nullVisitor) (fileReader sizeOneFile) ((), []) =
      some (((), [⟨[tagFree], viewOf [1, 2, 3], none⟩,
        ⟨[tagMoov], viewOf (be32 8 ++ tagFree ++ (be32 1 ++ tagFree ++ [0, 0, 0, 0, 0, 0, 0, 0])),
          none⟩,
        ⟨[tagMoov, tagFree], viewOf [], none⟩]), some .ErrNotImplemented) := by
  refine C4_size_one_aborts nullVisitor (fileReader sizeOneFile) () [tagMoov] () _
    ⟨be32 8 ++ tagFree ++ (be32 1 ++ tagFree ++ [0, 0, 0, 0, 0, 0, 0, 0]), 24, 8⟩ ?_ (by decide)
  apply Reaches.next (t := tagFree) (o := 0)
  · rfl
  · rfl
  · decide
  apply Reaches.into (t := tagMoov) (o := 0)
  · rfl
  · rfl
  · decide
  apply Reaches.next (t := tagFree) (o := 0)
  · rfl
  · rfl
  · decide
  exact Reaches.here _ _ _

theorem StopsAtError.prepend {a b : List Call} {err : Option Err}
    (ha : ∀ c ∈ a, c.err = none) (hb : StopsAtError b err) : StopsAtError (a ++ b) err := by
  rcases hb with hb | ⟨pre, c, e, rfl, hpre, hc, he⟩
  · left
    intro c hc
    rcases List.mem_append.1 hc with h | h
    · exact ha c h
    · exact hb c h
  · right
    refine ⟨a ++ pre, c, e, by simp, ?_, hc, he⟩
    intro d hd
    rcases List.mem_append.1 hd with h | h
    · exact ha d h
    · exact hpre d h

theorem StopsAtError.all_ok {a : List Call} (h : StopsAtError a none) :
    ∀ c ∈ a, c.err = none := by
  rcases h with h | ⟨pre, c, e, _, _, _, he⟩
  · exact h
  · simp at he

theorem visitAtomList_logged_stops {σ : Type} (v : Visitor σ) (fuel : Nat) :
    ∀ (root : List Tag) (s : σ) (log : List Call) (sr : SectionReader)
      (s2 : σ) (log2 : List Call) (err : Option Err),
    visitAtomList (logged v) fuel root (s, log) sr = some ((s2, log2), err) →
    ∃ added, log2 = log ++ added ∧ StopsAtError added err := by
  induction fuel with
  | zero => intro root s log sr s2 log2 err h; simp [visitAtomList] at h
  | succ k ih =>
    intro root s log sr s2 log2 err h
    rw [visitAtomList] at h
    rcases hn : nextAtom sr with ⟨sr1, e | ⟨t, csr⟩⟩
    · simp only [hn] at h
      refine ⟨[], ?_, Or.inl (by simp)⟩
      split at h <;> · simp only [Option.some.injEq, Prod.mk.injEq] at h; simp [h.1.2]
    · simp only [hn] at h
      rcases hvis : v s (root ++ [t]) csr with ⟨s1, o, _ | e⟩
      · have hl : logged v (s, log) (root ++ [t]) csr =
            ((s1, log ++ [⟨root ++ [t], csr, none⟩]), o, none) := by
          simp [logged, hvis]
        simp only [hl] at h
        have hone : ∀ c ∈ [(⟨root ++ [t], csr, none⟩ : Call)], c.err = none := by
          intro c hc; simp at hc; simp [hc]
        split at h
        · rcases hsub : visitAtomList (logged v) k (root ++ [t])
              (s1, log ++ [⟨root ++ [t], csr, none⟩]) { csr with off := o }
            with _ | ⟨⟨s3, log3⟩, _ | e3⟩
          · simp [hsub] at h
          · simp only [hsub] at h
            obtain ⟨a1, rfl, g1⟩ := ih _ _ _ _ _ _ _ hsub
            obtain ⟨a2, rfl, g2⟩ := ih _ _ _ _ _ _ _ h
            refine ⟨[⟨root ++ [t], csr, none⟩] ++ a1 ++ a2, by simp, ?_⟩
            apply StopsAtError.prepend _ g2
            intro c hc
            rcases List.mem_append.1 hc with h' | h'
            · exact hone c h'
            · exact g1.all_ok c h'
          · simp only [hsub, Option.some.injEq, Prod.mk.injEq] at h
            obtain ⟨⟨rfl, rfl⟩, rfl⟩ := h
            obtain ⟨a1, rfl, g1⟩ := ih _ _ _ _ _ _ _ hsub
            exact ⟨[⟨root ++ [t], csr, none⟩] ++ a1, by simp, StopsAtError.prepend hone g1⟩
        · obtain ⟨a2, rfl, g2⟩ := ih _ _ _ _ _ _ _ h
          exact ⟨[⟨root ++ [t], csr, none⟩] ++ a2, by simp, StopsAtError.prepend hone g2⟩
      · have hl : logged v (s, log) (root ++ [t]) csr =
            ((s1, log ++ [⟨root ++ [t], csr, some e⟩]), o, some e) := by
          simp [logged, hvis]
        simp only [hl, Option.some.injEq, Prod.mk.injEq] at h
        obtain ⟨⟨rfl, rfl⟩, rfl⟩ := h
        exact ⟨[⟨root ++ [t], csr, some e⟩], rfl, Or.inr ⟨[], _, e, rfl, by simp, rfl, rfl⟩⟩

/-- C5: for every byte source and every visitor, `VisitAtoms` returns, and if the
visitor returned an error `e` on its invocation number `k + 1` (entry `k` of
the call log, at any nesting depth; `e` may be `io.EOF`), then `VisitAtoms`
returns exactly `e` and the visitor was invoked exactly `k + 1` times. -/
theorem C5_visitor_error_aborts {σ : Type} (v : Visitor σ) (rs : SectionReader) (s0 : σ) :
    ∃ s2 log err, VisitAtoms (logged v) rs (s0, []) = some ((s2, log), err) ∧
      ∀ (k : Nat) (c : Call) (e : Err), log[k]? = some c → c.err = some e →
        err = some e ∧ log.length = k + 1 := by
  obtain ⟨⟨⟨s2, log⟩, err⟩, h⟩ := VisitAtoms_total (logged v) rs (s0, [])
  refine ⟨s2, log, err, h, ?_⟩
  unfold VisitAtoms at h
  obtain ⟨added, hlog, hstop⟩ := visitAtomList_logged_stops v _ _ _ _ _ _ _ _ h
  simp only [List.nil_append] at hlog
  subst hlog
  intro k c e hk hc
  have hmem : c ∈ log := List.getElem?_mem hk
  rcases hstop with hall | ⟨pre, c2, e2, rfl, hpre, hc2, he2⟩
  · rw [hall c hmem] at hc; simp at hc
  · have hklt : k < (pre ++ [c2]).length := by
      by_contra hcon
      rw [List.getElem?_eq_none (by omega)] at hk
      simp at hk
    simp only [List.length_append, List.length_singleton] at hklt ⊢
    by_cases hlt : k < pre.length
    · rw [List.getElem?_append_left hlt] at hk
      have := hpre c (List.getElem?_mem hk)
      rw [this] at hc; simp at hc
    · have hkeq : k = pre.length := by omega
      subst hkeq
      simp only [List.getElem?_concat_length, Option.some.injEq] at hk
      subst hk
      rw [hc2] at hc
      simp only [Option.some.injEq] at hc
      subst hc
      exact ⟨he2, rfl⟩

/-! ## The collector and the decoder: claims C6 to C10 -/

theorem Visit_vmhd {mem : Nat} (sa : sampleAccumulator) (p : List Tag) (view : SectionReader)
    (h : p.getLast? = some tagVmhd) : (sampleAccumulator.Visit mem sa p view).1.inSound = false := by
  simp only [sampleAccumulator.Visit, h]
  have : ¬ (tagVmhd = tagSmhd) := by decide
  simp [this]

theorem Visit_keeps_not_inSound {mem : Nat} (sa : sampleAccumulator) (p : List Tag) (view : SectionReader)
    (hs : sa.inSound = false) (h : ¬ (p.length = 5 ∧ p.getLast? = some tagSmhd)) :
    (sampleAccumulator.Visit mem sa p view).1.inSound = false := by
  unfold sampleAccumulator.Visit
  rcases hl : p.getLast? with _ | cur
  · simpa using hs
  · simp only
    rw [hl] at h
    simp only [Option.some.injEq] at h
    simp only [h, if_false]
    split_ifs with h2 h3
    · rfl
    · rw [hs] at h3; simp at h3
    · exact hs

theorem foldl_visitState_not_inSound {mem : Nat} (cs : List (List Tag × SectionReader)) :
    ∀ sa : sampleAccumulator, sa.inSound = false →
      (∀ c ∈ cs, ¬ (c.1.length = 5 ∧ c.1.getLast? = some tagSmhd)) →
      (cs.foldl (visitState mem) sa).inSound = false := by
  induction cs with
  | nil => intro sa hs _; simpa using hs
  | cons c cs ih =>
    intro sa hs h
    simp only [List.foldl_cons]
    apply ih
    · exact Visit_keeps_not_inSound sa c.1 c.2 hs (h c (by simp))
    · intro d hd; exact h d (by simp [hd])

/-- C7: from any collector state, after a visit of a `vmhd` atom and any further visits
none of which is a 5-element-path `smhd` visit, the visit of a 6-element-path
`stco` atom collects nothing: it leaves the collector state (so `audioOffsets`)
unchanged, does not read the content view and returns no error, whatever the
content is. -/
theorem C7_stco_after_vmhd_not_collected (mem : Nat) (sa : sampleAccumulator)
    (vmhdPath : List Tag) (vmhdView : SectionReader)
    (between : List (List Tag × SectionReader))
    (stcoPath : List Tag) (stcoView : SectionReader)
    (hvmhd : vmhdPath.getLast? = some tagVmhd)
    (hbetween : ∀ c ∈ between, ¬ (c.1.length = 5 ∧ c.1.getLast? = some tagSmhd))
    (hlen : stcoPath.length = 6) (hstco : stcoPath.getLast? = some tagStco) :
    sampleAccumulator.Visit mem (between.foldl (visitState mem) (visitState mem sa (vmhdPath, vmhdView)))
        stcoPath stcoView =
      (between.foldl (visitState mem) (visitState mem sa (vmhdPath, vmhdView)), stcoView.off, none) := by
  have hs : (between.foldl (visitState mem) (visitState mem sa (vmhdPath, vmhdView))).inSound = false :=
    foldl_visitState_not_inSound between _ (Visit_vmhd sa vmhdPath vmhdView hvmhd) hbetween
  generalize between.foldl (visitState mem) (visitState mem sa (vmhdPath, vmhdView)) = st at hs ⊢
  have h1 : ¬ (tagStco = tagSmhd) := by decide
  have h2 : ¬ (tagStco = tagVmhd) := by decide
  simp [sampleAccumulator.Visit, hstco, hlen, hs, h1, h2]

theorem C7_stco_after_vmhd_not_collected_witness :
    sampleAccumulator.Visit 4294967295
        ([([tagMoov, tagTrak, tagMdia, tagMinf, tagStbl], viewOf [])].foldl
          (visitState 4294967295)
          (visitState 4294967295 ⟨true, [7]⟩
            ([tagMoov, tagTrak, tagMdia, tagMinf, tagVmhd], viewOf [])))
        [tagMoov, tagTrak, tagMdia, tagMinf, tagStbl, tagStco]
        (viewOf ([0, 0, 0, 0] ++ be32 1 ++ be32 100)) =
      ([([tagMoov, tagTrak, tagMdia, tagMinf, tagStbl], viewOf [])].foldl
          (visitState 4294967295)
          (visitState 4294967295 ⟨true, [7]⟩
            ([tagMoov, tagTrak, tagMdia, tagMinf, tagVmhd], viewOf [])),
        0, none) :=
  C7_stco_after_vmhd_not_collected 4294967295 ⟨true, [7]⟩
    [tagMoov, tagTrak, tagMdia, tagMinf, tagVmhd]
    (viewOf []) [([tagMoov, tagTrak, tagMdia, tagMinf, tagStbl], viewOf [])]
    [tagMoov, tagTrak, tagMdia, tagMinf, tagStbl, tagStco]
    (viewOf ([0, 0, 0, 0] ++ be32 1 ++ be32 100)) (by decide) (by decide) (by decide) (by decide)

theorem take4_eq (l : List Byte) (h : 4 ≤ l.length) :
    l.take 4 = [l.getD 0 0, l.getD 1 0, l.getD 2 0, l.getD 3 0] := by
  match l, h with
  | a :: b :: c :: d :: _, _ => rfl

theorem getD_drop (b : List Byte) (i k : Nat) : (b.drop i).getD k 0 = b.getD (i + k) 0 := by
  simp only [List.getD_eq_getElem?_getD, List.getElem?_drop]

theorem take4_drop (b : List Byte) (i : Nat) (h : i + 4 ≤ b.length) :
    (b.drop i).take 4 = [b.getD i 0, b.getD (i + 1) 0, b.getD (i + 2) 0, b.getD (i + 3) 0] := by
  rw [take4_eq _ (by simp only [List.length_drop]; omega)]
  simp only [getD_drop, Nat.add_zero]

theorem leUint_take4_drop (b : List Byte) (i : Nat) (h : i + 4 ≤ b.length) :
    leUint ((b.drop i).take 4) = le32At b i := by
  rw [take4_drop b i h]
  simp only [leUint, le32At]
  omega

theorem headD_drop (b : List Byte) (i : Nat) : (b.drop i).headD 0 = b.getD i 0 := by
  induction b generalizing i with
  | nil => simp
  | cons x xs ih =>
    cases i with
    | zero => simp
    | succ j => simp

theorem decodeGPSLog_take (b : List Byte) (h : 84 ≤ b.length) :
    decodeGPSLog (b.take 84) = recordAt b := by
  have e : ∀ i, i + 4 ≤ 84 → leUint (((b.take 84).drop i).take 4) = le32At b i := by
    intro i hi
    rw [List.drop_take, List.take_take, Nat.min_eq_left (by omega)]
    exact leUint_take4_drop b i (by omega)
  have e1 : ∀ i, i < 84 → ((b.take 84).drop i).headD 0 = b.getD i 0 := by
    intro i hi
    rw [headD_drop]
    simp only [List.getD_eq_getElem?_getD]
    rw [List.getElem?_take_of_lt hi]
  have e0 : (b.take 84).take 4 = [b.getD 0 0, b.getD 1 0, b.getD 2 0, b.getD 3 0] := by
    rw [List.take_take]
    simpa using take4_eq b (by omega)
  unfold decodeGPSLog recordAt
  simp only [List.drop_drop, e0]
  simp only [Nat.reduceAdd]
  rw [e 40 (by norm_num), e 44 (by norm_num), e 48 (by norm_num), e 52 (by norm_num),
    e 56 (by norm_num), e 60 (by norm_num), e 68 (by norm_num), e 72 (by norm_num),
    e 76 (by norm_num), e 80 (by norm_num), e1 64 (by norm_num), e1 65 (by norm_num),
    e1 66 (by norm_num)]

theorem accumulatorVisitor_of_enough (g : GPSLog) (path : List Tag) (sr : SectionReader)
    (hoff : sr.off = 0) (hlen : 84 ≤ sr.data.length) :
    accumulatorVisitor g path sr =
      (recordAt sr.data, 84,
        if (recordAt sr.data).Magic ≠ magicGPS then some .ErrInvalidGPS else none) := by
  have hr := readFull_enough sr 84 (by rw [hoff]; omega)
  rw [hoff] at hr
  simp only [List.drop_zero, Nat.zero_add] at hr
  unfold accumulatorVisitor
  simp only [hr, decodeGPSLog_take sr.data hlen]
  split <;> rfl

theorem recordAt_congr (b c : List Byte)
    (h : ∀ i, (i < 4 ∨ (40 ≤ i ∧ i < 67) ∨ (68 ≤ i ∧ i < 84)) → c.getD i 0 = b.getD i 0) :
    recordAt c = recordAt b := by
  simp only [recordAt, le32At]
  rw [h 0 (by omega), h 1 (by omega), h 2 (by omega), h 3 (by omega),
    h 40 (by omega), h (40 + 1) (by omega), h (40 + 2) (by omega), h (40 + 3) (by omega),
    h 44 (by omega), h (44 + 1) (by omega), h (44 + 2) (by omega), h (44 + 3) (by omega),
    h 48 (by omega), h (48 + 1) (by omega), h (48 + 2) (by omega), h (48 + 3) (by omega),
    h 52 (by omega), h (52 + 1) (by omega), h (52 + 2) (by omega), h (52 + 3) (by omega),
    h 56 (by omega), h (56 + 1) (by omega), h (56 + 2) (by omega), h (56 + 3) (by omega),
    h 60 (by omega), h (60 + 1) (by omega), h (60 + 2) (by omega), h (60 + 3) (by omega),
    h 64 (by omega), h 65 (by omega), h 66 (by omega),
    h 68 (by omega), h (68 + 1) (by omega), h (68 + 2) (by omega), h (68 + 3) (by omega),
    h 72 (by omega), h (72 + 1) (by omega), h (72 + 2) (by omega), h (72 + 3) (by omega),
    h 76 (by omega), h (76 + 1) (by omega), h (76 + 2) (by omega), h (76 + 3) (by omega),
    h 80 (by omega), h (80 + 1) (by omega), h (80 + 2) (by omega), h (80 + 3) (by omega)]

theorem storeFloat32_of_not_nan (x : Nat) (h : isSignallingNaN x = false) :
    storeFloat32 x = x := by
  simp [storeFloat32, h]

theorem storeFloat32_of_nan (x : Nat) (h : isSignallingNaN x = true) :
    storeFloat32 x = x + 4194304 := by
  simp [storeFloat32, h]

set_option maxRecDepth 100000 in
/-- C10, as stated, fails for signalling NaN patterns.  The 84 bytes `nanRecordBytes`
start with `"GPS "` and hold `01 00 80 7f` at offset 68, the little-endian
pattern `0x7f800001`; the decoding visitor succeeds, but the `Latitude` it
stores has the pattern `0x7fc00001`: the value went through `float64`, which
set the quiet bit. -/
theorem C10_signalling_nan_counterexample :
    nanRecordBytes.length = 84 ∧ nanRecordBytes.take 4 = magicGPS ∧
      le32At nanRecordBytes 68 = 2139095041 ∧
      accumulatorVisitor GPSLog.zero [tagFree] (viewOf nanRecordBytes) =
        ({ Magic := magicGPS, Hour := 10, Min := 5, Sec := 30, Year := 21, Mon := 6, Day := 1,
           Unknown := 65, LatitudeSpec := 78, LongitudeSpec := 87, Latitude := 2143289345,
           Longitude := 134678021, Speed := 151587081, Bearing := 16843009 }, 84, none) := by
  refine ⟨by decide, by decide, by decide, by decide⟩

/-- C10, amended: on a content view of at least 84 bytes `b` whose first four bytes are
`"GPS "` the decoding visitor returns no error and stores the record
`recordAt b` (the view is left at offset 84): `Magic` is `b[0..4)`, the six
time fields are the little-endian 32-bit integers at offsets 40, 44, 48, 52,
56, 60, `Unknown`, `LatitudeSpec`, `LongitudeSpec` are `b[64]`, `b[65]`,
`b[66]`, and `Latitude`, `Longitude`, `Speed`, `Bearing` hold the `float32`
values of the little-endian patterns at offsets 68, 72, 76, 80 as
`binary.Read` stores them: the pattern itself unless it is a signalling NaN,
which is stored with its quiet bit set.  Any other view of at least 84 bytes
that agrees with `b` on the offsets 0..3, 40..66 and 68..83 gives the same
result, so bytes 4..39, byte 67 and the bytes from offset 84 on have no
influence. -/
theorem C10_decode_fixed_offsets (g : GPSLog) (path : List Tag) (sr : SectionReader)
    (hoff : sr.off = 0) (hlen : 84 ≤ sr.data.length) (hmagic : sr.data.take 4 = magicGPS) :
    accumulatorVisitor g path sr = (recordAt sr.data, 84, none) ∧
      ((recordAt sr.data).Magic = sr.data.take 4 ∧
        (recordAt sr.data).Hour = le32At sr.data 40 ∧ (recordAt sr.data).Min = le32At sr.data 44 ∧
        (recordAt sr.data).Sec = le32At sr.data 48 ∧ (recordAt sr.data).Year = le32At sr.data 52 ∧
        (recordAt sr.data).Mon = le32At sr.data 56 ∧ (recordAt sr.data).Day = le32At sr.data 60 ∧
        (recordAt sr.data).Unknown = sr.data.getD 64 0 ∧
        (recordAt sr.data).LatitudeSpec = sr.data.getD 65 0 ∧
        (recordAt sr.data).LongitudeSpec = sr.data.getD 66 0 ∧
        (recordAt sr.data).Latitude = storeFloat32 (le32At sr.data 68) ∧
        (recordAt sr.data).Longitude = storeFloat32 (le32At sr.data 72) ∧
        (recordAt sr.data).Speed = storeFloat32 (le32At sr.data 76) ∧
        (recordAt sr.data).Bearing = storeFloat32 (le32At sr.data 80)) ∧
      (∀ x, (isSignallingNaN x = false → storeFloat32 x = x) ∧
        (isSignallingNaN x = true → storeFloat32 x = x + 4194304)) ∧
      ∀ (g2 : GPSLog) (path2 : List Tag) (sr2 : SectionReader), sr2.off = 0 →
        84 ≤ sr2.data.length →
        (∀ i, (i < 4 ∨ (40 ≤ i ∧ i < 67) ∨ (68 ≤ i ∧ i < 84)) →
          sr2.data.getD i 0 = sr.data.getD i 0) →
        accumulatorVisitor g2 path2 sr2 = accumulatorVisitor g path sr := by
  have hm : (recordAt sr.data).Magic = magicGPS := by
    rw [← hmagic, take4_eq _ (by omega)]
    rfl
  refine ⟨?_, ⟨?_, rfl, rfl, rfl, rfl, rfl, rfl, rfl, rfl, rfl, rfl, rfl, rfl, rfl⟩,
    fun x => ⟨storeFloat32_of_not_nan x, storeFloat32_of_nan x⟩, ?_⟩
  · rw [accumulatorVisitor_of_enough g path sr hoff hlen]
    simp [hm]
  · rw [take4_eq _ (by omega)]
    rfl
  · intro g2 path2 sr2 hoff2 hlen2 hagree
    rw [accumulatorVisitor_of_enough g path sr hoff hlen,
      accumulatorVisitor_of_enough g2 path2 sr2 hoff2 hlen2, recordAt_congr _ _ hagree]

theorem C10_decode_fixed_offsets_witness :
    accumulatorVisitor GPSLog.zero [tagFree] (viewOf gpsRecordBytes) =
      ({ Magic := magicGPS, Hour := 10, Min := 5, Sec := 30, Year := 21, Mon := 6, Day := 1,
         Unknown := 65, LatitudeSpec := 78, LongitudeSpec := 87, Latitude := 67305985,
         Longitude := 134678021, Speed := 151587081, Bearing := 16843009 }, 84, none) :=
  (C10_decode_fixed_offsets GPSLog.zero [tagFree] (viewOf gpsRecordBytes) (by decide) (by decide)
    (by decide)).1

theorem preorder_append (a b : Forest) : ∀ root,
    (a.append b).preorder root = a.preorder root ++ b.preorder root := by
  induction a with
  | nil => intro root; rfl
  | leaf t c rest ih => intro root; simp [Forest.append, Forest.preorder, ih]
  | node t ch rest _ ihr => intro root; simp [Forest.append, Forest.preorder, ihr]

theorem wf_append (a b : Forest) : (a.append b).wf = (a.wf && b.wf) := by
  induction a with
  | nil => simp [Forest.append, Forest.wf]
  | leaf t c rest ih => simp [Forest.append, Forest.wf, ih, Bool.and_assoc]
  | node t ch rest _ ihr => simp [Forest.append, Forest.wf, ihr, Bool.and_assoc]

theorem getLast?_snoc (p : List Tag) (t : Tag) : (p ++ [t]).getLast? = some t := by
  simp

theorem Visit_keeps {mem : Nat} : KeepsContainerViews (sampleAccumulator.Visit mem) := by
  intro sa root t view hc
  have hne : t ≠ tagStco := by
    intro h; subst h; revert hc; decide
  unfold sampleAccumulator.Visit
  simp only [getLast?_snoc]
  split_ifs with h1 h2 h3
  · rfl
  · rfl
  · exact absurd h3.2.2 hne
  · rfl

/-- A run of `getAudioChunks` that does not end out of memory is the same on
every runtime with at least as much room. -/
theorem getAudioChunks_mono {m m2 : Nat} (h : m ≤ m2) (sr : SectionReader)
    (hne : (getAudioChunks m sr).2 ≠ .error .outOfMemory) :
    getAudioChunks m2 sr = getAudioChunks m sr := by
  unfold getAudioChunks at hne ⊢
  rcases hc : copyNDiscard sr 4 with ⟨sr1, _ | e⟩
  · rw [hc] at hne
    simp only at hne ⊢
    rcases hr : readUint32BE sr1 with ⟨sr2, e | nent⟩
    · rfl
    · rw [hr] at hne
      simp only at hne ⊢
      by_cases hlt : m < nent
      · simp [hlt] at hne
      · have : ¬ m2 < nent := by omega
        simp only [hlt, this, if_false]
  · rfl

theorem Visit_mono {m m2 : Nat} (h : m ≤ m2) (sa : sampleAccumulator) (p : List Tag)
    (sr : SectionReader)
    (hne : (sampleAccumulator.Visit m sa p sr).2.2 ≠ some .outOfMemory) :
    sampleAccumulator.Visit m2 sa p sr = sampleAccumulator.Visit m sa p sr := by
  unfold sampleAccumulator.Visit at hne ⊢
  rcases hl : p.getLast? with _ | cur
  · rfl
  · rw [hl] at hne
    simp only at hne ⊢
    by_cases h1 : p.length = 5 ∧ cur = tagSmhd
    · rw [if_pos h1, if_pos h1]
    · rw [if_neg h1] at hne
      rw [if_neg h1, if_neg h1]
      by_cases h2 : p.length < 5 ∨ cur = tagVmhd
      · rw [if_pos h2, if_pos h2]
      · rw [if_neg h2] at hne
        rw [if_neg h2, if_neg h2]
        by_cases h3 : sa.inSound = true ∧ p.length = 6 ∧ cur = tagStco
        · rw [if_pos h3] at hne
          rw [if_pos h3, if_pos h3]
          have hg : (getAudioChunks m sr).2 ≠ .error .outOfMemory := by
            intro hc
            rcases hq : getAudioChunks m sr with ⟨sr1, e | offs⟩
            · rw [hq] at hc hne
              simp only [Except.error.injEq] at hc
              subst hc
              simp at hne
            · rw [hq] at hc; simp at hc
          rw [getAudioChunks_mono h sr hg]
        · rw [if_neg h3, if_neg h3]

/-- Two visitors that agree wherever the first does not return the error `bad`
give the same walk whenever the walk of the first does not return `bad`. -/
theorem visitAtomList_agree {σ : Type} (v1 v2 : Visitor σ) (bad : Err)
    (hv : ∀ s p sr, (v1 s p sr).2.2 ≠ some bad → v2 s p sr = v1 s p sr) (fuel : Nat) :
    ∀ (root : List Tag) (s : σ) (sr : SectionReader) (r : σ × Option Err),
      visitAtomList v1 fuel root s sr = some r → r.2 ≠ some bad →
      visitAtomList v2 fuel root s sr = some r := by
  induction fuel with
  | zero => intro root s sr r h; simp [visitAtomList] at h
  | succ k ih =>
    intro root s sr r h hr
    rw [visitAtomList] at h ⊢
    rcases hn : nextAtom sr with ⟨sr1, e | ⟨ctype, csr⟩⟩
    · simpa [hn] using h
    · simp only [hn] at h ⊢
      rcases hvis : v1 s (root ++ [ctype]) csr with ⟨s1, o, _ | e⟩
      · have h2 : v2 s (root ++ [ctype]) csr = (s1, o, none) := by
          rw [hv s _ csr (by rw [hvis]; simp), hvis]
        simp only [hvis] at h
        simp only [h2]
        by_cases hc : isContainer ctype = true
        · simp only [hc, if_true] at h ⊢
          rcases hsub : visitAtomList v1 k (root ++ [ctype]) s1 { csr with off := o }
            with _ | ⟨s2, _ | e⟩
          · simp [hsub] at h
          · simp only [hsub] at h
            rw [ih _ _ _ _ hsub (by simp)]
            exact ih _ _ _ _ h hr
          · simp only [hsub, Option.some.injEq] at h
            subst h
            rw [ih _ _ _ _ hsub hr]
        · simp only [hc] at h ⊢
          exact ih _ _ _ _ h hr
      · simp only [hvis, Option.some.injEq] at h
        subst h
        have h2 : v2 s (root ++ [ctype]) csr = (s1, o, some e) := by
          rw [hv s _ csr (by rw [hvis]; exact hr), hvis]
        simp only [h2]

/-- A walk of the collector that does not end out of memory is the same on
every runtime with at least as much room. -/
theorem VisitAtoms_Visit_mono {m m2 : Nat} (h : m ≤ m2) (rs : SectionReader)
    (s sa : sampleAccumulator) (e : Option Err)
    (hw : VisitAtoms (sampleAccumulator.Visit m) rs s = some (sa, e))
    (hne : e ≠ some .outOfMemory) :
    VisitAtoms (sampleAccumulator.Visit m2) rs s = some (sa, e) := by
  unfold VisitAtoms at hw ⊢
  exact visitAtomList_agree _ _ .outOfMemory (fun s p sr hx => Visit_mono h s p sr hx) _ _ _ _ _
    hw hne

theorem GPSLogs_mono {m m2 : Nat} (h : m ≤ m2) (file : List Byte)
    (sa : sampleAccumulator) (e : Option Err)
    (hw : VisitAtoms (sampleAccumulator.Visit m) (fileReader file) sampleAccumulator.fresh =
      some (sa, e))
    (hne : e ≠ some .outOfMemory) : GPSLogs m2 file = GPSLogs m file := by
  unfold GPSLogs
  rw [VisitAtoms_Visit_mono h _ _ _ _ hw hne, hw]

theorem runVisits_noStco {mem : Nat} (cs : List (List Tag × SectionReader)) :
    ∀ sa : sampleAccumulator, NoStco cs →
      ∃ sa2, runVisits (sampleAccumulator.Visit mem) sa cs = (sa2, none) ∧
        sa2.audioOffsets = sa.audioOffsets := by
  induction cs with
  | nil => intro sa _; exact ⟨sa, rfl, rfl⟩
  | cons c cs ih =>
    intro sa h
    obtain ⟨p, t, hp, ht⟩ := h c (by simp)
    have hrest : NoStco cs := fun d hd => h d (by simp [hd])
    have hv : ∃ sa1 o, sampleAccumulator.Visit mem sa c.1 c.2 = (sa1, o, none) ∧
        sa1.audioOffsets = sa.audioOffsets := by
      unfold sampleAccumulator.Visit
      simp only [hp, getLast?_snoc]
      split_ifs with h1 h2 h3
      · exact ⟨_, _, rfl, rfl⟩
      · exact ⟨_, _, rfl, rfl⟩
      · exact absurd h3.2.2 ht
      · exact ⟨_, _, rfl, rfl⟩
    obtain ⟨sa1, o, hv1, hv2⟩ := hv
    obtain ⟨sa2, hr, ha⟩ := ih sa1 hrest
    refine ⟨sa2, ?_, by rw [ha, hv2]⟩
    simp only [runVisits, hv1, hr]

/-- While the in-sound flag is clear, visits of atoms not tagged `smhd` collect
nothing and leave the flag clear. -/
theorem runVisits_noSmhd {mem : Nat} (cs : List (List Tag × SectionReader)) :
    ∀ sa : sampleAccumulator, sa.inSound = false → NoSmhd cs →
      ∃ sa2, runVisits (sampleAccumulator.Visit mem) sa cs = (sa2, none) ∧
        sa2.audioOffsets = sa.audioOffsets ∧ sa2.inSound = false := by
  induction cs with
  | nil => intro sa hs _; exact ⟨sa, rfl, rfl, hs⟩
  | cons c cs ih =>
    intro sa hs h
    obtain ⟨p, t, hp, ht⟩ := h c (by simp)
    have hrest : NoSmhd cs := fun d hd => h d (by simp [hd])
    have hv : ∃ sa1 o, sampleAccumulator.Visit mem sa c.1 c.2 = (sa1, o, none) ∧
        sa1.audioOffsets = sa.audioOffsets ∧ sa1.inSound = false := by
      unfold sampleAccumulator.Visit
      simp only [hp, getLast?_snoc]
      split_ifs with h1 h2 h3
      · exact absurd h1.2 ht
      · exact ⟨_, _, rfl, rfl, rfl⟩
      · rw [hs] at h3; simp at h3
      · exact ⟨_, _, rfl, rfl, hs⟩
    obtain ⟨sa1, o, hv1, hv2, hv3⟩ := hv
    obtain ⟨sa2, hr, ha, hf⟩ := ih sa1 hv3 hrest
    refine ⟨sa2, ?_, by rw [ha, hv2], hf⟩
    simp only [runVisits, hv1, hr]

theorem runVisits_deepPlain {mem : Nat} (cs : List (List Tag × SectionReader)) :
    ∀ sa : sampleAccumulator, sa.inSound = true → DeepPlain cs →
      runVisits (sampleAccumulator.Visit mem) sa cs = (sa, none) := by
  induction cs with
  | nil => intro sa _ _; rfl
  | cons c cs ih =>
    intro sa hs h
    obtain ⟨p, t, hp, ht, htv, hlen⟩ := h c (by simp)
    have hrest : DeepPlain cs := fun d hd => h d (by simp [hd])
    have hv : ∃ o, sampleAccumulator.Visit mem sa c.1 c.2 = (sa, o, none) := by
      unfold sampleAccumulator.Visit
      simp only [hp, getLast?_snoc, List.length_append, List.length_singleton]
      split_ifs with h1 h2 h3
      · refine ⟨c.2.off, ?_⟩
        congr 1
        cases sa; simp_all
      · rcases h2 with h2 | h2
        · omega
        · exact absurd h2 htv
      · exact absurd h3.2.2 ht
      · exact ⟨_, rfl⟩
    obtain ⟨o, hv1⟩ := hv
    simp only [runVisits, hv1]
    exact ih sa hs hrest

theorem noStco_append {a b : List (List Tag × SectionReader)} (ha : NoStco a) (hb : NoStco b) :
    NoStco (a ++ b) := by
  intro c hc
  rcases List.mem_append.1 hc with h | h
  · exact ha c h
  · exact hb c h

theorem noSmhd_append {a b : List (List Tag × SectionReader)} (ha : NoSmhd a) (hb : NoSmhd b) :
    NoSmhd (a ++ b) := by
  intro c hc
  rcases List.mem_append.1 hc with h | h
  · exact ha c h
  · exact hb c h

theorem deepPlain_append {a b : List (List Tag × SectionReader)} (ha : DeepPlain a)
    (hb : DeepPlain b) : DeepPlain (a ++ b) := by
  intro c hc
  rcases List.mem_append.1 hc with h | h
  · exact ha c h
  · exact hb c h

theorem noStco_single (p : List Tag) (t : Tag) (view : SectionReader) (ht : t ≠ tagStco) :
    NoStco [(p ++ [t], view)] := by
  intro c hc
  simp only [List.mem_singleton] at hc
  subst hc
  exact ⟨p, t, rfl, ht⟩

theorem noSmhd_single (p : List Tag) (t : Tag) (view : SectionReader) (ht : t ≠ tagSmhd) :
    NoSmhd [(p ++ [t], view)] := by
  intro c hc
  simp only [List.mem_singleton] at hc
  subst hc
  exact ⟨p, t, rfl, ht⟩

theorem noStco_preorder (f : Forest) : ∀ root, f.hasTag tagStco = false →
    NoStco (f.preorder root) := by
  induction f with
  | nil => intro root _ c hc; simp [Forest.preorder] at hc
  | leaf t c rest ih =>
    intro root h
    simp only [Forest.hasTag, Bool.or_eq_false_iff, decide_eq_false_iff_not] at h
    simp only [Forest.preorder]
    exact noStco_append (a := [_]) (noStco_single root t _ h.1) (ih root h.2)
  | node t ch rest ihc ihr =>
    intro root h
    simp only [Forest.hasTag, Bool.or_eq_false_iff, decide_eq_false_iff_not] at h
    simp only [Forest.preorder]
    exact noStco_append (a := [_]) (noStco_single root t _ h.1.1)
      (noStco_append (ihc _ h.1.2) (ihr root h.2))

theorem noSmhd_preorder (f : Forest) : ∀ root, f.hasTag tagSmhd = false →
    NoSmhd (f.preorder root) := by
  induction f with
  | nil => intro root _ c hc; simp [Forest.preorder] at hc
  | leaf t c rest ih =>
    intro root h
    simp only [Forest.hasTag, Bool.or_eq_false_iff, decide_eq_false_iff_not] at h
    simp only [Forest.preorder]
    exact noSmhd_append (a := [_]) (noSmhd_single root t _ h.1) (ih root h.2)
  | node t ch rest ihc ihr =>
    intro root h
    simp only [Forest.hasTag, Bool.or_eq_false_iff, decide_eq_false_iff_not] at h
    simp only [Forest.preorder]
    exact noSmhd_append (a := [_]) (noSmhd_single root t _ h.1.1)
      (noSmhd_append (ihc _ h.1.2) (ihr root h.2))

theorem shallowHead_preorder (f : Forest) (root : List Tag) (h : root.length < 4) :
    ShallowHead (f.preorder root) := by
  intro c hc
  cases f with
  | nil => simp [Forest.preorder] at hc
  | leaf t x rest =>
    simp only [Forest.preorder, List.head?_cons, Option.some.injEq] at hc
    subst hc
    simp only [List.length_append, List.length_singleton]
    omega
  | node t ch rest =>
    simp only [Forest.preorder, List.head?_cons, Option.some.injEq] at hc
    subst hc
    simp only [List.length_append, List.length_singleton]
    omega

theorem deepPlain_preorder (f : Forest) : ∀ root, 4 ≤ root.length →
    f.hasTag tagStco = false → f.hasTag tagVmhd = false → DeepPlain (f.preorder root) := by
  induction f with
  | nil => intro root _ _ _ c hc; simp [Forest.preorder] at hc
  | leaf t c rest ih =>
    intro root hr h h2
    simp only [Forest.hasTag, Bool.or_eq_false_iff, decide_eq_false_iff_not] at h h2
    simp only [Forest.preorder]
    apply deepPlain_append (a := [_]) _ (ih root hr h.2 h2.2)
    intro d hd
    simp only [List.mem_singleton] at hd
    subst hd
    exact ⟨root, t, rfl, h.1, h2.1, hr⟩
  | node t ch rest ihc ihr =>
    intro root hr h h2
    simp only [Forest.hasTag, Bool.or_eq_false_iff, decide_eq_false_iff_not] at h h2
    simp only [Forest.preorder]
    apply deepPlain_append (a := [_]) _
      (deepPlain_append (ihc _ (by simp; omega) h.1.2 h2.1.2) (ihr root hr h.2 h2.2))
    intro d hd
    simp only [List.mem_singleton] at hd
    subst hd
    exact ⟨root, t, rfl, h.1.1, h2.1.1, hr⟩

theorem inert_of_noStco {mem : Nat} {cs : List (List Tag × SectionReader)} (h : NoStco cs) :
    Inert mem cs := fun sa => runVisits_noStco cs sa h

theorem inert_nil {mem : Nat} : Inert mem [] := fun sa => ⟨sa, rfl, rfl⟩

theorem inert_append {mem : Nat} {a b : List (List Tag × SectionReader)}
    (ha : Inert mem a) (hb : Inert mem b) : Inert mem (a ++ b) := by
  intro sa
  obtain ⟨sa1, r1, e1⟩ := ha sa
  obtain ⟨sa2, r2, e2⟩ := hb sa1
  refine ⟨sa2, ?_, by rw [e2, e1]⟩
  rw [runVisits_append, r1]
  exact r2

/-- Calls that start above the fifth level and hold no `smhd` atom: the first
one clears the in-sound flag, and nothing is collected. -/
theorem inert_of_shallow {mem : Nat} {cs : List (List Tag × SectionReader)}
    (h : NoSmhd cs) (hh : ShallowHead cs) : Inert mem cs := by
  intro sa
  cases cs with
  | nil => exact ⟨sa, rfl, rfl⟩
  | cons c cs =>
    obtain ⟨p, t, hp, ht⟩ := h c (by simp)
    have hlen := hh c rfl
    have hrest : NoSmhd cs := fun d hd => h d (by simp [hd])
    have hv : sampleAccumulator.Visit mem sa c.1 c.2 =
        ({ sa with inSound := false }, c.2.off, none) := by
      unfold sampleAccumulator.Visit
      simp only [hp, getLast?_snoc]
      rw [hp] at hlen
      have h5 : ¬ ((p ++ [t]).length = 5 ∧ t = tagSmhd) := fun hx => ht hx.2
      simp only [h5, if_false, hlen, true_or, if_true]
    obtain ⟨sa2, hr, ha, -⟩ := @runVisits_noSmhd mem cs { sa with inSound := false } rfl
      hrest
    exact ⟨sa2, by simp only [runVisits, hv, hr], ha⟩

theorem flatten_be32_length (L : List Nat) : ((L.map be32).flatten).length = 4 * L.length := by
  induction L with
  | nil => rfl
  | cons x xs ih => simp [ih]; omega

theorem stcoContent_length (vf : List Byte) (L : List Nat) :
    (stcoContent vf L).length = vf.length + 4 + 4 * L.length := by
  simp only [stcoContent, List.length_append, be32_length, flatten_be32_length]

theorem readOffsets_encoded (L : List Nat) : ∀ (acc : List Nat) (sr : SectionReader)
    (rest : List Byte), (∀ x ∈ L, x < 4294967296) →
    sr.data.drop sr.off = (L.map be32).flatten ++ rest →
    readOffsets L.length sr acc = ({ sr with off := sr.off + 4 * L.length }, .ok (acc ++ L)) := by
  induction L with
  | nil => intro acc sr rest _ _; simp [readOffsets]
  | cons x xs ih =>
    intro acc sr rest hx h
    have h1 : sr.data.drop sr.off = be32 x ++ ((xs.map be32).flatten ++ rest) := by
      simpa [List.append_assoc] using h
    have r1 := readFull_of_drop sr 4 _ _ h1 (be32_length _)
    have h2 : sr.data.drop (sr.off + 4) = (xs.map be32).flatten ++ rest := by
      simpa using drop_add_of_drop _ _ _ _ h1
    simp only [List.length_cons, readOffsets, readUint32BE, r1, beUint_be32 x (hx x (by simp))]
    rw [ih (acc ++ [x]) { sr with off := sr.off + 4 } rest
      (fun y hy => hx y (by simp [hy])) h2]
    simp only [List.append_assoc, List.singleton_append, Prod.mk.injEq, Except.ok.injEq, and_true]
    congr 1
    omega

theorem getAudioChunks_encoded {mem : Nat} (vf : List Byte) (L : List Nat) (hvf : vf.length = 4)
    (hn : L.length < 4294967296) (hL : ∀ x ∈ L, x < 4294967296) (hmem : L.length ≤ mem) :
    getAudioChunks mem (viewOf (stcoContent vf L)) =
      ({ viewOf (stcoContent vf L) with off := 8 + 4 * L.length }, .ok L) := by
  have hlen := stcoContent_length vf L
  have h4 : (viewOf (stcoContent vf L)).data.drop 4 = be32 L.length ++ (L.map be32).flatten := by
    simp only [viewOf, stcoContent, List.append_assoc]
    rw [← hvf]; simp
  have r1 := readFull_of_drop { viewOf (stcoContent vf L) with off := 4 } 4 _ _ h4 (be32_length _)
  have h8 : (viewOf (stcoContent vf L)).data.drop (4 + 4) = (L.map be32).flatten ++ [] := by
    simpa using drop_add_of_drop _ _ _ _ h4
  have r2 := readOffsets_encoded L [] { viewOf (stcoContent vf L) with off := 4 + 4 } [] hL h8
  have hfit : (4 : Int).toNat ≤ (viewOf (stcoContent vf L)).data.length
      - (viewOf (stcoContent vf L)).off := by
    simp only [viewOf, hlen, hvf]
    have : (4 : Int).toNat = 4 := rfl
    omega
  have hm : ¬ mem < L.length := by omega
  unfold getAudioChunks copyNDiscard
  simp only [hfit, if_true, readUint32BE]
  have e4 : (viewOf (stcoContent vf L)).off + (4 : Int).toNat = 4 := by simp [viewOf]
  simp only [e4, show ¬ ((4 : Int) < 0) by decide, if_false, r1, beUint_be32 _ hn, hm, r2,
    List.nil_append]

theorem Visit_stco_collects {mem : Nat} (sa : sampleAccumulator) (p : List Tag) (vf : List Byte)
    (L : List Nat) (hs : sa.inSound = true) (hp : p.length = 5) (hvf : vf.length = 4)
    (hn : L.length < 4294967296) (hL : ∀ x ∈ L, x < 4294967296) (hmem : L.length ≤ mem) :
    sampleAccumulator.Visit mem sa (p ++ [tagStco]) (viewOf (stcoContent vf L)) =
      ({ sa with audioOffsets := L }, 8 + 4 * L.length, none) := by
  have h1 : ¬ (tagStco = tagSmhd) := by decide
  have h2 : ¬ (tagStco = tagVmhd) := by decide
  unfold sampleAccumulator.Visit
  simp only [getLast?_snoc, List.length_append, List.length_singleton, hp, h1, h2, hs,
    getAudioChunks_encoded vf L hvf hn hL hmem]
  simp

theorem collects_surround {mem : Nat} {L : List Nat} {cs a b : List (List Tag × SectionReader)}
    (h : Collects mem L cs) (ha : Inert mem a) (hb : Inert mem b) :
    Collects mem L (a ++ cs ++ b) := by
  intro sa
  obtain ⟨sa1, r1, -⟩ := ha sa
  obtain ⟨sa2, r2, e2⟩ := h sa1
  obtain ⟨sa3, r3, e3⟩ := hb sa2
  refine ⟨sa3, ?_, by rw [e3, e2]⟩
  rw [runVisits_append, runVisits_append, r1]
  simp only [r2, r3]

/-- The calls for a container atom and its content collect `L` when those for
the content do. -/
theorem collects_below {mem : Nat} {L : List Nat} {cs : List (List Tag × SectionReader)}
    (p : List Tag) (t : Tag) (view : SectionReader) (h : Collects mem L cs) (ht : t ≠ tagStco) :
    Collects mem L ([(p ++ [t], view)] ++ cs) := by
  have := collects_surround h (inert_of_noStco (noStco_single p t view ht))
    (@inert_nil mem)
  simpa using this

/-- Wrapping above the fifth level: the atoms before and after the container
atom hold no `smhd` atom. -/
theorem collects_wrap {mem : Nat} {L : List Nat} {pre inner post : Forest} {t : Tag}
    {root : List Tag}
    (h : Collects mem L ([(root ++ [t], viewOf inner.encode)] ++ inner.preorder (root ++ [t])))
    (hroot : root.length < 4)
    (hpre : pre.hasTag tagSmhd = false) (hpost : post.hasTag tagSmhd = false) :
    Collects mem L ((wrap pre t inner post).preorder root) := by
  have e : (wrap pre t inner post).preorder root =
      pre.preorder root ++ ([(root ++ [t], viewOf inner.encode)] ++
        inner.preorder (root ++ [t])) ++ post.preorder root := by
    simp [wrap, preorder_append, Forest.preorder]
  rw [e]
  exact collects_surround h
    (inert_of_shallow (noSmhd_preorder pre root hpre) (shallowHead_preorder pre root hroot))
    (inert_of_shallow (noSmhd_preorder post root hpost) (shallowHead_preorder post root hroot))

theorem Visit_smhd {mem : Nat} (sa : sampleAccumulator) (p : List Tag) (view : SectionReader)
    (hp : p.length = 4) :
    sampleAccumulator.Visit mem sa (p ++ [tagSmhd]) view =
      ({ sa with inSound := true }, view.off, none) := by
  unfold sampleAccumulator.Visit
  simp [getLast?_snoc, hp]

theorem Visit_minf {mem : Nat} (sa : sampleAccumulator) (p : List Tag) (view : SectionReader)
    (hp : p.length = 3) :
    sampleAccumulator.Visit mem sa (p ++ [tagMinf]) view =
      ({ sa with inSound := false }, view.off, none) := by
  have h1 : ¬ (tagMinf = tagSmhd) := by decide
  unfold sampleAccumulator.Visit
  simp [getLast?_snoc, hp, h1]

/-- The calls for a `minf` atom and its content, a sound-track branch. -/
theorem collects_core {mem : Nat} (root : List Tag) (hroot : root.length = 3)
    (pre4 mid pre5 post5 post4 : Forest) (c vf : List Byte) (L : List Nat) (view : SectionReader)
    (h4 : pre4.hasTag tagSmhd = false) (hm : mid.hasTag tagStco = false)
    (hmv : mid.hasTag tagVmhd = false) (h5 : pre5.hasTag tagStco = false)
    (h5v : pre5.hasTag tagVmhd = false) (hp5 : post5.hasTag tagStco = false)
    (hp4 : post4.hasTag tagStco = false) (hvf : vf.length = 4)
    (hn : L.length < 4294967296) (hL : ∀ x ∈ L, x < 4294967296) (hmem : L.length ≤ mem) :
    Collects mem L ([(root ++ [tagMinf], view)] ++
      (pre4.append (.leaf tagSmhd c (mid.append (.node tagStbl
        (pre5.append (.leaf tagStco (stcoContent vf L) post5)) post4)))).preorder
          (root ++ [tagMinf])) := by
  have hr4 : (root ++ [tagMinf]).length = 4 := by simp [hroot]
  generalize root ++ [tagMinf] = r4 at hr4 ⊢
  have e : (pre4.append (.leaf tagSmhd c (mid.append (.node tagStbl
      (pre5.append (.leaf tagStco (stcoContent vf L) post5)) post4)))).preorder r4 =
      pre4.preorder r4 ++ ([(r4 ++ [tagSmhd], viewOf c)] ++
        ((mid.preorder r4 ++ ([(r4 ++ [tagStbl], viewOf
            (pre5.append (.leaf tagStco (stcoContent vf L) post5)).encode)] ++
          pre5.preorder (r4 ++ [tagStbl]))) ++
        ([(r4 ++ [tagStbl] ++ [tagStco], viewOf (stcoContent vf L))] ++
          (post5.preorder (r4 ++ [tagStbl]) ++ post4.preorder r4)))) := by
    simp [preorder_append, Forest.preorder]
  rw [e]
  intro sa
  have hv0 : ∃ o, sampleAccumulator.Visit mem sa r4 view =
      ({ sa with inSound := false }, o, none) := by
    have h1 : r4.getLast? ≠ some tagSmhd ∨ True := Or.inr trivial
    unfold sampleAccumulator.Visit
    rcases hl : r4.getLast? with _ | cur
    · rw [List.getLast?_eq_none_iff] at hl
      rw [hl] at hr4; simp at hr4
    · have h5 : ¬ (r4.length = 5 ∧ cur = tagSmhd) := by omega
      have h45 : r4.length < 5 := by omega
      simp only [h5, if_false, h45, true_or, if_true]
      exact ⟨_, rfl⟩
  obtain ⟨o0, hv0⟩ := hv0
  obtain ⟨sa1, r1, -, -⟩ := @runVisits_noSmhd mem _ { sa with inSound := false } rfl
    (noSmhd_preorder pre4 r4 h4)
  have hdeep : DeepPlain (mid.preorder r4 ++ ([(r4 ++ [tagStbl], viewOf
      (pre5.append (.leaf tagStco (stcoContent vf L) post5)).encode)] ++
      pre5.preorder (r4 ++ [tagStbl]))) := by
    apply deepPlain_append (deepPlain_preorder mid r4 (by omega) hm hmv)
    apply deepPlain_append _ (deepPlain_preorder pre5 _ (by simp; omega) h5 h5v)
    intro d hd
    simp only [List.mem_singleton] at hd
    subst hd
    exact ⟨r4, tagStbl, rfl, by decide, by decide, by omega⟩
  have r2 := @runVisits_deepPlain mem _ { sa1 with inSound := true } rfl hdeep
  have r3 := @Visit_stco_collects mem { sa1 with inSound := true } (r4 ++ [tagStbl]) vf L
    rfl (by simp; omega) hvf hn hL hmem
  obtain ⟨sa4, r4x, e4⟩ := @runVisits_noStco mem _
    { sa1 with inSound := true, audioOffsets := L }
    (noStco_append (noStco_preorder post5 (r4 ++ [tagStbl]) hp5)
      (noStco_preorder post4 r4 hp4))
  refine ⟨sa4, ?_, e4⟩
  have r0 : runVisits (sampleAccumulator.Visit mem) sa [(r4, view)] =
      ({ sa with inSound := false }, none) := by
    simp only [runVisits, hv0]
  rw [runVisits_append, r0]
  simp only
  rw [runVisits_append, r1]
  simp only
  rw [runVisits_append]
  simp only [runVisits, Visit_smhd sa1 r4 _ hr4]
  rw [runVisits_append, r2]
  simp only
  rw [runVisits_append]
  simp only [runVisits, r3]
  exact r4x

/-- The calls for a `trak` atom's surroundings and content, a sound-track
branch below a path `root` of one element. -/
theorem branch_collects {mem : Nat} (root : List Tag) (hroot : root.length = 1)
    (pre post : Fin 6 → Forest) (mid : Forest) (c vf : List Byte) (L : List Nat)
    (hp : BranchPlain pre post mid) (hvf : vf.length = 4)
    (hn : L.length < 4294967296) (hL : ∀ x ∈ L, x < 4294967296) (hmem : L.length ≤ mem) :
    Collects mem L ((wrap (pre 1) tagTrak
      (wrap (pre 2) tagMdia
        (wrap (pre 3) tagMinf
          ((pre 4).append
            (.leaf tagSmhd c
              (mid.append
                (.node tagStbl ((pre 5).append (.leaf tagStco (stcoContent vf L) (post 5)))
                  (post 4)))))
          (post 3))
        (post 2))
      (post 1)).preorder root) := by
  obtain ⟨hpre, hpost, hmv, hm, h5v, h5, hp5, hp4⟩ := hp
  apply collects_wrap _ (by omega) (hpre 1 (by decide)) (hpost 1 (by decide))
  apply collects_below _ _ _ _ (by decide)
  apply collects_wrap _ (by simp; omega) (hpre 2 (by decide)) (hpost 2 (by decide))
  apply collects_below _ _ _ _ (by decide)
  apply collects_wrap _ (by simp; omega) (hpre 3 (by decide)) (hpost 3 (by decide))
  exact collects_core _ (by simp; omega) (pre 4) mid (pre 5) (post 5) (post 4) c vf L _
    (hpre 4 (by decide)) hm hmv h5 h5v hp5 hp4 hvf hn hL hmem

theorem soundBranch_collects {mem : Nat} (pre post : Fin 6 → Forest) (mid : Forest)
    (c vf : List Byte) (L : List Nat)
    (hp : BranchPlain pre post mid) (hvf : vf.length = 4)
    (hn : L.length < 4294967296) (hL : ∀ x ∈ L, x < 4294967296) (hmem : L.length ≤ mem) :
    Collects mem L ((soundBranchFile pre post mid c (stcoContent vf L)).preorder []) := by
  unfold soundBranchFile
  apply collects_wrap _ (by decide) (hp.1 0 (by decide)) (hp.2.1 0 (by decide))
  apply collects_below _ _ _ _ (by decide)
  exact branch_collects ([] ++ [tagMoov]) (by rfl) pre post mid c vf L hp hvf hn hL hmem

theorem soundBranch_count_bound (pre post : Fin 6 → Forest) (mid : Forest) (c vf : List Byte)
    (L : List Nat) (hwf : (soundBranchFile pre post mid c (stcoContent vf L)).wf = true) :
    L.length < 4294967296 := by
  simp only [soundBranchFile, wrap, wf_append, Forest.wf, Bool.and_eq_true,
    decide_eq_true_eq, stcoContent_length] at hwf
  omega

set_option maxRecDepth 100000 in
/-- C6, as stated, fails on well-formed files.  In `vmhdBetweenFile` the branch
`moov/trak/mdia/minf` holds an `smhd` atom followed by an `stbl` atom holding
an `stco` atom with the table `[100, 250, 9000]`, but a `vmhd` atom stands
between them: the walk succeeds and collects nothing.  In `secondTableFile`
the `stbl` atom is followed by a second one whose table is `[7]`: the walk
succeeds and ends with `[7]`.  (The runtime can allocate every table.) -/
theorem C6_other_atoms_counterexample :
    vmhdBetweenFile.wf = true ∧
      VisitAtoms (sampleAccumulator.Visit 4294967295) (fileReader vmhdBetweenFile.encode)
        sampleAccumulator.fresh = some (⟨false, []⟩, none) ∧
      secondTableFile.wf = true ∧
      VisitAtoms (sampleAccumulator.Visit 4294967295) (fileReader secondTableFile.encode)
        sampleAccumulator.fresh = some (⟨true, [7]⟩, none) := by
  refine ⟨by decide, by decide, by decide, by decide⟩

/-- C6, amended: for a well-formed file with one sound-track branch (`moov/trak/mdia/minf`
holds an `smhd` atom followed by an `stbl` atom holding an `stco` atom) whose
`stco` content is four arbitrary bytes, the count `n` of `L` and the entries
of `L`, all as big-endian 32-bit values, the walk of a fresh collector returns
no error and leaves `audioOffsets` equal to `L`, provided that the further
atoms of the file satisfy `BranchPlain` (no other atom tagged `smhd` outside
the part of `minf` that follows the `smhd` atom, no atom tagged `vmhd` or
`stco` between the `smhd` atom and the `stco` atom, no atom tagged `stco` after
it inside `minf`) and that the runtime can allocate a table of `n` entries.
Video tracks with their own `stco` tables may stand beside the branch. -/
theorem C6_collects_offset_table (mem : Nat) (pre post : Fin 6 → Forest) (mid : Forest)
    (smhdContent vf : List Byte) (L : List Nat)
    (hL : ∀ x ∈ L, x < 4294967296) (hvf : vf.length = 4)
    (hwf : (soundBranchFile pre post mid smhdContent (stcoContent vf L)).wf = true)
    (hplain : BranchPlain pre post mid) (hmem : L.length ≤ mem) :
    ∃ sa, VisitAtoms (sampleAccumulator.Visit mem)
          (fileReader (soundBranchFile pre post mid smhdContent (stcoContent vf L)).encode)
          sampleAccumulator.fresh = some (sa, none) ∧
      sa.audioOffsets = L := by
  have hn := soundBranch_count_bound pre post mid smhdContent vf L hwf
  obtain ⟨sa, hr, ha⟩ := @soundBranch_collects mem pre post mid smhdContent vf L hplain
    hvf hn hL hmem sampleAccumulator.fresh
  exact ⟨sa, by rw [VisitAtoms_encode _ Visit_keeps _ _ hwf, hr], ha⟩

set_option maxRecDepth 100000 in
theorem C6_collects_offset_table_witness :
    ∃ sa, VisitAtoms (sampleAccumulator.Visit 3)
          (fileReader (soundBranchFile examplePre examplePost (.node tagDinf .nil .nil) [0, 0]
            (stcoContent [0, 0, 0, 0] [100, 250, 9000])).encode)
          sampleAccumulator.fresh = some (sa, none) ∧
      sa.audioOffsets = [100, 250, 9000] :=
  C6_collects_offset_table 3 examplePre examplePost (.node tagDinf .nil .nil) [0, 0] [0, 0, 0, 0]
    [100, 250, 9000] (by decide) (by decide) (by decide) (by decide) (by decide)

set_option maxRecDepth 100000 in
/-- C9: the window start wraps around.  In `wrapFile` (162 bytes) the collected table is
`[0xFFFF0044]` on every runtime that can allocate a table of one entry;
`0xFFFF0044 + 0x10000` lies far beyond the end of the file, yet
the window handed to the walker starts at file position 68 (the sum reduced
modulo 2^32) and `GPSLogs` returns the record stored there. -/
theorem C9_window_start_wraps (mem : Nat) :
    VisitAtoms (sampleAccumulator.Visit (mem + 1)) (fileReader wrapFile) sampleAccumulator.fresh =
        some (⟨false, [4294901828]⟩, none) ∧
      wrapFile.length = 162 ∧
      gpsWindowStart 4294901828 = 68 ∧
      gpsWindow wrapFile 4294901828 = ⟨be32 94 ++ tagFree ++ gpsRecordBytes, 32768, 0⟩ ∧
      GPSLogs (mem + 1) wrapFile = some ([recordAt gpsRecordBytes], none) := by
  have h1 : VisitAtoms (sampleAccumulator.Visit 1) (fileReader wrapFile) sampleAccumulator.fresh =
      some (⟨false, [4294901828]⟩, none) := by decide
  have h2 : GPSLogs 1 wrapFile = some ([recordAt gpsRecordBytes], none) := by decide
  refine ⟨VisitAtoms_Visit_mono (by omega) _ _ _ _ h1 (by simp), by decide, by decide,
    by decide, ?_⟩
  rw [GPSLogs_mono (by omega : 1 ≤ mem + 1) _ _ _ h1 (by simp), h2]

theorem encode_append (a b : Forest) : (a.append b).encode = a.encode ++ b.encode := by
  induction a with
  | nil => rfl
  | leaf t c rest ih => simp [Forest.append, Forest.encode, ih]
  | node t ch rest _ ihr => simp [Forest.append, Forest.encode, ihr]

theorem bigPad_length : bigPad.length = 4294967220 := by
  unfold bigPad
  exact List.length_replicate _ _

set_option maxRecDepth 100000 in
theorem wrapBranch_encode : wrapBranch.encode =
    be32 68 ++ tagMoov ++ (be32 60 ++ tagTrak ++ (be32 52 ++ tagMdia ++ (be32 44 ++ tagMinf ++
      (be32 8 ++ tagSmhd ++ (be32 28 ++ tagStbl ++
        (be32 20 ++ tagStco ++ stcoContent [0, 0, 0, 0] [4294901760])))))) ++ [] := by
  decide

theorem bigForest_wf (pad : List Byte) (h : pad.length = 4294967220) :
    (bigForest pad).wf = true := by
  have h1 : wrapBranch.wf = true := by decide
  have h2 : (Forest.leaf tagFree pad (.leaf tagFree gpsRecordBytes .nil)).wf = true := by
    simp only [Forest.wf, h]
    decide
  rw [bigForest, wf_append, h1, h2]
  rfl

theorem bigForest_collects {mem : Nat} (hmem : 1 ≤ mem) (pad : List Byte) :
    Collects mem [4294901760] ((bigForest pad).preorder []) := by
  have h : Collects mem [4294901760] (wrapBranch.preorder []) :=
    soundBranch_collects noAtoms noAtoms .nil [] [0, 0, 0, 0] [4294901760]
      (by decide) (by decide) (by decide) (by decide) hmem
  have := collects_surround (a := []) (b := (Forest.leaf tagFree pad
    (.leaf tagFree gpsRecordBytes .nil)).preorder []) h inert_nil
    (inert_of_noStco (noStco_preorder _ [] (by simp only [Forest.hasTag]; decide)))
  simpa [bigForest, preorder_append] using this

theorem VisitAtoms_first_visit_error {σ : Type} (v : Visitor σ) (rs : SectionReader) (s s1 : σ)
    (t : Tag) (c rest : List Byte) (o : Nat) (e : Err)
    (ht : t.length = 4) (hc : 8 + c.length < 4294967296) (hsz : 0 ≤ rs.size)
    (hdata : rs.data.take rs.size.toNat = be32 (8 + c.length) ++ t ++ c ++ rest)
    (hv : v s [t] (viewOf c) = (s1, o, some e)) :
    VisitAtoms v rs s = some (s1, some e) := by
  have hna := nextAtom_encoded (NewSectionReader rs 0 (seekEnd rs).2) t c rest ht hc
    (by rw [topSection_of_nonneg rs hsz]; simpa using hdata)
  unfold VisitAtoms
  rw [visitAtomList, hna]
  simp only [List.nil_append, hv]

theorem VisitAtoms_single_leaf {σ : Type} (v : Visitor σ) (rs : SectionReader) (s s1 : σ)
    (t : Tag) (c : List Byte) (o : Nat)
    (ht : t.length = 4) (hc : 8 + c.length < 4294967296) (hnc : isContainer t = false)
    (hsz : 0 ≤ rs.size)
    (hdata : rs.data.take rs.size.toNat = be32 (8 + c.length) ++ t ++ c)
    (hv : v s [t] (viewOf c) = (s1, o, none)) :
    VisitAtoms v rs s = some (s1, none) := by
  have hd : (NewSectionReader rs 0 (seekEnd rs).2).data.drop (NewSectionReader rs 0 (seekEnd rs).2).off
      = be32 (8 + c.length) ++ t ++ c ++ [] := by
    rw [topSection_of_nonneg rs hsz]; simpa using hdata
  have hna := nextAtom_encoded (NewSectionReader rs 0 (seekEnd rs).2) t c [] ht hc hd
  have hrest := drop_add_of_drop _ _ _ _ hd
  unfold VisitAtoms
  rw [visitAtomList, hna]
  simp only [List.nil_append, hv, hnc]
  apply visitAtomList_eq_of_total v 1
  · apply visitAtomList_of_nil
    simp only [List.length_append, be32_length, ht] at hrest
    simp only
    rw [← hrest]; congr 1; simp only [NewSectionReader_off]; omega
  · have hl := congrArg List.length hd
    have hle := NewSectionReader_length_le rs 0 (seekEnd rs).2
    simp only [NewSectionReader_off, List.drop_zero, List.length_append,
      be32_length, ht, List.length_nil] at hl ⊢
    omega

theorem gpsWindow_eq (file : List Byte) (o : Nat) :
    gpsWindow file o =
      { data := (file.drop (gpsWindowStart o)).take 32768, size := 32768, off := 0 } := by
  unfold gpsWindow
  rw [NewSectionReader_of_nonneg _ _ _ (by decide)]
  rfl

theorem gpsWindow_size (file : List Byte) (o : Nat) : 0 ≤ (gpsWindow file o).size := by
  rw [gpsWindow_eq]; simp

theorem gpsWindow_data_take (file : List Byte) (o : Nat) :
    (gpsWindow file o).data.take (gpsWindow file o).size.toNat = (gpsWindow file o).data := by
  simp [gpsWindow_eq, List.take_take]

theorem gpsWindow_length (file : List Byte) (o : Nat) : (gpsWindow file o).data.length ≤ 32768 := by
  simp only [gpsWindow_eq, List.length_take]
  exact Nat.min_le_left _ _

theorem VisitAtoms_window_single (file : List Byte) (o : Nat)
    (h : SingleGPSAtom (gpsWindow file o).data) :
    VisitAtoms accumulatorVisitor (gpsWindow file o) GPSLog.zero =
      some (recordAt ((gpsWindow file o).data.drop 8), none) := by
  obtain ⟨t, c, ht, hnc, hlen, hmagic, hw⟩ := h
  have hl := gpsWindow_length file o
  rw [hw] at hl
  simp only [List.length_append, be32_length, ht] at hl
  have hdrop : (gpsWindow file o).data.drop 8 = c := by
    rw [hw]
    exact List.drop_left' (by simp only [List.length_append, be32_length, ht])
  have hm : (recordAt c).Magic = magicGPS := by
    rw [← hmagic, take4_eq _ (by omega)]; rfl
  rw [hdrop]
  apply VisitAtoms_single_leaf accumulatorVisitor (gpsWindow file o) GPSLog.zero _ t c 84 ht
    (by omega) hnc (gpsWindow_size _ _) (by rw [gpsWindow_data_take, hw])
  rw [accumulatorVisitor_of_enough _ _ _ rfl hlen]
  simp [viewOf, hm]

/-- The record loop on windows that each hold one GPS atom: one record per
offset, in table order. -/
theorem gpsLoop_parallel (file : List Byte) (offs : List Nat) :
    ∀ acc : List GPSLog, (∀ o ∈ offs, SingleGPSAtom (gpsWindow file o).data) →
      gpsLoop file offs acc =
        some (acc ++ offs.map (fun o => recordAt ((gpsWindow file o).data.drop 8)), none) := by
  induction offs with
  | nil => intro acc _; simp only [gpsLoop, List.map_nil, List.append_nil]
  | cons o rest ih =>
    intro acc h
    have h1 := VisitAtoms_window_single file o (h o (List.mem_cons_self _ _))
    have h2 := ih (acc ++ [recordAt ((gpsWindow file o).data.drop 8)])
      (fun x hx => h x (List.mem_cons_of_mem _ hx))
    simp only [gpsLoop, h1, h2, List.map_cons, List.append_assoc, List.singleton_append]

/-- When every window read by `GPSLogs` holds exactly one GPS atom, `GPSLogs`
returns no error and one record per collected offset, in table order; for an
empty table the empty list.  A window starts at `gpsWindowStart o`, which is
`o + 0x10000` whenever that sum is below 2^32. -/
theorem GPSLogs_parallel {mem : Nat} (file : List Byte) (sa : sampleAccumulator)
    (hwalk : VisitAtoms (sampleAccumulator.Visit mem) (fileReader file) sampleAccumulator.fresh =
      some (sa, none))
    (hwin : ∀ o ∈ sa.audioOffsets, SingleGPSAtom (gpsWindow file o).data) :
    GPSLogs mem file =
      some (sa.audioOffsets.map (fun o => recordAt ((gpsWindow file o).data.drop 8)), none) := by
  unfold GPSLogs
  simp only [hwalk]
  simpa using gpsLoop_parallel file sa.audioOffsets [] hwin

theorem gpsWindow_data_of_lt (file : List Byte) (o : Nat) (h : o + 0x10000 < 4294967296) :
    (gpsWindow file o).data = (file.drop (o + 0x10000)).take 0x8000 := by
  have e : gpsWindowStart o = o + 0x10000 := by
    unfold gpsWindowStart
    rw [Nat.mod_eq_of_lt (by omega)]
    omega
  simp only [gpsWindow, NewSectionReader, e, fileReader]
  rfl

theorem gpsLoop_cons (file : List Byte) (o : Nat) (rest : List Nat) (acc : List GPSLog) :
    gpsLoop file (o :: rest) acc =
      match VisitAtoms accumulatorVisitor (gpsWindow file o) GPSLog.zero with
      | none => none
      | some (_, some e) => some ([], some e)
      | some (g, none) => gpsLoop file rest (acc ++ [g]) := rfl

theorem bigForest_encode (pad : List Byte) :
    (bigForest pad).encode = wrapBranch.encode ++
      (be32 (8 + pad.length) ++ tagFree ++ pad ++ (be32 94 ++ tagFree ++ gpsRecordBytes)) := by
  rw [bigForest, encode_append]
  simp only [Forest.encode, List.append_nil]
  rfl

theorem bigForest_walk {mem : Nat} (hmem : 1 ≤ mem) (pad : List Byte)
    (h : pad.length = 4294967220) :
    ∃ sa, VisitAtoms (sampleAccumulator.Visit mem) (fileReader (bigForest pad).encode)
        sampleAccumulator.fresh = some (sa, none) ∧ sa.audioOffsets = [4294901760] := by
  obtain ⟨sa, hr, ha⟩ := bigForest_collects hmem pad sampleAccumulator.fresh
  exact ⟨sa, by rw [VisitAtoms_encode _ Visit_keeps _ _ (bigForest_wf pad h), hr], ha⟩

theorem bigForest_true_window (pad : List Byte) (h : pad.length = 4294967220) :
    ((bigForest pad).encode.drop 4294967296).take 32768 =
      be32 94 ++ tagFree ++ gpsRecordBytes := by
  have e : (bigForest pad).encode =
      (wrapBranch.encode ++ (be32 (8 + pad.length) ++ tagFree ++ pad)) ++
        (be32 94 ++ tagFree ++ gpsRecordBytes) := by
    rw [bigForest_encode]; simp only [List.append_assoc]
  have hl : (wrapBranch.encode ++ (be32 (8 + pad.length) ++ tagFree ++ pad)).length
      = 4294967296 := by
    have h1 : wrapBranch.encode.length = 68 := by decide
    have h2 : tagFree.length = 4 := rfl
    simp only [List.length_append, be32_length, h, h1, h2]
  rw [e, List.drop_left' hl]
  exact List.take_of_length_le (by decide)

theorem bigForest_code_window (pad : List Byte) :
    VisitAtoms accumulatorVisitor (gpsWindow (bigForest pad).encode 4294901760) GPSLog.zero =
      some (GPSLog.zero, some .ErrUnexpectedEOF) := by
  have h0 : gpsWindowStart 4294901760 = 0 := by decide
  apply VisitAtoms_first_visit_error accumulatorVisitor _ GPSLog.zero GPSLog.zero tagMoov
    (be32 60 ++ tagTrak ++ (be32 52 ++ tagMdia ++ (be32 44 ++ tagMinf ++
      (be32 8 ++ tagSmhd ++ (be32 28 ++ tagStbl ++
        (be32 20 ++ tagStco ++ stcoContent [0, 0, 0, 0] [4294901760]))))))
    (List.take (32768 - 68) (be32 (8 + pad.length) ++ tagFree ++ pad ++
      (be32 94 ++ tagFree ++ gpsRecordBytes))) 60 .ErrUnexpectedEOF rfl (by decide)
      (gpsWindow_size _ _)
  · rw [gpsWindow_data_take]
    simp only [gpsWindow_eq, h0, List.drop_zero]
    rw [bigForest_encode, List.take_append_eq_append_take, wrapBranch_encode]
    congr 1
  · decide

theorem bigForest_GPSLogs {mem : Nat} (hmem : 1 ≤ mem) (pad : List Byte)
    (h : pad.length = 4294967220) :
    GPSLogs mem (bigForest pad).encode = some ([], some .ErrUnexpectedEOF) := by
  obtain ⟨sa, hr, ha⟩ := bigForest_walk hmem pad h
  unfold GPSLogs
  simp only [hr, ha, gpsLoop_cons, bigForest_code_window]

/-- C8, as stated, fails on `bigFile` (2^32 + 94 bytes), on every runtime that can
allocate a table of one entry: the collected table is `[0xFFFF0000]` and the 0x8000 bytes at `0xFFFF0000 + 0x10000 = 2^32` are
exactly one non-container atom holding a valid GPS record, yet `GPSLogs` returns
`io.ErrUnexpectedEOF` and no record: the window it reads starts at file
position 0. -/
theorem C8_GPSLogs_window_wraps (mem : Nat) :
    (∃ sa, VisitAtoms (sampleAccumulator.Visit (mem + 1)) (fileReader bigFile)
        sampleAccumulator.fresh = some (sa, none) ∧ sa.audioOffsets = [4294901760]) ∧
      SingleGPSAtom ((bigFile.drop (4294901760 + 0x10000)).take 0x8000) ∧
      gpsWindowStart 4294901760 = 0 ∧
      GPSLogs (mem + 1) bigFile = some ([], some .ErrUnexpectedEOF) :=
  ⟨bigForest_walk (by omega) bigPad bigPad_length,
    ⟨tagFree, gpsRecordBytes, rfl, by decide, by decide, by decide,
      bigForest_true_window bigPad bigPad_length⟩,
    by decide, bigForest_GPSLogs (by omega) bigPad bigPad_length⟩

/-! ## The walker: claims C17 to C20 -/

theorem Inside.trans {top x y : SectionReader} {a sub : List Tag} (h1 : Inside top a x)
    (h2 : Inside x sub y) : Inside top (a ++ sub) y := by
  induction h2 with
  | top => simpa using h1
  | next _ hn ih => exact Inside.next ih hn
  | into o _ hn hc ih =>
    rw [← List.append_assoc]
    exact Inside.into o ih hn hc

theorem Inside.containers {top sr : SectionReader} {encl : List Tag} (h : Inside top encl sr) :
    ∀ x ∈ encl, isContainer x = true := by
  induction h with
  | top => intro x hx; simp at hx
  | next _ _ ih => exact ih
  | into o _ hn hc ih =>
    intro x hx
    rcases List.mem_append.1 hx with hx | hx
    · exact ih x hx
    · simp only [List.mem_singleton] at hx
      rw [hx]; exact hc

theorem Reaches.recast {σ : Type} {v : Visitor σ} {root : List Tag} {s s2 : σ}
    {sr sr2 : SectionReader} {a b : List Tag} (h : Reaches v root s sr a s2 sr2) (e : a = b) :
    Reaches v root s sr b s2 sr2 := e ▸ h

theorem Inside.repath {top sr : SectionReader} {a b : List Tag} (h : Inside top a sr)
    (e : a = b) : Inside top b sr := e ▸ h

/-- The call for the atom decoded at the cursor of the section itself. -/
theorem CallBelow.here {σ : Type} (v : Visitor σ) (root : List Tag) (st : σ × List Call)
    (sr sr1 csr : SectionReader) (t : Tag) (e : Option Err)
    (hn : nextAtom sr = (sr1, .ok (t, csr))) :
    CallBelow v root st sr ⟨root ++ [t], csr, e⟩ :=
  ⟨[], t, st, sr, sr1, by simp, (Reaches.here root st sr).recast (by simp), Inside.top, hn⟩

/-- A call of the walk of a container's content is a call of the walk of the section
that holds the container. -/
theorem CallBelow.lift_into {σ : Type} {v : Visitor σ} {root : List Tag}
    {st st1 : σ × List Call} {sr sr1 csr : SectionReader} {t : Tag} {o : Nat} {c : Call}
    (hn : nextAtom sr = (sr1, .ok (t, csr)))
    (hv : logged v st (root ++ [t]) csr = (st1, o, none)) (hc : isContainer t = true)
    (h : CallBelow v (root ++ [t]) st1 { csr with off := o } c) : CallBelow v root st sr c := by
  obtain ⟨mid, t2, st2, srp, sr2, hp, hr, hi, hn2⟩ := h
  refine ⟨t :: mid, t2, st2, srp, sr2, by simp [hp], ?_, ?_, hn2⟩
  · exact (Reaches.into hn hv hc hr).recast (by simp)
  · exact ((Inside.into o Inside.top hn hc).trans hi).repath (by simp)

/-- A call of the walk that continues after a non-container atom. -/
theorem CallBelow.lift_next {σ : Type} {v : Visitor σ} {root : List Tag}
    {st st1 : σ × List Call} {sr sr1 csr : SectionReader} {t : Tag} {o : Nat} {c : Call}
    (hn : nextAtom sr = (sr1, .ok (t, csr)))
    (hv : logged v st (root ++ [t]) csr = (st1, o, none)) (hc : isContainer t = false)
    (h : CallBelow v root st1 sr1 c) : CallBelow v root st sr c := by
  obtain ⟨mid, t2, st2, srp, sr2, hp, hr, hi, hn2⟩ := h
  refine ⟨mid, t2, st2, srp, sr2, hp, Reaches.next hn hv hc hr, ?_, hn2⟩
  exact ((Inside.next Inside.top hn).trans hi).repath (by simp)

/-- A call of the walk that continues after a container atom whose content
was walked without error. -/
theorem CallBelow.lift_over {σ : Type} {v : Visitor σ} {root : List Tag}
    {st st1 st3 : σ × List Call} {sr sr1 csr : SectionReader} {t : Tag} {o fuel : Nat}
    {c : Call}
    (hn : nextAtom sr = (sr1, .ok (t, csr)))
    (hv : logged v st (root ++ [t]) csr = (st1, o, none)) (hc : isContainer t = true)
    (hsub : visitAtomList (logged v) fuel (root ++ [t]) st1 { csr with off := o }
      = some (st3, none))
    (h : CallBelow v root st3 sr1 c) : CallBelow v root st sr c := by
  obtain ⟨mid, t2, st2, srp, sr2, hp, hr, hi, hn2⟩ := h
  refine ⟨mid, t2, st2, srp, sr2, hp, Reaches.over hn hv hc hsub hr, ?_, hn2⟩
  exact ((Inside.next Inside.top hn).trans hi).repath (by simp)

theorem two_pow_step (x y : Nat) (h : x + 8 ≤ y) : 2 * 2 ^ (x / 8) ≤ 2 ^ (y / 8) := by
  have h1 : x / 8 + 1 ≤ y / 8 := by omega
  calc 2 * 2 ^ (x / 8) = 2 ^ (x / 8 + 1) := by rw [pow_succ]; ring
    _ ≤ 2 ^ (y / 8) := Nat.pow_le_pow_right (by norm_num) h1

/-- The calls a walk adds to the log.  With `r` bytes left in the section
there are fewer than `2 ^ (r / 8)` of them, and at most `r / 8` when every
view handed to the visitor holds as many bytes as its size says; each is a
call for an atom that the walk reaches. -/
theorem visitAtomList_logged_calls {σ : Type} (v : Visitor σ) (fuel : Nat) :
    ∀ (root : List Tag) (s : σ) (log : List Call) (sr : SectionReader)
      (s2 : σ) (log2 : List Call) (err : Option Err),
    visitAtomList (logged v) fuel root (s, log) sr = some ((s2, log2), err) →
    ∃ added, log2 = log ++ added ∧
      added.length + 1 ≤ 2 ^ ((sr.data.length - sr.off) / 8) ∧
      ((sr.data.length : Int) < maxInt64 →
        (∀ c ∈ added, c.view.size = (c.view.data.length : Int)) →
        8 * added.length ≤ sr.data.length - sr.off) ∧
      ∀ c ∈ added, CallBelow v root (s, log) sr c := by
  induction fuel with
  | zero => intro root s log sr s2 log2 err h; simp [visitAtomList] at h
  | succ k ih =>
    intro root s log sr s2 log2 err h
    rw [visitAtomList] at h
    rcases hn : nextAtom sr with ⟨sr1, e | ⟨t, csr⟩⟩
    · simp only [hn] at h
      refine ⟨[], ?_, ?_, by simp, by simp⟩
      · split at h <;> · simp only [Option.some.injEq, Prod.mk.injEq] at h; simp [h.1.2]
      · simpa using Nat.one_le_two_pow
    · obtain ⟨h1, -, h3, h4, h5⟩ := nextAtom_ok_inv hn
      have hshape := nextAtom_ok_view hn
      simp only [hn] at h
      have hpow1 : 2 * 2 ^ ((sr1.data.length - sr1.off) / 8)
          ≤ 2 ^ ((sr.data.length - sr.off) / 8) :=
        two_pow_step _ _ (by rw [h1]; omega)
      have hpos1 : 1 ≤ 2 ^ ((sr1.data.length - sr1.off) / 8) := Nat.one_le_two_pow
      have hexact : (sr.data.length : Int) < maxInt64 →
          csr.size = (csr.data.length : Int) → sr1.off = sr.off + 8 + csr.data.length := by
        intro hlt hsz
        rcases hshape with ⟨-, e1, e2, e3⟩ | ⟨-, e1, -⟩
        · exfalso
          have hl := congrArg List.length e3
          simp only [List.length_drop] at hl
          rw [e2] at hsz
          unfold maxInt64 at hsz hlt
          omega
        · exact e1
      rcases hvis : v s (root ++ [t]) csr with ⟨s1, o, _ | e⟩
      · have hl : logged v (s, log) (root ++ [t]) csr =
            ((s1, log ++ [⟨root ++ [t], csr, none⟩]), o, none) := by
          simp [logged, hvis]
        simp only [hl] at h
        have hpowc : 2 * 2 ^ ((csr.data.length - o) / 8)
            ≤ 2 ^ ((sr.data.length - sr.off) / 8) :=
          two_pow_step _ _ (by omega)
        split at h
        · rename_i hcont
          rcases hsub : visitAtomList (logged v) k (root ++ [t])
              (s1, log ++ [⟨root ++ [t], csr, none⟩]) { csr with off := o }
            with _ | ⟨⟨s3, log3⟩, _ | e3⟩
          · simp [hsub] at h
          · simp only [hsub] at h
            obtain ⟨a1, rfl, n1, m1, g1⟩ := ih _ _ _ _ _ _ _ hsub
            obtain ⟨a2, rfl, n2, m2, g2⟩ := ih _ _ _ _ _ _ _ h
            refine ⟨[⟨root ++ [t], csr, none⟩] ++ a1 ++ a2, by simp, ?_, ?_, ?_⟩
            · simp only [List.length_append, List.length_singleton] at n1 n2 ⊢
              omega
            · intro hlt hall
              have hx := hexact hlt (hall ⟨root ++ [t], csr, none⟩ (by simp))
              have b1 := m1 (by simp only; omega) (fun c hc => hall c (by simp [hc]))
              have b2 := m2 (by rw [h1]; exact hlt) (fun c hc => hall c (by simp [hc]))
              simp only [List.length_append, List.length_singleton] at b1 b2 ⊢
              rw [h1] at b2
              omega
            · intro c hc
              simp only [List.append_assoc, List.mem_append, List.mem_singleton] at hc
              rcases hc with rfl | hc | hc
              · exact CallBelow.here v root _ sr sr1 csr t none hn
              · exact (g1 c hc).lift_into hn hl hcont
              · exact (g2 c hc).lift_over hn hl hcont hsub
          · simp only [hsub, Option.some.injEq, Prod.mk.injEq] at h
            obtain ⟨⟨rfl, rfl⟩, rfl⟩ := h
            obtain ⟨a1, rfl, n1, m1, g1⟩ := ih _ _ _ _ _ _ _ hsub
            refine ⟨[⟨root ++ [t], csr, none⟩] ++ a1, by simp, ?_, ?_, ?_⟩
            · simp only [List.length_append, List.length_singleton] at n1 ⊢
              omega
            · intro hlt hall
              have hx := hexact hlt (hall ⟨root ++ [t], csr, none⟩ (by simp))
              have b1 := m1 (by simp only; omega) (fun c hc => hall c (by simp [hc]))
              simp only [List.length_append, List.length_singleton] at b1 ⊢
              omega
            · intro c hc
              simp only [List.mem_append, List.mem_singleton] at hc
              rcases hc with rfl | hc
              · exact CallBelow.here v root _ sr sr1 csr t none hn
              · exact (g1 c hc).lift_into hn hl hcont
        · rename_i hcont
          obtain ⟨a2, rfl, n2, m2, g2⟩ := ih _ _ _ _ _ _ _ h
          refine ⟨[⟨root ++ [t], csr, none⟩] ++ a2, by simp, ?_, ?_, ?_⟩
          · simp only [List.length_append, List.length_singleton] at n2 ⊢
            omega
          · intro hlt hall
            have hx := hexact hlt (hall ⟨root ++ [t], csr, none⟩ (by simp))
            have b2 := m2 (by rw [h1]; exact hlt) (fun c hc => hall c (by simp [hc]))
            simp only [List.length_append, List.length_singleton] at b2 ⊢
            rw [h1] at b2
            omega
          · intro c hc
            simp only [List.mem_append, List.mem_singleton] at hc
            rcases hc with rfl | hc
            · exact CallBelow.here v root _ sr sr1 csr t none hn
            · exact (g2 c hc).lift_next hn hl (by simpa using hcont)
      · have hl : logged v (s, log) (root ++ [t]) csr =
            ((s1, log ++ [⟨root ++ [t], csr, some e⟩]), o, some e) := by
          simp [logged, hvis]
        simp only [hl, Option.some.injEq, Prod.mk.injEq] at h
        obtain ⟨⟨rfl, rfl⟩, rfl⟩ := h
        refine ⟨[⟨root ++ [t], csr, some e⟩], rfl, ?_, ?_, ?_⟩
        · simp only [List.length_singleton]; omega
        · intro hlt hall
          simp only [List.length_singleton]
          omega
        · intro c hc
          simp only [List.mem_singleton] at hc
          subst hc
          exact CallBelow.here v root _ sr sr1 csr t _ hn

theorem readFull_error {sr sr1 : SectionReader} {n : Nat} {e : Err}
    (h : readFull sr n = (sr1, .error e)) : IsReadErr e := by
  unfold readFull at h
  simp only at h
  split at h
  · simp at h
  · split at h
    · simp only [Prod.mk.injEq, Except.error.injEq] at h; exact Or.inl h.2.symm
    · simp only [Prod.mk.injEq, Except.error.injEq] at h; exact Or.inr h.2.symm

theorem readUint32BE_error {sr sr1 : SectionReader} {e : Err}
    (h : readUint32BE sr = (sr1, .error e)) : IsReadErr e := by
  unfold readUint32BE at h
  rcases hr : readFull sr 4 with ⟨sr2, e2 | bs⟩
  · rw [hr] at h
    simp only [Prod.mk.injEq, Except.error.injEq] at h
    rw [← h.2]; exact readFull_error hr
  · rw [hr] at h; simp at h

theorem copyNDiscard_error {sr sr1 : SectionReader} {n : Int} {e : Err}
    (h : copyNDiscard sr n = (sr1, some e)) : e = .EOF := by
  unfold copyNDiscard at h
  simp only at h
  split at h
  · simp at h
  · split at h
    · simp at h
    · simp only [Prod.mk.injEq, Option.some.injEq] at h; exact h.2.symm

theorem nextAtomRest_error {sr sr1 : SectionReader} {sz0 : Int} {e : Err}
    (h : nextAtomRest sr sz0 = (sr1, .error e)) : IsReadErr e := by
  unfold nextAtomRest at h
  rcases hr : readFull sr 4 with ⟨sr2, e2 | bs⟩
  · rw [hr] at h
    simp only [Prod.mk.injEq, Except.error.injEq] at h
    rw [← h.2]; exact readFull_error hr
  · rw [hr] at h
    simp only at h
    rcases hc : copyNDiscard sr2 (sz0 - 8) with ⟨sr3, _ | e3⟩
    · rw [hc] at h; simp at h
    · rw [hc] at h
      simp only [Prod.mk.injEq, Except.error.injEq] at h
      rw [← h.2]; exact Or.inl (copyNDiscard_error hc)

/-- The errors of `nextAtom`: a read error or `ErrNotImplemented`. -/
theorem nextAtom_error {sr sr1 : SectionReader} {e : Err}
    (h : nextAtom sr = (sr1, .error e)) : IsReadErr e ∨ e = .ErrNotImplemented := by
  unfold nextAtom at h
  rcases hr : readUint32BE sr with ⟨sr2, e2 | asz⟩
  · rw [hr] at h
    simp only [Prod.mk.injEq, Except.error.injEq] at h
    rw [← h.2]; exact Or.inl (readUint32BE_error hr)
  · rw [hr] at h
    simp only at h
    split at h
    · exact Or.inl (nextAtomRest_error h)
    · split at h
      · simp only [Prod.mk.injEq, Except.error.injEq] at h; exact Or.inr h.2.symm
      · exact Or.inl (nextAtomRest_error h)

theorem readOffsets_error (n : Nat) : ∀ (sr sr1 : SectionReader) (acc : List Nat) (e : Err),
    readOffsets n sr acc = (sr1, .error e) → IsReadErr e := by
  induction n with
  | zero => intro sr sr1 acc e h; simp [readOffsets] at h
  | succ k ih =>
    intro sr sr1 acc e h
    rw [readOffsets] at h
    rcases hr : readUint32BE sr with ⟨sr2, e2 | x⟩
    · rw [hr] at h
      simp only [Prod.mk.injEq, Except.error.injEq] at h
      rw [← h.2]; exact readUint32BE_error hr
    · rw [hr] at h
      exact ih _ _ _ _ h

theorem getAudioChunks_error {mem : Nat} {sr sr1 : SectionReader} {e : Err}
    (h : getAudioChunks mem sr = (sr1, .error e)) : IsReadErr e ∨ e = .outOfMemory := by
  unfold getAudioChunks at h
  rcases hc : copyNDiscard sr 4 with ⟨sr2, _ | e2⟩
  · rw [hc] at h
    simp only at h
    rcases hr : readUint32BE sr2 with ⟨sr3, e3 | n⟩
    · rw [hr] at h
      simp only [Prod.mk.injEq, Except.error.injEq] at h
      rw [← h.2]; exact Or.inl (readUint32BE_error hr)
    · rw [hr] at h
      simp only at h
      split at h
      · simp only [Prod.mk.injEq, Except.error.injEq] at h
        exact Or.inr h.2.symm
      · exact Or.inl (readOffsets_error _ _ _ _ _ h)
  · rw [hc] at h
    simp only [Prod.mk.injEq, Except.error.injEq] at h
    rw [← h.2]; exact Or.inl (Or.inl (copyNDiscard_error hc))

theorem Visit_no_panic {mem : Nat} (sa : sampleAccumulator) (p : List Tag) (sr : SectionReader)
    (hp : p ≠ []) : (sampleAccumulator.Visit mem sa p sr).2.2 ≠ some .panic := by
  unfold sampleAccumulator.Visit
  rcases hl : p.getLast? with _ | cur
  · exact absurd (List.getLast?_eq_none_iff.1 hl) hp
  · simp only
    split_ifs
    · simp
    · simp
    · rcases hg : getAudioChunks mem sr with ⟨sr1, e | offs⟩
      · simp only
        rcases getAudioChunks_error hg with (h | h) | h <;> simp [h]
      · simp
    · simp

theorem visitAtomList_no_panic {σ : Type} (v : Visitor σ)
    (hv : ∀ s p sr, p ≠ [] → (v s p sr).2.2 ≠ some .panic) (fuel : Nat) :
    ∀ (root : List Tag) (s : σ) (sr : SectionReader) (s2 : σ) (err : Option Err),
    visitAtomList v fuel root s sr = some (s2, err) → err ≠ some .panic := by
  induction fuel with
  | zero => intro root s sr s2 err h; simp [visitAtomList] at h
  | succ k ih =>
    intro root s sr s2 err h
    rw [visitAtomList] at h
    rcases hn : nextAtom sr with ⟨sr1, e | ⟨t, csr⟩⟩
    · simp only [hn] at h
      split at h
      · simp only [Option.some.injEq, Prod.mk.injEq] at h; simp [← h.2]
      · simp only [Option.some.injEq, Prod.mk.injEq] at h
        rw [← h.2]
        rcases nextAtom_error hn with (h1 | h1) | h1 <;> simp [h1]
    · simp only [hn] at h
      have hne := hv s (root ++ [t]) csr (by simp)
      rcases hvis : v s (root ++ [t]) csr with ⟨s1, o, _ | e⟩
      · simp only [hvis] at h
        split at h
        · rcases hsub : visitAtomList v k (root ++ [t]) s1 { csr with off := o }
            with _ | ⟨s3, _ | e3⟩
          · simp [hsub] at h
          · simp only [hsub] at h
            exact ih _ _ _ _ _ h
          · simp only [hsub, Option.some.injEq, Prod.mk.injEq] at h
            rw [← h.2]
            exact ih _ _ _ _ _ hsub
        · exact ih _ _ _ _ _ h
      · simp only [hvis, Option.some.injEq, Prod.mk.injEq] at h hne
        rw [← h.2]; exact hne

/-- The calls a visitor wrapper records on a list of visits are an initial part
of that list. -/
theorem runVisits_logged_calls {σ : Type} (v : Visitor σ)
    (cs : List (List Tag × SectionReader)) :
    ∀ (s : σ) (log : List Call), ∃ added,
      (runVisits (logged v) (s, log) cs).1.2 = log ++ added ∧
        added.map (fun c => (c.path, c.view)) <+: cs := by
  induction cs with
  | nil => intro s log; exact ⟨[], by simp [runVisits], by simp⟩
  | cons c cs ih =>
    intro s log
    rcases hvis : v s c.1 c.2 with ⟨s1, o, _ | e⟩
    · obtain ⟨a, ha, hp⟩ := ih s1 (log ++ [⟨c.1, c.2, none⟩])
      refine ⟨⟨c.1, c.2, none⟩ :: a, ?_, ?_⟩
      · simp only [runVisits, logged, hvis, ha, List.append_assoc, List.singleton_append]
      · simpa using hp
    · refine ⟨[⟨c.1, c.2, some e⟩], ?_, ?_⟩
      · simp only [runVisits, logged, hvis]
      · simp

set_option maxRecDepth 100000 in
/-- C18, as stated, fails: the number of visits can exceed an eighth of the length.
In `overlapFile` (16 bytes) the `moov` header declares the size 4; its content
length is negative, so nothing is skipped and the content view reaches to the end
of the file.  The `free` atom that follows is visited twice, once as a
child of `moov` and once as its sibling: three visits, where `16 / 8 = 2`. -/
theorem C18_overlap_counterexample :
    overlapFile.length = 16 ∧
      VisitAtoms (logged nullVisitor) (fileReader overlapFile) ((), []) =
        some (((), [⟨[tagMoov], ⟨be32 8 ++ tagFree, 9223372036854775799, 0⟩, none⟩,
          ⟨[tagMoov, tagFree], viewOf [], none⟩,
          ⟨[tagFree], viewOf [], none⟩]), none) := by
  refine ⟨by decide, by decide⟩

/-- C18, amended: for every byte source, well formed or not, and every visitor,
`VisitAtoms` returns.  Every successful header decode moves the cursor of its section
forward by at least 8 bytes without leaving the section, and the
content view it yields is at least 8 bytes shorter than what was left of the
section; so with `n` bytes in the source the number of visitor invocations is
below `2 ^ (n / 8)`.  It is at most `n / 8` when every view handed to the
visitor holds exactly as many bytes as its `Size()` reports, which is what a
header with a resolved size of at least 8 yields: its view holds the declared
content and the cursor moves past it. -/
theorem C18_VisitAtoms_terminates {σ : Type} (v : Visitor σ) (rs : SectionReader) (s0 : σ) :
    (∃ s2 log err, VisitAtoms (logged v) rs (s0, []) = some ((s2, log), err) ∧
        log.length + 1 ≤ 2 ^ (rs.data.length / 8) ∧
        ((rs.data.length : Int) < maxInt64 →
          (∀ c ∈ log, c.view.size = (c.view.data.length : Int)) →
          log.length ≤ rs.data.length / 8)) ∧
      ∀ (sr sr1 csr : SectionReader) (t : Tag), nextAtom sr = (sr1, .ok (t, csr)) →
        sr.off + 8 ≤ sr1.off ∧ sr1.off ≤ sr.data.length ∧
          csr.data.length + 8 ≤ sr.data.length - sr.off ∧
          (8 ≤ declaredSize sr →
            csr.size = (csr.data.length : Int) ∧ sr1.off = sr.off + 8 + csr.data.length) := by
  constructor
  · obtain ⟨⟨⟨s2, log⟩, err⟩, h⟩ := VisitAtoms_total (logged v) rs (s0, [])
    refine ⟨s2, log, err, h, ?_⟩
    unfold VisitAtoms at h
    obtain ⟨added, hlog, hexp, hlin, -⟩ := visitAtomList_logged_calls v _ _ _ _ _ _ _ _ h
    simp only [List.nil_append] at hlog
    subst hlog
    have hle := NewSectionReader_length_le rs 0 (seekEnd rs).2
    simp only [NewSectionReader_off, Nat.sub_zero] at hexp hlin hle
    constructor
    · exact le_trans hexp (Nat.pow_le_pow_right (by norm_num) (Nat.div_le_div_right hle))
    · intro hlt hall
      have := hlin (by omega) hall
      omega
  · intro sr sr1 csr t h
    obtain ⟨-, -, h3, h4, -⟩ := nextAtom_ok_inv h
    refine ⟨by omega, h4, by omega, ?_⟩
    intro h8
    rcases nextAtom_ok_view h with ⟨hlt, -⟩ | ⟨-, e1, -, e3, -⟩
    · omega
    · exact ⟨e3, e1⟩

set_option maxRecDepth 100000 in
theorem C18_VisitAtoms_terminates_witness :
    (∃ s2 log err, VisitAtoms (logged nullVisitor) (fileReader exampleForest.encode) ((), []) =
        some ((s2, log), err) ∧ log.length = 5 ∧ log.length ≤ exampleForest.encode.length / 8) ∧
      nextAtom (fileReader shortFile) =
        ({ fileReader shortFile with off := 68 }, .ok (tagMoov, viewOf (shortFile.drop 8))) ∧
      (8 : Int) ≤ declaredSize (fileReader shortFile) ∧
      (viewOf (shortFile.drop 8)).size = ((viewOf (shortFile.drop 8)).data.length : Int) := by
  have hv : VisitAtoms (logged nullVisitor) (fileReader exampleForest.encode) ((), []) =
      some (((), [⟨[tagFree], viewOf [1, 2, 3], none⟩,
        ⟨[tagMoov], viewOf (be32 8 ++ tagFree ++ (be32 8 ++ tagTrak)), none⟩,
        ⟨[tagMoov, tagFree], viewOf [], none⟩,
        ⟨[tagMoov, tagTrak], viewOf [], none⟩,
        ⟨[tagMdat], viewOf [9], none⟩]), none) := by decide
  have h8 : (8 : Int) ≤ declaredSize (fileReader shortFile) := by decide
  obtain ⟨⟨s2, log, err, h, -, hlin⟩, hstep⟩ :=
    C18_VisitAtoms_terminates nullVisitor (fileReader exampleForest.encode) ()
  rw [hv] at h
  simp only [Option.some.injEq, Prod.mk.injEq] at h
  obtain ⟨⟨-, rfl⟩, -⟩ := h
  refine ⟨⟨_, _, _, hv, rfl, hlin (by decide) (by decide)⟩, by decide, h8, ?_⟩
  exact ((hstep (fileReader shortFile) { fileReader shortFile with off := 68 }
    (viewOf (shortFile.drop 8)) tagMoov (by decide)).2.2.2 h8).1

/-- C20: for every byte source and every visitor, each path that `VisitAtoms` passes to
the visitor is non-empty: the walk arrives at a section that lies in the
source below container atoms with the tags `encl` (each of them decoded in the
content of the one before, the first in the source itself), decodes there the
atom that the call is for, and passes the path `encl` followed by the tag of
that atom; so the length of the path is one more than the number of enclosing
container atoms and its last element is the atom's own tag.  For a
well-formed file and a visitor that leaves container views unread, the calls
are an initial part of the atoms of the tree in pre-order, each with its tree
path.  Hence a walk driven by the collector never ends in the
index-out-of-range panic of `sampleAccumulator.Visit`. -/
theorem C20_paths_nonempty (mem : Nat) {σ : Type} (v : Visitor σ) (rs : SectionReader) (s0 : σ) :
    (∃ s2 log err, VisitAtoms (logged v) rs (s0, []) = some ((s2, log), err) ∧
        (∀ c ∈ log, ∃ (encl : List Tag) (t : Tag) (st : σ × List Call)
            (srp sr1 : SectionReader),
          Reaches (logged v) [] (s0, []) (NewSectionReader rs 0 (seekEnd rs).2) encl st srp ∧
            Inside (NewSectionReader rs 0 (seekEnd rs).2) encl srp ∧
            nextAtom srp = (sr1, .ok (t, c.view)) ∧
            c.path = encl ++ [t] ∧ c.path ≠ [] ∧ c.path.length = 1 + encl.length ∧
            c.path.getLast? = some t ∧ (∀ x ∈ encl, isContainer x = true)) ∧
        ∀ f : Forest, f.wf = true → KeepsContainerViews v → rs = fileReader f.encode →
          log.map (fun c => (c.path, c.view)) <+: f.preorder []) ∧
      ∀ (sa0 sa : sampleAccumulator) (err : Option Err),
        VisitAtoms (sampleAccumulator.Visit mem) rs sa0 = some (sa, err) → err ≠ some .panic := by
  constructor
  · obtain ⟨⟨⟨s2, log⟩, err⟩, h⟩ := VisitAtoms_total (logged v) rs (s0, [])
    refine ⟨s2, log, err, h, ?_, ?_⟩
    · unfold VisitAtoms at h
      obtain ⟨added, hlog, -, -, hbelow⟩ := visitAtomList_logged_calls v _ _ _ _ _ _ _ _ h
      simp only [List.nil_append] at hlog
      subst hlog
      intro c hc
      obtain ⟨mid, t, st, srp, sr1, hp, hr, hi, hn⟩ := hbelow c hc
      simp only [List.nil_append] at hp hr
      exact ⟨mid, t, st, srp, sr1, hr, hi, hn, hp, by simp [hp], by simp [hp]; omega,
        by simp [hp], hi.containers⟩
    · intro f hwf hkeep hrs
      subst hrs
      rw [VisitAtoms_encode (logged v) (logged_keeps v hkeep) f (s0, []) hwf] at h
      simp only [Option.some.injEq] at h
      obtain ⟨added, ha, hp⟩ := runVisits_logged_calls v (f.preorder []) s0 []
      rw [h] at ha
      simp only [List.nil_append] at ha
      rw [ha]
      exact hp
  · intro sa0 sa err h
    unfold VisitAtoms at h
    exact visitAtomList_no_panic _ Visit_no_panic _ _ _ _ _ _ h

set_option maxRecDepth 100000 in
theorem C20_paths_nonempty_witness :
    VisitAtoms (sampleAccumulator.Visit 1) (fileReader shortFile) sampleAccumulator.fresh =
        some ({ inSound := true, audioOffsets := [3] }, none) ∧
      (none : Option Err) ≠ some .panic ∧
      (∃ s2 log err, VisitAtoms (logged nullVisitor) (fileReader exampleForest.encode) ((), []) =
        some ((s2, log), err) ∧
        log.map (fun c => (c.path, c.view)) <+: exampleForest.preorder []) :=
  ⟨by decide,
    (C20_paths_nonempty 1 nullVisitor (fileReader shortFile) ()).2 sampleAccumulator.fresh
      { inSound := true, audioOffsets := [3] } none (by decide),
    (C20_paths_nonempty 1 nullVisitor (fileReader exampleForest.encode) ()).1.elim
      fun s2 h => h.elim fun log h => h.elim fun err h =>
        ⟨s2, log, err, h.1, h.2.2 exampleForest (by decide) (fun _ _ _ _ _ => rfl) rfl⟩⟩

/-- A header whose declared size (at least 8) exceeds what is left of the
section: `nextAtom` returns `io.EOF` from skipping the content. -/
theorem nextAtom_truncated (sr : SectionReader) (h8 : 8 ≤ sr.data.length - sr.off)
    (hge : 8 ≤ beUint ((sr.data.drop sr.off).take 4))
    (hbig : sr.data.length - sr.off < beUint ((sr.data.drop sr.off).take 4)) :
    (nextAtom sr).2 = .error .EOF := by
  have r1 := readFull_enough sr 4 (by omega)
  have r2 := readFull_enough { sr with off := sr.off + 4 } 4 (by simp only; omega)
  have h0 : ¬ (beUint ((sr.data.drop sr.off).take 4) = 0) := by omega
  have h1 : ¬ (beUint ((sr.data.drop sr.off).take 4) = 1) := by omega
  unfold nextAtom readUint32BE
  simp only [r1, h0, h1, if_false]
  unfold nextAtomRest
  simp only [r2, copyNDiscard, seekCur]
  have e1 : ¬ (((beUint ((sr.data.drop sr.off).take 4) : Nat) : Int) - 8 < 0) := by omega
  have e3 : ¬ ((((beUint ((sr.data.drop sr.off).take 4) : Nat) : Int) - 8).toNat
      ≤ sr.data.length - (sr.off + 4 + 4)) := by omega
  simp only [e1, e3, if_false]

theorem visitAtomList_truncated {σ : Type} (v : Visitor σ) (fuel : Nat) (root : List Tag)
    (s : σ) (sr : SectionReader) (h8 : 8 ≤ sr.data.length - sr.off)
    (hge : 8 ≤ beUint ((sr.data.drop sr.off).take 4))
    (hbig : sr.data.length - sr.off < beUint ((sr.data.drop sr.off).take 4)) :
    visitAtomList v (fuel + 1) root s sr = some (s, none) := by
  have hn := nextAtom_truncated sr h8 hge hbig
  rw [visitAtomList]
  rcases hr : nextAtom sr with ⟨sr1, e | ⟨t, csr⟩⟩
  · rw [hr] at hn
    simp only [Except.error.injEq] at hn
    subst hn
    simp
  · rw [hr] at hn; simp at hn

/-- The walk over the encoding of a well-formed forest followed by further
bytes `tail`: the visits of the forest in pre-order, then the walk of `tail`. -/
theorem visitAtomList_encode_tail {σ : Type} (v : Visitor σ) (hv : KeepsContainerViews v)
    (f : Forest) : ∀ (root : List Tag) (s : σ) (sr : SectionReader) (fuel : Nat)
      (tail : List Byte),
    f.wf = true → sr.data.drop sr.off = f.encode ++ tail →
    (f.encode ++ tail).length + 1 ≤ fuel →
    visitAtomList v fuel root s sr =
      match runVisits v s (f.preorder root) with
      | (s1, some e) => some (s1, some e)
      | (s1, none) => visitAtomList v fuel root s1 { sr with off := sr.off + f.encode.length } := by
  induction f with
  | nil =>
    intro root s sr fuel tail _ h hf
    simp [Forest.preorder, runVisits, Forest.encode]
  | leaf t c rest ih =>
    intro root s sr fuel tail hwf h hf
    simp only [Forest.wf, Bool.and_eq_true, decide_eq_true_eq, Bool.not_eq_true'] at hwf
    obtain ⟨⟨⟨ht, hnc⟩, hc⟩, hrest⟩ := hwf
    simp only [Forest.encode, List.length_append, be32_length] at hf
    obtain ⟨k, rfl⟩ : ∃ k, fuel = k + 1 := ⟨fuel - 1, by omega⟩
    have h' : sr.data.drop sr.off = be32 (8 + c.length) ++ t ++ c ++ (rest.encode ++ tail) := by
      simpa [Forest.encode, List.append_assoc] using h
    have hna := nextAtom_encoded sr t c (rest.encode ++ tail) ht hc h'
    have hd : sr.data.drop (sr.off + 8 + c.length) = rest.encode ++ tail := by
      have := drop_add_of_drop _ _ _ _ h'
      simp only [List.length_append, be32_length, ht] at this
      rw [← this]; congr 1; omega
    have hlen : sr.data.length - sr.off = 8 + c.length + (rest.encode.length + tail.length) := by
      have := congrArg List.length h'
      simp only [List.length_drop, List.length_append, be32_length, ht] at this
      omega
    rw [visitAtomList, hna]
    simp only [Forest.preorder, runVisits, viewOf]
    rcases hvis : v s (root ++ [t]) { data := c, size := c.length, off := 0 } with ⟨s1, o, _ | e⟩
    · simp only [hnc, Bool.false_eq_true, if_false]
      rw [ih root s1 { sr with off := sr.off + 8 + c.length } k tail hrest hd
        (by simp only [List.length_append]; omega)]
      rcases hrun : runVisits v s1 (rest.preorder root) with ⟨s2, _ | e⟩
      · simp only [Forest.encode, List.length_append, be32_length, ht]
        have e1 : sr.off + 8 + c.length + rest.encode.length
            = sr.off + (4 + 4 + c.length + rest.encode.length) := by omega
        rw [e1]
        obtain ⟨r, hr⟩ := visitAtomList_total v k root s2
          { sr with off := sr.off + (4 + 4 + c.length + rest.encode.length) }
          (by simp only; omega)
        rw [hr, visitAtomList_mono v k _ _ _ _ (k + 1) hr (by omega)]
      · rfl
    · simp
  | node t ch rest _ ihr =>
    intro root s sr fuel tail hwf h hf
    simp only [Forest.wf, Bool.and_eq_true, decide_eq_true_eq] at hwf
    obtain ⟨⟨⟨⟨ht, hcont⟩, hc⟩, hch⟩, hrest⟩ := hwf
    simp only [Forest.encode, List.length_append, be32_length] at hf
    obtain ⟨k, rfl⟩ : ∃ k, fuel = k + 1 := ⟨fuel - 1, by omega⟩
    have h' : sr.data.drop sr.off =
        be32 (8 + ch.encode.length) ++ t ++ ch.encode ++ (rest.encode ++ tail) := by
      simpa [Forest.encode, List.append_assoc] using h
    have hna := nextAtom_encoded sr t ch.encode (rest.encode ++ tail) ht hc h'
    have hd : sr.data.drop (sr.off + 8 + ch.encode.length) = rest.encode ++ tail := by
      have := drop_add_of_drop _ _ _ _ h'
      simp only [List.length_append, be32_length, ht] at this
      rw [← this]; congr 1; omega
    have hlen : sr.data.length - sr.off
        = 8 + ch.encode.length + (rest.encode.length + tail.length) := by
      have := congrArg List.length h'
      simp only [List.length_drop, List.length_append, be32_length, ht] at this
      omega
    rw [visitAtomList, hna]
    simp only [Forest.preorder, runVisits, viewOf]
    have hoff := hv s root t { data := ch.encode, size := ch.encode.length, off := 0 } hcont
    rcases hvis : v s (root ++ [t]) { data := ch.encode, size := ch.encode.length, off := 0 }
      with ⟨s1, o, _ | e⟩
    · rw [hvis] at hoff
      simp only at hoff
      subst hoff
      simp only [hcont, if_true]
      rw [visitAtomList_encode v hv ch (root ++ [t]) s1 _ k hch (by simp) (by omega),
        runVisits_append]
      rcases hrun : runVisits v s1 (ch.preorder (root ++ [t])) with ⟨s2, _ | e⟩
      · simp only
        rw [ihr root s2 { sr with off := sr.off + 8 + ch.encode.length } k tail hrest hd
          (by simp only [List.length_append]; omega)]
        rcases hrun2 : runVisits v s2 (rest.preorder root) with ⟨s3, _ | e⟩
        · simp only [Forest.encode, List.length_append, be32_length, ht]
          have e1 : sr.off + 8 + ch.encode.length + rest.encode.length
              = sr.off + (4 + 4 + ch.encode.length + rest.encode.length) := by omega
          rw [e1]
          obtain ⟨r, hr⟩ := visitAtomList_total v k root s3
            { sr with off := sr.off + (4 + 4 + ch.encode.length + rest.encode.length) }
            (by simp only; omega)
          rw [hr, visitAtomList_mono v k _ _ _ _ (k + 1) hr (by omega)]
        · rfl
      · simp
    · simp

theorem topCalls_append (root : List Tag) (a b : List Call) :
    topCalls root (a ++ b) = topCalls root a ++ topCalls root b := by
  simp [topCalls]

theorem topCalls_single (root : List Tag) (t : Tag) (csr : SectionReader) (e : Option Err) :
    topCalls root [⟨root ++ [t], csr, e⟩] = [(root ++ [t], csr)] := by
  simp [topCalls]

theorem topCalls_below {σ : Type} {v : Visitor σ} {st : σ × List Call} {sr : SectionReader}
    (root : List Tag) (t : Tag) (a : List Call)
    (h : ∀ c ∈ a, CallBelow v (root ++ [t]) st sr c) : topCalls root a = [] := by
  simp only [topCalls, List.map_eq_nil_iff, List.filter_eq_nil_iff, decide_eq_true_eq]
  intro c hc
  obtain ⟨mid, t2, -, -, -, hp, -⟩ := h c hc
  simp [hp]

/-- The sibling calls of a walk are an initial part of the atoms that the
header decodes find in the section, and all of them when the walk returns no
error. -/
theorem visitAtomList_topCalls {σ : Type} (v : Visitor σ) (fuel : Nat) :
    ∀ (root : List Tag) (s : σ) (log : List Call) (sr : SectionReader)
      (s2 : σ) (log2 : List Call) (err : Option Err),
    visitAtomList (logged v) fuel root (s, log) sr = some ((s2, log2), err) →
    ∃ added, log2 = log ++ added ∧
      topCalls root added <+: (siblingAtoms fuel sr).map (fun a => (root ++ [a.1], a.2)) ∧
      (err = none →
        topCalls root added = (siblingAtoms fuel sr).map (fun a => (root ++ [a.1], a.2))) := by
  induction fuel with
  | zero => intro root s log sr s2 log2 err h; simp [visitAtomList] at h
  | succ k ih =>
    intro root s log sr s2 log2 err h
    rw [visitAtomList] at h
    rcases hn : nextAtom sr with ⟨sr1, e | ⟨t, csr⟩⟩
    · simp only [hn] at h
      refine ⟨[], ?_, by simp [topCalls], fun _ => by simp [topCalls, siblingAtoms, hn]⟩
      split at h <;> · simp only [Option.some.injEq, Prod.mk.injEq] at h; simp [h.1.2]
    · simp only [hn] at h
      have hsib : (siblingAtoms (k + 1) sr).map (fun a => (root ++ [a.1], a.2)) =
          (root ++ [t], csr) :: (siblingAtoms k sr1).map (fun a => (root ++ [a.1], a.2)) := by
        simp [siblingAtoms, hn]
      rw [hsib]
      rcases hvis : v s (root ++ [t]) csr with ⟨s1, o, _ | e⟩
      · have hl : logged v (s, log) (root ++ [t]) csr =
            ((s1, log ++ [⟨root ++ [t], csr, none⟩]), o, none) := by
          simp [logged, hvis]
        simp only [hl] at h
        split at h
        · rcases hsub : visitAtomList (logged v) k (root ++ [t])
              (s1, log ++ [⟨root ++ [t], csr, none⟩]) { csr with off := o }
            with _ | ⟨⟨s3, log3⟩, _ | e3⟩
          · simp [hsub] at h
          · simp only [hsub] at h
            obtain ⟨a1, rfl, -, -, g1⟩ := visitAtomList_logged_calls v _ _ _ _ _ _ _ _ hsub
            obtain ⟨a2, rfl, p2, q2⟩ := ih _ _ _ _ _ _ _ h
            refine ⟨[⟨root ++ [t], csr, none⟩] ++ a1 ++ a2, by simp, ?_, ?_⟩
            · rw [topCalls_append, topCalls_append, topCalls_single, topCalls_below root t a1 g1]
              simpa using p2
            · intro he
              rw [topCalls_append, topCalls_append, topCalls_single, topCalls_below root t a1 g1,
                q2 he]
              simp
          · simp only [hsub, Option.some.injEq, Prod.mk.injEq] at h
            obtain ⟨⟨rfl, rfl⟩, rfl⟩ := h
            obtain ⟨a1, rfl, -, -, g1⟩ := visitAtomList_logged_calls v _ _ _ _ _ _ _ _ hsub
            refine ⟨[⟨root ++ [t], csr, none⟩] ++ a1, by simp, ?_, by simp⟩
            rw [topCalls_append, topCalls_single, topCalls_below root t a1 g1]
            simp
        · obtain ⟨a2, rfl, p2, q2⟩ := ih _ _ _ _ _ _ _ h
          refine ⟨[⟨root ++ [t], csr, none⟩] ++ a2, by simp, ?_, ?_⟩
          · rw [topCalls_append, topCalls_single]
            simpa using p2
          · intro he
            rw [topCalls_append, topCalls_single, q2 he]
            simp
      · have hl : logged v (s, log) (root ++ [t]) csr =
            ((s1, log ++ [⟨root ++ [t], csr, some e⟩]), o, some e) := by
          simp [logged, hvis]
        simp only [hl, Option.some.injEq, Prod.mk.injEq] at h
        obtain ⟨⟨rfl, rfl⟩, rfl⟩ := h
        refine ⟨[⟨root ++ [t], csr, some e⟩], rfl, ?_, by simp⟩
        rw [topCalls_single]
        simp

/-- An atom whose declared size, at least 8, fits in what is left of the
section: the cursor moves to the header start plus the declared size. -/
theorem nextAtom_fits (sr : SectionReader)
    (hge : 8 ≤ beUint ((sr.data.drop sr.off).take 4))
    (hfit : beUint ((sr.data.drop sr.off).take 4) ≤ sr.data.length - sr.off) :
    nextAtom sr = ({ sr with off := sr.off + beUint ((sr.data.drop sr.off).take 4) },
      .ok ((sr.data.drop (sr.off + 4)).take 4,
        ⟨(sr.data.drop (sr.off + 8)).take (beUint ((sr.data.drop sr.off).take 4) - 8),
          ((beUint ((sr.data.drop sr.off).take 4) - 8 : Nat) : Int), 0⟩)) := by
  have r1 := readFull_enough sr 4 (by omega)
  have r2 := readFull_enough { sr with off := sr.off + 4 } 4 (by simp only; omega)
  generalize hA : beUint ((sr.data.drop sr.off).take 4) = asz at *
  have h0 : ¬ (asz = 0) := by omega
  have h1 : ¬ (asz = 1) := by omega
  unfold nextAtom readUint32BE
  simp only [r1, hA, h0, h1, if_false]
  unfold nextAtomRest
  simp only [r2, copyNDiscard, seekCur, NewSectionReader]
  have e6 : ((asz : Int) - 8) = ((asz - 8 : Nat) : Int) := by omega
  have e7 : ¬ (((asz - 8 : Nat) : Int) < 0) := by omega
  have e3 : asz - 8 ≤ sr.data.length - (sr.off + 4 + 4) := by omega
  have e4 : sr.off + 4 + 4 + (asz - 8) = sr.off + asz := by omega
  simp only [e6, e7, Int.toNat_ofNat, e3, e4, if_true, if_false, Nat.add_assoc]

/-- C17, as stated, fails: on `descentFile` a visitor that reads nothing sees the
siblings `moov` and `free`, while a visitor that differs from it only in
reading 8 bytes from each view sees `moov` alone: the descent into `moov`
starts at the cursor the visitor left, finds a header with size field 1, and
the traversal is aborted with `ErrNotImplemented`. -/
theorem C17_descent_counterexample :
    VisitAtoms (logged (readVisitor 0)) (fileReader descentFile) ((), []) =
      some (((), [⟨[tagMoov], viewOf (be32 16 ++ tagFree ++ (be32 1 ++ tagFree)), none⟩,
        ⟨[tagMoov, tagFree], viewOf (be32 1 ++ tagFree), none⟩,
        ⟨[tagFree], viewOf [], none⟩]), none) ∧
    VisitAtoms (logged (readVisitor 8)) (fileReader descentFile) ((), []) =
      some (((), [⟨[tagMoov], viewOf (be32 16 ++ tagFree ++ (be32 1 ++ tagFree)), none⟩]),
        some .ErrNotImplemented) := by
  decide

/-- C17, amended: the sibling atoms that a walk of a section sees do not depend on the
visitor as long as the walk is not aborted.  For any two visitors walking the
same section, the sequences of sibling atoms they are called for (path and
content view) agree when both walks return no error, and otherwise one
sequence is an initial part of the other (a walk is cut short by an error of
the visitor or of a nested descent, which starts at the cursor the visitor
left in the container view).  The position of the next sibling header is
fixed by the header alone: for every atom with declared size `s >= 8` that
fits in its section, `nextAtom` leaves the section cursor at the header start
plus `s`. -/
theorem C17_sibling_positions {σ1 σ2 : Type} (v1 : Visitor σ1) (v2 : Visitor σ2) (fuel : Nat)
    (root : List Tag) (sr : SectionReader) (a1 b1 : σ1) (a2 b2 : σ2) (log1 log2 : List Call)
    (e1 e2 : Option Err)
    (h1 : visitAtomList (logged v1) fuel root (a1, []) sr = some ((b1, log1), e1))
    (h2 : visitAtomList (logged v2) fuel root (a2, []) sr = some ((b2, log2), e2)) :
    (topCalls root log1 <+: topCalls root log2 ∨ topCalls root log2 <+: topCalls root log1) ∧
      (e1 = none → e2 = none → topCalls root log1 = topCalls root log2) ∧
      ∀ sr0 : SectionReader, 8 ≤ beUint ((sr0.data.drop sr0.off).take 4) →
        beUint ((sr0.data.drop sr0.off).take 4) ≤ sr0.data.length - sr0.off →
        ∃ t csr, nextAtom sr0 =
          ({ sr0 with off := sr0.off + beUint ((sr0.data.drop sr0.off).take 4) },
            .ok (t, csr)) := by
  obtain ⟨c1, hl1, p1, q1⟩ := visitAtomList_topCalls v1 _ _ _ _ _ _ _ _ h1
  obtain ⟨c2, hl2, p2, q2⟩ := visitAtomList_topCalls v2 _ _ _ _ _ _ _ _ h2
  simp only [List.nil_append] at hl1 hl2
  subst hl1 hl2
  refine ⟨?_, fun he1 he2 => by rw [q1 he1, q2 he2], fun sr0 hge hfit => ⟨_, _, nextAtom_fits sr0 hge hfit⟩⟩
  rcases Nat.le_total (topCalls root log1).length (topCalls root log2).length with h | h
  · exact Or.inl (List.prefix_of_prefix_length_le p1 p2 h)
  · exact Or.inr (List.prefix_of_prefix_length_le p2 p1 h)

theorem C17_sibling_positions_witness :
    [([tagMoov], viewOf (be32 16 ++ tagFree ++ (be32 1 ++ tagFree)))] <+:
      [([tagMoov], viewOf (be32 16 ++ tagFree ++ (be32 1 ++ tagFree))), ([tagFree], viewOf [])] ∨
    [([tagMoov], viewOf (be32 16 ++ tagFree ++ (be32 1 ++ tagFree))), ([tagFree], viewOf [])] <+:
      [([tagMoov], viewOf (be32 16 ++ tagFree ++ (be32 1 ++ tagFree)))] :=
  (C17_sibling_positions (readVisitor 8) (readVisitor 0) 33 [] (viewOf descentFile) () () () ()
    [⟨[tagMoov], viewOf (be32 16 ++ tagFree ++ (be32 1 ++ tagFree)), none⟩]
    [⟨[tagMoov], viewOf (be32 16 ++ tagFree ++ (be32 1 ++ tagFree)), none⟩,
      ⟨[tagMoov, tagFree], viewOf (be32 1 ++ tagFree), none⟩, ⟨[tagFree], viewOf [], none⟩]
    (some .ErrNotImplemented) none (by decide) (by decide)).1

/-- C19: when the bytes left in a section are the encoding of well-formed atoms
followed by `tail`, and `tail` starts with a complete 8-byte header whose
declared size (at least 8) exceeds the length of `tail`, then the walk
positioned at that header returns at once with no error and without invoking
the visitor, whatever the visitor is; and the walk of the whole section (by a
visitor that leaves container views unread) makes exactly the visits of the
atoms before the truncated one, in pre-order. -/
theorem C19_truncated_atom {σ : Type} (v : Visitor σ) (fuel : Nat) (root : List Tag) (s : σ)
    (log : List Call) (sr : SectionReader) (f : Forest) (tail : List Byte)
    (hwf : f.wf = true) (hdata : sr.data.drop sr.off = f.encode ++ tail)
    (h8 : 8 ≤ tail.length) (hge : 8 ≤ beUint (tail.take 4))
    (hbig : tail.length < beUint (tail.take 4))
    (hfuel : (f.encode ++ tail).length + 1 ≤ fuel) :
    visitAtomList (logged v) fuel root (s, log) { sr with off := sr.off + f.encode.length } =
        some ((s, log), none) ∧
      (KeepsContainerViews v →
        visitAtomList (logged v) fuel root (s, log) sr =
          some (runVisits (logged v) (s, log) (f.preorder root))) := by
  have hd : sr.data.drop (sr.off + f.encode.length) = tail := drop_add_of_drop _ _ _ _ hdata
  have hlen : sr.data.length - (sr.off + f.encode.length) = tail.length := by
    have := congrArg List.length hd
    simpa using this
  obtain ⟨k, rfl⟩ : ∃ k, fuel = k + 1 := ⟨fuel - 1, by omega⟩
  have key : ∀ st : σ × List Call, visitAtomList (logged v) (k + 1) root st
      { sr with off := sr.off + f.encode.length } = some (st, none) := by
    intro st
    apply visitAtomList_truncated
    · simp only; omega
    · simp only [hd]; exact hge
    · simp only [hd]; omega
  refine ⟨key _, fun hkeep => ?_⟩
  rw [visitAtomList_encode_tail (logged v) (logged_keeps v hkeep) f root (s, log) sr (k + 1) tail
    hwf hdata hfuel]
  rcases hrun : runVisits (logged v) (s, log) (f.preorder root) with ⟨s1, _ | e⟩
  · exact key s1
  · rfl

theorem C19_truncated_atom_witness :
    VisitAtoms (logged nullVisitor) (fileReader truncatedFile) ((), []) =
      some (((), [⟨[tagFree], viewOf [1, 2, 3], none⟩,
        ⟨[tagMoov], viewOf (be32 8 ++ tagFree ++ (be32 8 ++ tagTrak)), none⟩,
        ⟨[tagMoov, tagFree], viewOf [], none⟩,
        ⟨[tagMoov, tagTrak], viewOf [], none⟩,
        ⟨[tagMdat], viewOf [9], none⟩]), none) :=
  (C19_truncated_atom nullVisitor (truncatedFile.length + 1) [] () []
    (NewSectionReader (fileReader truncatedFile) 0 (seekEnd (fileReader truncatedFile)).2)
    exampleForest (be32 100 ++ tagMdat ++ [1, 2, 3]) (by decide) (by decide) (by decide)
    (by decide) (by decide) (by decide)).2 (fun _ _ _ _ _ => rfl)

/-! ## The record loop and the collector: claims C11 to C13, C15, C16 -/

theorem gpsWindowsRead_cons (file : List Byte) (o : Nat) (rest : List Nat) :
    gpsWindowsRead file (o :: rest) =
      match VisitAtoms accumulatorVisitor (gpsWindow file o) GPSLog.zero with
      | some (_, none) => o :: gpsWindowsRead file rest
      | _ => [o] := rfl

/-- The loop of `GPSLogs` on offsets whose windows all walk without error goes
on to the remaining offsets. -/
theorem gpsLoop_skip_ok (file : List Byte) (pre : List Nat)
    (hpre : ∀ p ∈ pre, ∃ g, VisitAtoms accumulatorVisitor (gpsWindow file p) GPSLog.zero
      = some (g, none)) :
    ∀ (l : List Nat) (acc : List GPSLog),
      (∃ recs, gpsLoop file (pre ++ l) acc = gpsLoop file l (acc ++ recs)) ∧
        gpsWindowsRead file (pre ++ l) = pre ++ gpsWindowsRead file l := by
  induction pre with
  | nil => intro l acc; exact ⟨⟨[], by simp⟩, rfl⟩
  | cons p ps ih =>
    intro l acc
    obtain ⟨g, hg⟩ := hpre p (List.mem_cons_self _ _)
    have hps := ih (fun q hq => hpre q (List.mem_cons_of_mem _ hq))
    obtain ⟨⟨recs, hr⟩, hw⟩ := hps l (acc ++ [g])
    constructor
    · refine ⟨g :: recs, ?_⟩
      simp only [List.cons_append, gpsLoop_cons, hg, hr, List.append_assoc, List.singleton_append,
        List.nil_append]
    · simp only [List.cons_append, gpsWindowsRead_cons, hg, hw]

/-- The loop of `GPSLogs` at an offset whose window walk returns an error. -/
theorem gpsLoop_error (file : List Byte) (o : Nat) (rest : List Nat) (acc : List GPSLog)
    (g : GPSLog) (e : Err)
    (h : VisitAtoms accumulatorVisitor (gpsWindow file o) GPSLog.zero = some (g, some e)) :
    gpsLoop file (o :: rest) acc = some ([], some e) ∧
      gpsWindowsRead file (o :: rest) = [o] := by
  simp only [gpsLoop_cons, gpsWindowsRead_cons, h, and_self]

/-- When the windows of the offsets `pre` walk without error and the walk of
the window of `o` returns the error `e`, `GPSLogs` returns `e` with a nil list
and has walked the windows of `pre` and `o` only. -/
theorem GPSLogs_error_at {mem : Nat} (file : List Byte) (sa : sampleAccumulator) (pre rest : List Nat)
    (o : Nat) (g : GPSLog) (e : Err)
    (hwalk : VisitAtoms (sampleAccumulator.Visit mem) (fileReader file) sampleAccumulator.fresh =
      some (sa, none))
    (hoffs : sa.audioOffsets = pre ++ o :: rest)
    (hpre : ∀ p ∈ pre, ∃ g, VisitAtoms accumulatorVisitor (gpsWindow file p) GPSLog.zero
      = some (g, none))
    (h : VisitAtoms accumulatorVisitor (gpsWindow file o) GPSLog.zero = some (g, some e)) :
    GPSLogs mem file = some ([], some e) ∧ gpsWindowsRead file sa.audioOffsets = pre ++ [o] := by
  obtain ⟨⟨recs, hr⟩, hw⟩ := gpsLoop_skip_ok file pre hpre (o :: rest) []
  obtain ⟨h1, h2⟩ := gpsLoop_error file o rest ([] ++ recs) g e h
  unfold GPSLogs
  simp only [hwalk, hoffs, hr, h1, hw, h2, and_self]

/-- The walk of a window whose first header decodes and whose visit returns an
error. -/
theorem VisitAtoms_first_atom_error {σ : Type} (v : Visitor σ) (rs sr1 csr : SectionReader)
    (s s1 : σ) (t : Tag) (o : Nat) (e : Err)
    (hfirst : nextAtom (NewSectionReader rs 0 (seekEnd rs).2) = (sr1, .ok (t, csr)))
    (hv : v s [t] csr = (s1, o, some e)) :
    VisitAtoms v rs s = some (s1, some e) := by
  unfold VisitAtoms
  rw [visitAtomList, hfirst]
  simp only [List.nil_append, hv]

/-- C11: when the table was collected, the windows of the offsets before `o` walk without
error, and the first atom decoded in the window of `o` has at least 84
content bytes that do not start with `"GPS "`, then `GPSLogs` returns
`ErrInvalidGPS` with a nil record list, and the windows handed to the walker
are those of the offsets up to `o` only: no window of a later offset is read. -/
theorem C11_invalid_magic_aborts (mem : Nat) (file : List Byte) (sa : sampleAccumulator)
    (pre rest : List Nat) (o : Nat) (sr1 csr : SectionReader) (t : Tag)
    (hwalk : VisitAtoms (sampleAccumulator.Visit mem) (fileReader file) sampleAccumulator.fresh =
      some (sa, none))
    (hoffs : sa.audioOffsets = pre ++ o :: rest)
    (hpre : ∀ p ∈ pre, ∃ g, VisitAtoms accumulatorVisitor (gpsWindow file p) GPSLog.zero
      = some (g, none))
    (hfirst : nextAtom (NewSectionReader (gpsWindow file o) 0 (seekEnd (gpsWindow file o)).2) =
      (sr1, .ok (t, csr)))
    (hlen : 84 ≤ csr.data.length) (hmagic : csr.data.take 4 ≠ magicGPS) :
    GPSLogs mem file = some ([], some .ErrInvalidGPS) ∧
      gpsWindowsRead file sa.audioOffsets = pre ++ [o] := by
  obtain ⟨-, -, -, -, hoff⟩ := nextAtom_ok_inv hfirst
  have hm : (recordAt csr.data).Magic ≠ magicGPS := by
    have : (recordAt csr.data).Magic = csr.data.take 4 := by
      rw [take4_eq _ (by omega)]; rfl
    rw [this]; exact hmagic
  have hv : accumulatorVisitor GPSLog.zero [t] csr =
      (recordAt csr.data, 84, some .ErrInvalidGPS) := by
    rw [accumulatorVisitor_of_enough _ _ _ hoff hlen]
    simp [hm]
  exact GPSLogs_error_at file sa pre rest o _ _ hwalk hoffs hpre
    (VisitAtoms_first_atom_error accumulatorVisitor _ sr1 csr _ _ t 84 _ hfirst hv)

set_option maxRecDepth 100000 in
theorem C11_invalid_magic_aborts_witness :
    GPSLogs 3 badMagicFile = some ([], some .ErrInvalidGPS) ∧
      gpsWindowsRead badMagicFile [4294901928, 4294901836, 0] = [4294901928] ++ [4294901836] :=
  C11_invalid_magic_aborts 3 badMagicFile ⟨false, [4294901928, 4294901836, 0]⟩ [4294901928] [0]
    4294901836 ⟨(gpsWindow badMagicFile 4294901836).data, 32768, 92⟩ (viewOf badRecordBytes)
    tagFree (by decide) (by decide)
    (fun p hp => ⟨recordAt gpsRecordBytes, by
      rw [List.mem_singleton.1 hp]
      decide⟩)
    (by decide) (by decide) (by decide)

set_option maxRecDepth 100000 in
/-- C12: `GPSLogs` does not fail when the window holds no atom.  In `shortFile` (68 bytes)
the collected table is `[3]`, on every runtime that can allocate a table of
one entry; the window at `3 + 0x10000` lies wholly beyond
the end of the file, the walk of it ends at once without a visit and without
error, and `GPSLogs` returns no error and one record, the zero value, whose
`Magic` is not `"GPS "`. -/
theorem C12_missing_gps_atom_not_reported (mem : Nat) :
    VisitAtoms (sampleAccumulator.Visit (mem + 1)) (fileReader shortFile)
        sampleAccumulator.fresh = some (⟨true, [3]⟩, none) ∧
      shortFile.length = 68 ∧ (gpsWindow shortFile 3).data = [] ∧
      GPSLogs (mem + 1) shortFile = some ([GPSLog.zero], none) ∧
      GPSLog.zero.Magic ≠ magicGPS := by
  have h1 : VisitAtoms (sampleAccumulator.Visit 1) (fileReader shortFile)
      sampleAccumulator.fresh = some (⟨true, [3]⟩, none) := by decide
  have h2 : GPSLogs 1 shortFile = some ([GPSLog.zero], none) := by decide
  refine ⟨VisitAtoms_Visit_mono (by omega) _ _ _ _ h1 (by simp), by decide, by decide, ?_,
    by decide⟩
  rw [GPSLogs_mono (by omega : 1 ≤ mem + 1) _ _ _ h1 (by simp), h2]

theorem readUint32BE_short (sr : SectionReader) (h : sr.data.length - sr.off < 4) :
    ∃ sr1 e, readUint32BE sr = (sr1, .error e) := by
  have hs := readFull_short sr 4 h
  unfold readUint32BE
  rcases hr : readFull sr 4 with ⟨sr1, e | bs⟩
  · exact ⟨sr1, e, rfl⟩
  · rw [hr] at hs; simp at hs

theorem readUint32BE_enough (sr : SectionReader) (h : 4 ≤ sr.data.length - sr.off) :
    readUint32BE sr =
      ({ sr with off := sr.off + 4 }, .ok (beUint ((sr.data.drop sr.off).take 4))) := by
  unfold readUint32BE
  rw [readFull_enough sr 4 h]

theorem readOffsets_short (n : Nat) : ∀ (sr : SectionReader) (acc : List Nat),
    sr.data.length - sr.off < 4 * n → ∃ sr1 e, readOffsets n sr acc = (sr1, .error e) := by
  induction n with
  | zero => intro sr acc h; omega
  | succ k ih =>
    intro sr acc h
    rw [readOffsets]
    by_cases h4 : sr.data.length - sr.off < 4
    · obtain ⟨sr1, e, hr⟩ := readUint32BE_short sr h4
      exact ⟨sr1, e, by rw [hr]⟩
    · rw [readUint32BE_enough sr (by omega)]
      exact ih _ _ (by simp only; omega)

/-- Function `getAudioChunks` on a view that is shorter than its table: fewer than 8
bytes, or fewer than 8 plus four times the declared entry count, a table of
that count being allocated.  The error comes from a read. -/
theorem getAudioChunks_short {mem : Nat} (sr : SectionReader) (hoff : sr.off = 0)
    (h : sr.data.length < 8 ∨
      (sr.data.length < 8 + 4 * declaredCount sr ∧ declaredCount sr ≤ mem)) :
    ∃ sr1 e, getAudioChunks mem sr = (sr1, .error e) ∧ IsReadErr e := by
  unfold declaredCount at h
  unfold getAudioChunks copyNDiscard
  have e4 : (4 : Int).toNat = 4 := rfl
  simp only [show ¬ ((4 : Int) < 0) by decide, if_false, e4, hoff, Nat.sub_zero, Nat.zero_add]
  by_cases h4 : 4 ≤ sr.data.length
  · simp only [h4, if_true]
    by_cases h8 : 8 ≤ sr.data.length
    · rw [readUint32BE_enough _ (by simp only; omega)]
      simp only
      rcases h with h | h
      · omega
      · have hm : ¬ mem < beUint ((sr.data.drop 4).take 4) := by omega
        simp only [hm, if_false]
        obtain ⟨sr1, e, hr⟩ := readOffsets_short (beUint ((sr.data.drop 4).take 4))
          { sr with off := 4 + 4 } [] (by simp only; omega)
        exact ⟨sr1, e, hr, readOffsets_error _ _ _ _ _ hr⟩
    · obtain ⟨sr1, e, hr⟩ := readUint32BE_short { sr with off := 4 } (by simp only; omega)
      exact ⟨sr1, e, by rw [hr], readUint32BE_error hr⟩
  · simp only [h4, if_false]
    exact ⟨_, _, rfl, Or.inl rfl⟩

/-- Function `getAudioChunks` on a view that declares more entries than can be allocated. -/
theorem getAudioChunks_oom {mem : Nat} (sr : SectionReader) (hoff : sr.off = 0)
    (h8 : 8 ≤ sr.data.length) (h : mem < declaredCount sr) :
    ∃ sr1, getAudioChunks mem sr = (sr1, .error .outOfMemory) := by
  unfold declaredCount at h
  unfold getAudioChunks copyNDiscard
  have e4 : (4 : Int).toNat = 4 := rfl
  have h4 : 4 ≤ sr.data.length := by omega
  simp only [show ¬ ((4 : Int) < 0) by decide, if_false, e4, hoff, Nat.sub_zero, Nat.zero_add,
    h4, if_true]
  rw [readUint32BE_enough _ (by simp only; omega)]
  simp only [h, if_true]
  exact ⟨_, rfl⟩

theorem Visit_stco_error {mem : Nat} (sa : sampleAccumulator) (root : List Tag)
    (sr sr1 : SectionReader) (e : Err)
    (hs : sa.inSound = true) (hroot : root.length = 5)
    (hg : getAudioChunks mem sr = (sr1, .error e)) :
    sampleAccumulator.Visit mem sa (root ++ [tagStco]) sr =
      ({ sa with audioOffsets := [] }, sr1.off, some e) := by
  have h1 : ¬ (tagStco = tagSmhd) := by decide
  have h2 : ¬ (tagStco = tagVmhd) := by decide
  unfold sampleAccumulator.Visit
  simp only [getLast?_snoc, List.length_append, List.length_singleton, hroot, h1, h2, hs, hg]
  simp

theorem accumulatorVisitor_short (g : GPSLog) (p : List Tag) (sr : SectionReader)
    (h : sr.data.length - sr.off < 84) :
    ∃ o e, accumulatorVisitor g p sr = (g, o, some e) ∧ IsReadErr e := by
  have hs := readFull_short sr 84 h
  unfold accumulatorVisitor
  rcases hr : readFull sr 84 with ⟨sr1, e | bs⟩
  · exact ⟨sr1.off, e, rfl, readFull_error hr⟩
  · rw [hr] at hs; simp at hs

/-- An error that ends the walk at a point the traversal reaches ends the whole
traversal. -/
theorem visitAtomList_abort_of_reaches {σ : Type} (v : Visitor σ) {root : List Tag} {s : σ}
    {sr : SectionReader} {root2 : List Tag} {s2 : σ} {sr2 : SectionReader}
    (hr : Reaches v root s sr root2 s2 sr2) (s3 : σ) (e : Err)
    (he : ∀ fuel, sr2.data.length - sr2.off + 1 ≤ fuel →
      visitAtomList v fuel root2 s2 sr2 = some (s3, some e)) :
    ∀ fuel, sr.data.length - sr.off + 1 ≤ fuel →
      visitAtomList v fuel root s sr = some (s3, some e) := by
  induction hr with
  | here root s sr => exact he
  | next hn hvis hc _ ih =>
    intro fuel hf
    obtain ⟨k, rfl⟩ : ∃ k, fuel = k + 1 := ⟨fuel - 1, by omega⟩
    obtain ⟨h1, -, h3, h4, h5⟩ := nextAtom_ok_inv hn
    rw [visitAtomList]
    simp only [hn, hvis, hc]
    exact ih he k (by rw [h1]; omega)
  | into hn hvis hc _ ih =>
    intro fuel hf
    obtain ⟨k, rfl⟩ : ∃ k, fuel = k + 1 := ⟨fuel - 1, by omega⟩
    obtain ⟨h1, -, h3, h4, h5⟩ := nextAtom_ok_inv hn
    rw [visitAtomList]
    simp only [hn, hvis, hc, if_true]
    rw [ih he k (by simp only; omega)]
  | over hn hvis hc hsub _ ih =>
    intro fuel hf
    obtain ⟨k, rfl⟩ : ∃ k, fuel = k + 1 := ⟨fuel - 1, by omega⟩
    obtain ⟨h1, -, h3, h4, h5⟩ := nextAtom_ok_inv hn
    rw [visitAtomList]
    simp only [hn, hvis, hc, if_true]
    rw [visitAtomList_eq_of_total v _ k _ _ _ _ hsub (by simp only; omega)]
    exact ih he k (by rw [h1]; omega)

/-- A visit that returns an error at a point the traversal reaches: the walk
returns that error. -/
theorem visitAtomList_visit_error_of_reaches {σ : Type} (v : Visitor σ) {root : List Tag}
    {s : σ} {sr : SectionReader} {root2 : List Tag} {s2 : σ} {sr2 : SectionReader}
    (hr : Reaches v root s sr root2 s2 sr2) (sr3 csr : SectionReader) (t : Tag) (s3 : σ)
    (o : Nat) (e : Err) (hn : nextAtom sr2 = (sr3, .ok (t, csr)))
    (hv : v s2 (root2 ++ [t]) csr = (s3, o, some e)) :
    ∀ fuel, sr.data.length - sr.off + 1 ≤ fuel →
      visitAtomList v fuel root s sr = some (s3, some e) := by
  apply visitAtomList_abort_of_reaches v hr
  intro fuel hf
  obtain ⟨k, rfl⟩ : ∃ k, fuel = k + 1 := ⟨fuel - 1, by omega⟩
  rw [visitAtomList]
  simp only [hn, hv]

theorem VisitAtoms_visit_error_of_reaches {σ : Type} (v : Visitor σ) (rs : SectionReader)
    (s : σ) {root2 : List Tag} {s2 : σ} {sr2 : SectionReader}
    (hr : Reaches v [] s (NewSectionReader rs 0 (seekEnd rs).2) root2 s2 sr2)
    (sr3 csr : SectionReader) (t : Tag) (s3 : σ)
    (o : Nat) (e : Err) (hn : nextAtom sr2 = (sr3, .ok (t, csr)))
    (hv : v s2 (root2 ++ [t]) csr = (s3, o, some e)) :
    VisitAtoms v rs s = some (s3, some e) := by
  unfold VisitAtoms
  apply visitAtomList_visit_error_of_reaches v hr sr3 csr t s3 o e hn hv
  exact topSection_fuel rs _

/-- An error of `getAudioChunks` on a qualifying `stco` atom that the walk
reaches is what `GPSLogs` returns, with a nil record list. -/
theorem GPSLogs_stco_error {mem : Nat} (file : List Byte) (csr sr1 : SectionReader) (e : Err)
    (hreach : ReachesStco mem file csr)
    (hg : getAudioChunks mem csr = (sr1, .error e)) :
    GPSLogs mem file = some ([], some e) := by
  obtain ⟨root, sa, sr, sr2, hr, hn, hs, hroot⟩ := hreach
  have hv := Visit_stco_error sa root csr sr1 e hs hroot hg
  have := VisitAtoms_visit_error_of_reaches (sampleAccumulator.Visit mem) (fileReader file)
    sampleAccumulator.fresh hr sr2 csr tagStco _ _ e hn hv
  unfold GPSLogs
  simp only [this]

theorem ReachesStco.off {mem : Nat} {file : List Byte} {csr : SectionReader}
    (h : ReachesStco mem file csr) : csr.off = 0 := by
  obtain ⟨root, sa, sr, sr2, -, hn, -, -⟩ := h
  exact (nextAtom_ok_inv hn).2.2.2.2

set_option maxRecDepth 100000 in
/-- The walk of `hugeCountFile` reaches its `stco` atom with the in-sound flag
set, whatever tables the runtime can allocate. -/
theorem hugeCountFile_reaches (mem : Nat) :
    ReachesStco mem hugeCountFile (viewOf ([0, 0, 0, 0] ++ be32 4294967295)) := by
  refine ⟨[tagMoov, tagTrak, tagMdia, tagMinf, tagStbl], ⟨true, []⟩,
    viewOf (be32 16 ++ tagStco ++ ([0, 0, 0, 0] ++ be32 4294967295)),
    ⟨be32 16 ++ tagStco ++ ([0, 0, 0, 0] ++ be32 4294967295), 16, 16⟩, ?_, by decide, rfl, rfl⟩
  apply Reaches.into (t := tagMoov) (o := 0)
  · rfl
  · rfl
  · decide
  apply Reaches.into (t := tagTrak) (o := 0)
  · rfl
  · rfl
  · decide
  apply Reaches.into (t := tagMdia) (o := 0)
  · rfl
  · rfl
  · decide
  apply Reaches.into (t := tagMinf) (o := 0)
  · rfl
  · rfl
  · decide
  apply Reaches.next (t := tagSmhd) (o := 0)
  · rfl
  · rfl
  · decide
  apply Reaches.into (t := tagStbl) (o := 0)
  · rfl
  · rfl
  · decide
  exact Reaches.here _ _ _

set_option maxRecDepth 100000 in
/-- C13, as stated, fails when the declared entry count is too large to allocate.  The
walk of `hugeCountFile` (64 bytes) reaches a qualifying `stco` atom whose
content view holds 8 bytes and declares `2^32 - 1` entries, fewer bytes than
`8 + 4n`; the table is allocated for the declared count before any entry is
read, and on a runtime that cannot allocate more than `2^30` entries the run
ends out of memory: `GPSLogs` returns nothing, no error either. -/
theorem C13_huge_count_counterexample :
    ReachesStco 1073741824 hugeCountFile (viewOf ([0, 0, 0, 0] ++ be32 4294967295)) ∧
      (viewOf ([0, 0, 0, 0] ++ be32 4294967295)).data.length = 8 ∧
      declaredCount (viewOf ([0, 0, 0, 0] ++ be32 4294967295)) = 4294967295 ∧
      hugeCountFile.length = 64 ∧
      GPSLogs 1073741824 hugeCountFile = some ([], some .outOfMemory) := by
  refine ⟨hugeCountFile_reaches _, by decide, by decide, by decide, by decide⟩

/-- C13, amended: a short read is fatal.  If the collector's walk of the file reaches a
qualifying `stco` atom whose content view holds fewer than 8 bytes, or fewer
than `8 + 4n` bytes for a declared entry count `n` that the runtime can
allocate a table for; or if the decoding visitor is invoked on a window atom
whose content view holds fewer than 84 bytes; then `GPSLogs` returns an error,
`io.EOF` or `io.ErrUnexpectedEOF`, and a nil record list.  If the view of the
qualifying `stco` atom holds at least 8 bytes and declares more entries than
the runtime can allocate, the run ends out of memory. -/
theorem C13_short_read_fatal (mem : Nat) (file : List Byte) :
    (∀ csr : SectionReader,
      (ReachesStco mem file csr ∧ (csr.data.length < 8 ∨
          (csr.data.length < 8 + 4 * declaredCount csr ∧ declaredCount csr ≤ mem))) ∨
        (ReachesWindowAtom mem file csr ∧ csr.data.length < 84) →
      ∃ e, IsReadErr e ∧ GPSLogs mem file = some ([], some e)) ∧
    (∀ csr : SectionReader, ReachesStco mem file csr → 8 ≤ csr.data.length →
      mem < declaredCount csr → GPSLogs mem file = some ([], some .outOfMemory)) := by
  constructor
  · intro csr h
    rcases h with ⟨hreach, hshort⟩ |
      ⟨⟨sa, pre, rest, o, root, g, sr, sr1, t, hwalk, hoffs, hpre, hreach, hn⟩, hshort⟩
    · obtain ⟨sr1, e, hg, he⟩ := @getAudioChunks_short mem csr hreach.off hshort
      exact ⟨e, he, GPSLogs_stco_error file csr sr1 e hreach hg⟩
    · obtain ⟨-, -, -, -, hoff⟩ := nextAtom_ok_inv hn
      obtain ⟨o2, e, hv, he⟩ := accumulatorVisitor_short g (root ++ [t]) csr (by omega)
      have := VisitAtoms_visit_error_of_reaches accumulatorVisitor (gpsWindow file o)
        GPSLog.zero hreach sr1 csr t g o2 e hn hv
      exact ⟨e, he, (GPSLogs_error_at file sa pre rest o g e hwalk hoffs hpre this).1⟩
  · intro csr hreach h8 hbig
    obtain ⟨sr1, hg⟩ := @getAudioChunks_oom mem csr hreach.off h8 hbig
    exact GPSLogs_stco_error file csr sr1 _ hreach hg

set_option maxRecDepth 100000 in
theorem C13_short_read_fatal_witness :
    (∃ e, IsReadErr e ∧ GPSLogs 4294967295 hugeCountFile = some ([], some e)) ∧
      GPSLogs 1000 hugeCountFile = some ([], some .outOfMemory) :=
  ⟨(C13_short_read_fatal 4294967295 hugeCountFile).1 (viewOf ([0, 0, 0, 0] ++ be32 4294967295))
      (Or.inl ⟨hugeCountFile_reaches _, Or.inr ⟨by decide, by decide⟩⟩),
    (C13_short_read_fatal 1000 hugeCountFile).2 (viewOf ([0, 0, 0, 0] ++ be32 4294967295))
      (hugeCountFile_reaches _) (by decide) (by decide)⟩

theorem collects_then {mem : Nat} {L L2 : List Nat} {a b : List (List Tag × SectionReader)}
    (ha : Collects mem L a) (hb : Collects mem L2 b) : Collects mem L2 (a ++ b) := by
  intro sa
  obtain ⟨sa1, r1, -⟩ := ha sa
  obtain ⟨sa2, r2, e2⟩ := hb sa1
  refine ⟨sa2, ?_, e2⟩
  rw [runVisits_append, r1]
  exact r2

theorem track_count_bound (k : SoundTrack) (hwf : k.forest.wf = true) :
    k.table.length < 4294967296 := by
  simp only [SoundTrack.forest, wrap, wf_append, Forest.wf, Bool.and_eq_true,
    decide_eq_true_eq, stcoContent_length] at hwf
  omega

theorem track_collects {mem : Nat} (k : SoundTrack) (hp : k.plain) (hwf : k.forest.wf = true)
    (hmem : k.table.length ≤ mem) :
    Collects mem k.table (k.forest.preorder [tagMoov]) := by
  obtain ⟨hb, hvf, hL⟩ := hp
  unfold SoundTrack.forest
  exact branch_collects [tagMoov] rfl k.pre k.post k.mid k.smhd k.vf k.table hb hvf
    (track_count_bound k hwf) hL hmem

theorem tracks_collects {mem : Nat} (ks : List SoundTrack) : ∀ (last : SoundTrack),
    (∀ k ∈ ks ++ [last], k.plain) → (∀ k ∈ ks ++ [last], k.table.length ≤ mem) →
    (tracksForest (ks ++ [last])).wf = true →
    Collects mem last.table ((tracksForest (ks ++ [last])).preorder [tagMoov]) := by
  induction ks with
  | nil =>
    intro last hp hm hwf
    simp only [List.nil_append, tracksForest, wf_append, Bool.and_eq_true] at hwf ⊢
    rw [preorder_append]
    have := @track_collects mem last (hp last (by simp)) hwf.1 (hm last (by simp))
    simpa [Forest.preorder] using this
  | cons k ks ih =>
    intro last hp hm hwf
    simp only [List.cons_append, tracksForest, wf_append, Bool.and_eq_true] at hwf ⊢
    rw [preorder_append]
    exact collects_then (track_collects k (hp k (by simp)) hwf.1 (hm k (by simp)))
      (ih last (fun x hx => hp x (by simp only [List.cons_append, List.mem_cons]; exact Or.inr hx))
        (fun x hx => hm x (by simp only [List.cons_append, List.mem_cons]; exact Or.inr hx))
        hwf.2)

/-- C15: for a well-formed file whose `moov` atom holds one or more sound-track branches
`ks` followed by a last sound-track branch `last`, each with one qualifying
`stco` table that the runtime can allocate, the walk of a fresh collector
returns no error and leaves `audioOffsets` equal to the table of `last`
alone: the tables of the earlier branches are overwritten, not merged or
appended.  Atoms of any other kind may stand before, between and after the
branches and inside them, video tracks with their own `stco` tables among
them; what makes a branch a sound track with one qualifying table is
`SoundTrack.plain`, and the atoms `before` and `after` the `moov` atom hold no
`smhd` atom. -/
theorem C15_last_table_retained (mem : Nat) (before after : Forest) (ks : List SoundTrack)
    (last : SoundTrack)
    (hwf : (multiTrackFile before after (ks ++ [last])).wf = true)
    (hplain : ∀ k ∈ ks ++ [last], k.plain)
    (hmem : ∀ k ∈ ks ++ [last], k.table.length ≤ mem)
    (hbefore : before.hasTag tagSmhd = false) (hafter : after.hasTag tagSmhd = false) :
    ∃ sa, VisitAtoms (sampleAccumulator.Visit mem)
          (fileReader (multiTrackFile before after (ks ++ [last])).encode)
          sampleAccumulator.fresh = some (sa, none) ∧
      sa.audioOffsets = last.table := by
  have hwf2 : (tracksForest (ks ++ [last])).wf = true := by
    simp only [multiTrackFile, wrap, wf_append, Forest.wf, Bool.and_eq_true] at hwf
    exact hwf.2.1.2
  have hc : Collects mem last.table ((multiTrackFile before after (ks ++ [last])).preorder []) :=
    @collects_wrap mem _ _ _ _ tagMoov []
      (collects_below [] tagMoov _ (tracks_collects ks last hplain hmem hwf2) (by decide))
      (by decide) hbefore hafter
  obtain ⟨sa, hr, ha⟩ := hc sampleAccumulator.fresh
  exact ⟨sa, by rw [VisitAtoms_encode _ Visit_keeps _ _ hwf, hr], ha⟩

set_option maxRecDepth 100000 in
theorem C15_last_table_retained_witness :
    ∃ sa, VisitAtoms (sampleAccumulator.Visit 3)
          (fileReader (multiTrackFile (.leaf tagFree [1, 2, 3] .nil) (.leaf tagMdat [9] .nil)
            ([bareTrack [100, 250], soundAndVideo [1, 2] [7] [4]] ++
              [soundAndVideo [8] [5, 6, 9000] [3, 3, 3, 3]])).encode)
          sampleAccumulator.fresh = some (sa, none) ∧
      sa.audioOffsets = [5, 6, 9000] :=
  C15_last_table_retained 3 (.leaf tagFree [1, 2, 3] .nil) (.leaf tagMdat [9] .nil)
    [bareTrack [100, 250], soundAndVideo [1, 2] [7] [4]]
    (soundAndVideo [8] [5, 6, 9000] [3, 3, 3, 3]) (by decide)
    (fun k hk => by
      simp only [List.cons_append, List.nil_append, List.mem_cons, List.mem_singleton,
        List.not_mem_nil, or_false] at hk
      rcases hk with rfl | rfl | rfl <;> decide)
    (fun k hk => by
      simp only [List.cons_append, List.nil_append, List.mem_cons, List.mem_singleton,
        List.not_mem_nil, or_false] at hk
      rcases hk with rfl | rfl | rfl <;> decide)
    (by decide) (by decide)

theorem lastRecord_cons (g : GPSLog) (a : Tag × List Byte) (r : List (Tag × List Byte)) :
    lastRecord g (a :: r) = lastRecord (recordAt a.2) r := by
  cases r with
  | nil => simp [lastRecord]
  | cons b r =>
    simp only [lastRecord, List.getLast?_cons_cons]
    rcases hl : (b :: r).getLast? with _ | x
    · simp at hl
    · rfl

/-- The decoding walk over valid GPS atoms followed by further bytes `tail`:
the slot holds the record of the last atom when the walk arrives at `tail`. -/
theorem visitAtomList_gps_atoms (atoms : List (Tag × List Byte)) :
    ∀ (root : List Tag) (g : GPSLog) (sr : SectionReader) (fuel : Nat) (tail : List Byte),
    (∀ a ∈ atoms, ValidGPSAtom a) → sr.data.length < 4294967296 →
    sr.data.drop sr.off = (leaves atoms).encode ++ tail →
    sr.data.length - sr.off + 1 ≤ fuel →
    visitAtomList accumulatorVisitor fuel root g sr =
      visitAtomList accumulatorVisitor fuel root (lastRecord g atoms)
        { sr with off := sr.off + (leaves atoms).encode.length } := by
  induction atoms with
  | nil => intro root g sr fuel tail _ _ _ _; simp [leaves, Forest.encode, lastRecord]
  | cons a r ih =>
    intro root g sr fuel tail hv hsmall h hf
    obtain ⟨ht, hnc, h84, hmagic⟩ := hv a (List.mem_cons_self _ _)
    have h' : sr.data.drop sr.off =
        be32 (8 + a.2.length) ++ a.1 ++ a.2 ++ ((leaves r).encode ++ tail) := by
      simpa [leaves, Forest.encode, List.append_assoc] using h
    have hlen : sr.data.length - sr.off =
        8 + a.2.length + ((leaves r).encode.length + tail.length) := by
      have := congrArg List.length h'
      simp only [List.length_drop, List.length_append, be32_length, ht] at this
      omega
    have hna := nextAtom_encoded sr a.1 a.2 _ ht (by omega) h'
    have hd : sr.data.drop (sr.off + 8 + a.2.length) = (leaves r).encode ++ tail := by
      have := drop_add_of_drop _ _ _ _ h'
      simp only [List.length_append, be32_length, ht] at this
      rw [← this]; congr 1; omega
    have hm : (recordAt a.2).Magic = magicGPS := by
      rw [← hmagic, take4_eq _ (by omega)]; rfl
    have hvis : accumulatorVisitor g (root ++ [a.1]) (viewOf a.2) = (recordAt a.2, 84, none) := by
      rw [accumulatorVisitor_of_enough _ _ _ rfl h84]
      simp [viewOf, hm]
    obtain ⟨k, rfl⟩ : ∃ k, fuel = k + 1 := ⟨fuel - 1, by omega⟩
    rw [visitAtomList, hna]
    simp only [hvis, hnc, Bool.false_eq_true, if_false]
    rw [ih root (recordAt a.2) { sr with off := sr.off + 8 + a.2.length } k tail
      (fun b hb => hv b (List.mem_cons_of_mem _ hb)) hsmall hd (by simp only; omega),
      lastRecord_cons]
    simp only [leaves, Forest.encode, List.length_append, be32_length, ht]
    have e1 : sr.off + 8 + a.2.length + (leaves r).encode.length
        = sr.off + (4 + 4 + a.2.length + (leaves r).encode.length) := by omega
    rw [e1]
    obtain ⟨res, hr⟩ := visitAtomList_total accumulatorVisitor k root (lastRecord (recordAt a.2) r)
      { sr with off := sr.off + (4 + 4 + a.2.length + (leaves r).encode.length) }
      (by simp only; omega)
    rw [hr, visitAtomList_mono accumulatorVisitor k _ _ _ _ (k + 1) hr (by omega)]

theorem topSection_gpsWindow (file : List Byte) (o : Nat) :
    NewSectionReader (gpsWindow file o) 0 (seekEnd (gpsWindow file o)).2 =
      ⟨(gpsWindow file o).data, 32768, 0⟩ := by
  have := gpsWindow_data_take file o
  simp only [NewSectionReader, seekEnd, List.drop_zero] at this ⊢
  rw [this]
  rfl

/-- The walk of a window made of valid GPS atoms only: no error, and the slot
holds the record of the last atom. -/
theorem VisitAtoms_window_atoms (file : List Byte) (o : Nat) (atoms : List (Tag × List Byte))
    (hv : ∀ a ∈ atoms, ValidGPSAtom a)
    (hw : (gpsWindow file o).data = (leaves atoms).encode) :
    VisitAtoms accumulatorVisitor (gpsWindow file o) GPSLog.zero =
      some (lastRecord GPSLog.zero atoms, none) := by
  have hl := gpsWindow_length file o
  unfold VisitAtoms
  simp only [topSection_gpsWindow]
  rw [visitAtomList_gps_atoms atoms [] GPSLog.zero _ _ [] hv (by simp only; omega)
    (by simpa using hw) (by simp only; omega)]
  apply visitAtomList_of_nil
  simp only [hw]
  simp

/-- The walk of a window in which valid GPS atoms are followed by an atom that
does not decode: an error. -/
theorem VisitAtoms_window_bad_atom (file : List Byte) (o : Nat) (good : List (Tag × List Byte))
    (t : Tag) (c more : List Byte) (hv : ∀ a ∈ good, ValidGPSAtom a) (ht : t.length = 4)
    (hbad : c.length < 84 ∨ c.take 4 ≠ magicGPS)
    (hw : (gpsWindow file o).data =
      (leaves good).encode ++ (be32 (8 + c.length) ++ t ++ c) ++ more) :
    ∃ g e, VisitAtoms accumulatorVisitor (gpsWindow file o) GPSLog.zero = some (g, some e) := by
  have hl := gpsWindow_length file o
  have hw2 : (gpsWindow file o).data =
      (leaves good).encode ++ (be32 (8 + c.length) ++ t ++ c ++ more) := by
    rw [hw]; simp only [List.append_assoc]
  have hlen := congrArg List.length hw2
  simp only [List.length_append, be32_length, ht] at hlen
  unfold VisitAtoms
  simp only [topSection_gpsWindow]
  rw [visitAtomList_gps_atoms good [] GPSLog.zero _ _ _ hv (by simp only; omega)
    (by simpa using hw2) (by simp only; omega)]
  have hd : (⟨(gpsWindow file o).data, 32768, 0 + (leaves good).encode.length⟩ :
      SectionReader).data.drop (0 + (leaves good).encode.length) =
      be32 (8 + c.length) ++ t ++ c ++ more := by
    simp only [Nat.zero_add]
    rw [hw2]
    exact List.drop_left' rfl
  have hna := nextAtom_encoded
    ⟨(gpsWindow file o).data, 32768, 0 + (leaves good).encode.length⟩ t c more ht (by omega) hd
  rw [visitAtomList, hna]
  simp only [List.nil_append]
  by_cases h84 : 84 ≤ c.length
  · have hmagic : c.take 4 ≠ magicGPS := by
      rcases hbad with h | h
      · omega
      · exact h
    have hm : (recordAt c).Magic ≠ magicGPS := by
      have : (recordAt c).Magic = c.take 4 := by rw [take4_eq _ (by omega)]; rfl
      rw [this]; exact hmagic
    refine ⟨recordAt c, .ErrInvalidGPS, ?_⟩
    rw [accumulatorVisitor_of_enough _ _ _ rfl h84]
    simp [viewOf, hm]
  · obtain ⟨o2, e, hvis, -⟩ := accumulatorVisitor_short (lastRecord GPSLog.zero good) [t]
      (viewOf c) (by simp only [viewOf]; omega)
    exact ⟨_, e, by rw [hvis]⟩

/-- The loop of `GPSLogs` when every window walk returns no error. -/
theorem gpsLoop_results (file : List Byte) (r : Nat → GPSLog) (offs : List Nat) :
    ∀ acc : List GPSLog,
      (∀ o ∈ offs, VisitAtoms accumulatorVisitor (gpsWindow file o) GPSLog.zero
        = some (r o, none)) →
      gpsLoop file offs acc = some (acc ++ offs.map r, none) := by
  induction offs with
  | nil => intro acc _; simp only [gpsLoop, List.map_nil, List.append_nil]
  | cons o rest ih =>
    intro acc h
    have h1 := h o (List.mem_cons_self _ _)
    have h2 := ih (acc ++ [r o]) (fun x hx => h x (List.mem_cons_of_mem _ hx))
    simp only [gpsLoop_cons, h1, h2, List.map_cons, List.append_assoc, List.singleton_append]

/-- C16: when the table was collected: if every window read is made of two or more (or
just one) consecutive non-container atoms that each hold at least 84 content
bytes starting with `"GPS "`, `GPSLogs` returns no error and the record stored
for each offset is the one decoded from the last atom of its window; and if in
the window of an offset (the earlier windows walking without error) one or
more such atoms are followed by an atom that does not decode (fewer than 84
content bytes, or not starting with `"GPS "`), `GPSLogs` returns an error and a
nil list although the first atom held a valid record. -/
theorem C16_last_atom_wins (mem : Nat) (file : List Byte) (sa : sampleAccumulator)
    (hwalk : VisitAtoms (sampleAccumulator.Visit mem) (fileReader file) sampleAccumulator.fresh =
      some (sa, none)) :
    (∀ atoms : Nat → List (Tag × List Byte),
        (∀ o ∈ sa.audioOffsets, atoms o ≠ [] ∧ (∀ a ∈ atoms o, ValidGPSAtom a) ∧
          (gpsWindow file o).data = (leaves (atoms o)).encode) →
        GPSLogs mem file =
          some (sa.audioOffsets.map (fun o => lastRecord GPSLog.zero (atoms o)), none)) ∧
      ∀ (pre rest : List Nat) (o : Nat) (good : List (Tag × List Byte)) (t : Tag)
        (c more : List Byte),
        sa.audioOffsets = pre ++ o :: rest →
        (∀ p ∈ pre, ∃ g, VisitAtoms accumulatorVisitor (gpsWindow file p) GPSLog.zero
          = some (g, none)) →
        good ≠ [] → (∀ a ∈ good, ValidGPSAtom a) → t.length = 4 →
        (c.length < 84 ∨ c.take 4 ≠ magicGPS) →
        (gpsWindow file o).data =
          (leaves good).encode ++ (be32 (8 + c.length) ++ t ++ c) ++ more →
        ∃ e, GPSLogs mem file = some ([], some e) := by
  constructor
  · intro atoms h
    unfold GPSLogs
    simp only [hwalk]
    have := gpsLoop_results file (fun o => lastRecord GPSLog.zero (atoms o)) sa.audioOffsets []
      (fun o ho => VisitAtoms_window_atoms file o (atoms o) (h o ho).2.1 (h o ho).2.2)
    simpa using this
  · intro pre rest o good t c more hoffs hpre _ hv ht hbad hw
    obtain ⟨g, e, he⟩ := VisitAtoms_window_bad_atom file o good t c more hv ht hbad hw
    exact ⟨e, (GPSLogs_error_at file sa pre rest o g e hwalk hoffs hpre he).1⟩

set_option maxRecDepth 100000 in
theorem C16_last_atom_wins_witness :
    GPSLogs 1 twoRecordFile = some ([recordAt gpsRecordBytes2], none) :=
  (C16_last_atom_wins 1 twoRecordFile ⟨false, [4294901828]⟩ (by decide)).1
    (fun _ => [(tagFree, gpsRecordBytes), (tagFree, gpsRecordBytes2)])
    (fun o ho => by
      rw [List.mem_singleton.1 ho]
      refine ⟨by decide, fun a ha => ?_, by decide⟩
      simp only [List.mem_cons, List.mem_singleton, List.not_mem_nil, or_false] at ha
      rcases ha with rfl | rfl <;> exact ⟨by decide, by decide, by decide, by decide⟩)

/-! ## The coordinate conversion: claim C14 -/

theorem modfNonneg_eq (f : ℚ) (h : 0 ≤ f) : modfNonneg f = ((⌊f⌋ : ℚ), f - (⌊f⌋ : ℚ)) := by
  unfold modfNonneg
  split_ifs with h1 h0
  · subst h0; simp
  · have : ⌊f⌋ = 0 := Int.floor_eq_iff.2 ⟨by simpa using h, by simpa using h1⟩
    simp [this]
  · rfl

theorem toDD_nonneg (s : Byte) (v : ℚ) (h : 0 ≤ v) :
    toDD s v = if s = 83 ∨ s = 87 then -floorFormula v else floorFormula v := by
  have h1 : ¬ (v / 100 < 0) := not_lt.2 (div_nonneg h (by norm_num))
  simp only [toDD, Modf, h1, if_false, modfNonneg_eq _ (div_nonneg h (by norm_num : (0:ℚ) ≤ 100)),
    floorFormula]

theorem toDD_neg (s : Byte) (v : ℚ) (h : v < 0) : toDD s v = -toDD s (-v) := by
  have h1 : v / 100 < 0 := div_neg_of_neg_of_pos h (by norm_num)
  have h2 : ¬ (-v / 100 < 0) := not_lt.2 (div_nonneg (by linarith) (by norm_num))
  have e : -(v / 100) = -v / 100 := by ring
  simp only [toDD, Modf, h1, h2, if_true, if_false, e]
  split_ifs <;> ring

theorem floorFormula_degrees_minutes (d : ℕ) (m : ℚ) (h0 : 0 ≤ m) (h1 : m < 100) :
    floorFormula (100 * d + m) = d + m / 60 := by
  have hf : ⌊(100 * (d : ℚ) + m) / 100⌋ = (d : ℤ) := by
    rw [Int.floor_eq_iff]
    constructor
    · push_cast
      rw [le_div_iff₀ (by norm_num)]
      linarith
    · push_cast
      rw [div_lt_iff₀ (by norm_num)]
      linarith
  unfold floorFormula
  rw [hf]
  push_cast
  ring

/-- C14, as stated, fails for a negative value: in exact arithmetic `toDD('N', -150)` is
`-1 + (-1/2)/0.6 = -11/6` (`math.Modf` truncates toward zero), while
`floor(-1.5) + frac(-1.5)/0.6` is `-2 + (1/2)/0.6 = -7/6`. -/
theorem C14_negative_value_counterexample :
    toDD 78 (-150) = -11 / 6 ∧ floorFormula (-150) = -7 / 6 := by
  constructor
  · rw [toDD_neg _ _ (by norm_num), toDD_nonneg _ _ (by norm_num)]
    have hf : ⌊(-(-150 : ℚ)) / 100⌋ = 1 := by
      rw [Int.floor_eq_iff]; norm_num
    have h78 : ¬ ((78 : Byte) = 83 ∨ (78 : Byte) = 87) := by decide
    simp only [floorFormula, hf, h78, if_false]
    norm_num
  · have hf : ⌊(-150 : ℚ) / 100⌋ = -2 := by
      rw [Int.floor_eq_iff]; norm_num
    simp only [floorFormula, hf]
    norm_num

/-- C14, amended: in exact arithmetic, for every value `v >= 0` and every hemisphere byte
`s`, `toDD(s, v)` is `floor(v/100) + frac(v/100)/0.6`, negated when `s` is
`'S'` or `'W'` and not negated for any other `s`; in particular for
`v = 100*d + m` with `d` a natural number and `0 <= m < 100` it is `d + m/60`
up to that sign.  For `v < 0` the integer and fractional parts are taken
toward zero: `toDD(s, v) = -toDD(s, -v)`. -/
theorem C14_toDD_exact (s : Byte) (v : ℚ) :
    (0 ≤ v → toDD s v = if s = 83 ∨ s = 87 then -floorFormula v else floorFormula v) ∧
      (v < 0 → toDD s v = -toDD s (-v)) ∧
      ∀ (d : ℕ) (m : ℚ), 0 ≤ m → m < 100 →
        toDD s (100 * d + m) = if s = 83 ∨ s = 87 then -(d + m / 60) else d + m / 60 := by
  refine ⟨toDD_nonneg s v, toDD_neg s v, fun d m h0 h1 => ?_⟩
  rw [toDD_nonneg _ _ (by positivity), floorFormula_degrees_minutes d m h0 h1]

theorem C14_toDD_exact_witness :
    (0 : ℚ) ≤ 30 ∧ (30 : ℚ) < 100 ∧
      toDD 83 (100 * ((45 : ℕ) : ℚ) + 30) = -(((45 : ℕ) : ℚ) + 30 / 60) ∧
      ((-150 : ℚ) < 0 ∧ toDD 78 (-150) = -toDD 78 (-(-150))) :=
  ⟨by norm_num, by norm_num,
    ((C14_toDD_exact 83 (100 * ((45 : ℕ) : ℚ) + 30)).2.2 45 30 (by norm_num) (by norm_num)).trans
      (if_pos (Or.inl rfl)),
    by norm_num, (C14_toDD_exact 78 (-150)).2.1 (by norm_num)⟩

end Dcutils
